import Mathlib

set_option linter.unusedVariables false

/-
  Verification of the redis-objects storage core (src/unnamed/part_002 and
  src/utls.mjs): the typed flattening/unflattening codec, the subtree
  erase/write protocol, and the serial update queue.

  Modelling conventions:
  * JavaScript numbers are modelled as integers; Date values by their epoch
    millisecond timestamp; functions by their toString() source text.
  * The instance is modelled in its default configuration (storagePath unset).
  * TTL expiry does not change stored content and no claim concerns it, so
    `expire` is not represented.
  * External dependencies of the repository (ioredis, lodash.isequal, the
    `flat` package, the JSON / Number / Date builtins) are not under src/;
    definitions for them are modelled from the spec and marked as such.
-/

namespace RedisObjects

/-- JavaScript values in the codec's universe (the classifier of
src/utls.mjs distinguishes exactly these shapes). Numbers are modelled as
integers, dates by epoch milliseconds, functions by their source text. -/
inductive JVal where
  | vnull : JVal
  | vundef : JVal
  | vbool : Bool → JVal
  | vnum : Int → JVal
  | vstr : String → JVal
  | vdate : Int → JVal
  | varr : List JVal → JVal
  | vobj : List (String × JVal) → JVal
  | vmap : List (JVal × JVal) → JVal
  | vset : List JVal → JVal
  | vfunc : String → JVal
deriving Repr

/-- Property lookup in a JS object modelled as an association list
(first binding wins; objects built by the code have distinct keys). -/
def lookupF : List (String × JVal) → String → Option JVal
  | [], _ => none
  | (k', v) :: rest, k => if k' = k then some v else lookupF rest k

mutual

/-- Structural size of a value (executable; bounds the recursion depth of
deep equality). -/
def jsize : JVal → Nat
  | .vnull => 1
  | .vundef => 1
  | .vbool _ => 1
  | .vnum _ => 1
  | .vstr _ => 1
  | .vdate _ => 1
  | .varr xs => jsizeList xs + 1
  | .vobj fs => jsizeFlds fs + 1
  | .vmap as => jsizePairs as + 1
  | .vset xs => jsizeList xs + 1
  | .vfunc _ => 1

/-- Size of an element list. -/
def jsizeList : List JVal → Nat
  | [] => 0
  | x :: rest => jsize x + jsizeList rest + 1

/-- Size of a field list. -/
def jsizeFlds : List (String × JVal) → Nat
  | [] => 0
  | (_, x) :: rest => jsize x + jsizeFlds rest + 1

/-- Size of an entry-pair list. -/
def jsizePairs : List (JVal × JVal) → Nat
  | [] => 0
  | (a, b) :: rest => jsize a + jsize b + jsizePairs rest + 1

end

/-- Deep equality with a fuel bound on recursion depth (the fuel only ever
needs to cover the structural depth of the left value). Arrays are compared
in order; plain objects by key lookup in both directions; maps and sets as
unordered collections of equal size; dates by timestamp. Distinct function
values are never equal (lodash falls back to reference equality for
functions, and the model has no sharing). -/
def deq : Nat → JVal → JVal → Bool
  | 0, _, _ => false
  | fuel + 1, v, w =>
    match v, w with
    | .vnull, .vnull => true
    | .vundef, .vundef => true
    | .vbool a, .vbool b => a == b
    | .vnum a, .vnum b => a == b
    | .vstr a, .vstr b => a == b
    | .vdate a, .vdate b => a == b
    | .varr xs, .varr ys =>
      xs.length == ys.length && (List.zip xs ys).all (fun p => deq fuel p.1 p.2)
    | .vobj fs, .vobj gs =>
      fs.all (fun kv =>
        match lookupF gs kv.1 with
        | some y => deq fuel kv.2 y
        | none => false) &&
      gs.all (fun kv => (lookupF fs kv.1).isSome)
    | .vmap as, .vmap bs =>
      as.length == bs.length &&
      as.all (fun ab => bs.any (fun cd => deq fuel ab.1 cd.1 && deq fuel ab.2 cd.2))
    | .vset as, .vset bs =>
      as.length == bs.length && as.all (fun x => bs.any (fun y => deq fuel x y))
    | _, _ => false

/-- Modelled from the spec: `lodash.isequal` (a dependency, not part of
this repository), evaluated with fuel equal to the structural size of the
left value, which strictly bounds its recursion depth. -/
def deepEqual (v w : JVal) : Bool := deq (jsize v) v w

/-- JSON text parser, modelled from the spec: the JSON.parse builtin used by
`isJSON` (src/utls.mjs) and by the read path's default coercion. Recursive
descent with a fuel bound; numeric literals are modelled as integers (a
string whose parse would need non-integer numbers is treated as not JSON,
classifying it `string` rather than `json`; either classification
round-trips identically through the codec). -/
def skipWs : List Char → List Char
  | c :: rest => if c = ' ' ∨ c = '\n' ∨ c = '\t' ∨ c = '\r' then skipWs rest else c :: rest
  | [] => []

/-- Split a leading run of decimal digits from the input. -/
def lexDigits : List Char → List Char × List Char
  | c :: rest =>
    if c.isDigit then
      let (ds, rem) := lexDigits rest
      (c :: ds, rem)
    else ([], c :: rest)
  | [] => ([], [])

/-- Decimal value of a digit run. -/
def digitsToNat (ds : List Char) : Nat :=
  ds.foldl (fun acc c => acc * 10 + (c.toNat - '0'.toNat)) 0

/-- Lex a decimal natural number, returning its value and the rest. -/
def lexNat (l : List Char) : Option (Nat × List Char) :=
  match lexDigits l with
  | ([], _) => none
  | (ds, rem) => some (digitsToNat ds, rem)

/-- Lex a JSON string body after the opening quote, handling the common
escapes; returns the decoded characters and the input after the closing
quote. -/
def lexStr (fuel : Nat) (l : List Char) : Option (List Char × List Char) :=
  match fuel, l with
  | 0, _ => none
  | _, [] => none
  | fuel + 1, c :: rest =>
    if c = '"' then some ([], rest)
    else if c = '\\' then
      match rest with
      | e :: rest' =>
        let dec : Option Char :=
          if e = '"' then some '"'
          else if e = '\\' then some '\\'
          else if e = '/' then some '/'
          else if e = 'n' then some '\n'
          else if e = 't' then some '\t'
          else if e = 'r' then some '\r'
          else none
        match dec with
        | some ch =>
          match lexStr fuel rest' with
          | some (cs, rem) => some (ch :: cs, rem)
          | none => none
        | none => none
      | [] => none
    else
      match lexStr fuel rest with
      | some (cs, rem) => some (c :: cs, rem)
      | none => none

mutual

/-- Parse one JSON value; returns the value and the unconsumed input. -/
def jparseVal (fuel : Nat) (l : List Char) : Option (JVal × List Char) :=
  match fuel with
  | 0 => none
  | fuel + 1 =>
    match skipWs l with
    | 'n' :: 'u' :: 'l' :: 'l' :: rest => some (.vnull, rest)
    | 't' :: 'r' :: 'u' :: 'e' :: rest => some (.vbool true, rest)
    | 'f' :: 'a' :: 'l' :: 's' :: 'e' :: rest => some (.vbool false, rest)
    | '"' :: rest =>
      match lexStr (rest.length + 1) rest with
      | some (cs, rem) => some (.vstr ⟨cs⟩, rem)
      | none => none
    | '-' :: rest =>
      match lexNat rest with
      | some (n, rem) =>
        -- reject a fractional part: model integers only
        match rem with
        | '.' :: _ => none
        | _ => some (.vnum (-(n : Int)), rem)
      | none => none
    | '[' :: rest =>
      (match skipWs rest with
       | ']' :: rem => some (.varr [], rem)
       | _ =>
         match jparseElems fuel rest with
         | some (xs, rem) => some (.varr xs, rem)
         | none => none)
    | '{' :: rest =>
      (match skipWs rest with
       | '}' :: rem => some (.vobj [], rem)
       | _ =>
         match jparseMembers fuel rest with
         | some (fs, rem) => some (.vobj fs, rem)
         | none => none)
    | c :: rest =>
      if c.isDigit then
        match lexNat (c :: rest) with
        | some (n, rem) =>
          match rem with
          | '.' :: _ => none
          | _ => some (.vnum (n : Int), rem)
        | none => none
      else none
    | [] => none

/-- Parse one or more comma-separated array elements, then the closing
bracket. -/
def jparseElems (fuel : Nat) (l : List Char) : Option (List JVal × List Char) :=
  match fuel with
  | 0 => none
  | fuel + 1 =>
    match jparseVal fuel l with
    | some (v, rem) =>
      (match skipWs rem with
       | ',' :: rest =>
         (match jparseElems fuel rest with
          | some (xs, rem') => some (v :: xs, rem')
          | none => none)
       | ']' :: rest => some ([v], rest)
       | _ => none)
    | none => none

/-- Parse one or more comma-separated object members, then the closing
brace. -/
def jparseMembers (fuel : Nat) (l : List Char) : Option (List (String × JVal) × List Char) :=
  match fuel with
  | 0 => none
  | fuel + 1 =>
    match skipWs l with
    | '"' :: rest =>
      (match lexStr (rest.length + 1) rest with
       | some (cs, afterKey) =>
         (match skipWs afterKey with
          | ':' :: afterColon =>
            (match jparseVal fuel afterColon with
             | some (v, rem) =>
               (match skipWs rem with
                | ',' :: rest' =>
                  (match jparseMembers fuel rest' with
                   | some (fs, rem') => some ((⟨cs⟩, v) :: fs, rem')
                   | none => none)
                | '}' :: rest' => some ([(⟨cs⟩, v)], rest')
                | _ => none)
             | none => none)
          | _ => none)
       | none => none)
    | _ => none

end

/-- JSON.parse on a whole string: parse one value and require only
whitespace to remain. -/
def jparse (s : String) : Option JVal :=
  match jparseVal (s.length + 1) s.data with
  | some (v, rem) => if (skipWs rem).isEmpty then some v else none
  | none => none

/-- From src/utls.mjs `isJSON`: the string parses as JSON and the result has
typeof "object" and is not null — i.e. an object or an array. -/
def isJSON (s : String) : Bool :=
  match jparse s with
  | some (.vobj _) => true
  | some (.varr _) => true
  | _ => false

/-- From src/utls.mjs `getValueType`, as loaded by the main module: the
main module requires the CommonJS twin utls.js (not under src/), where the
module-level `this` is the exports object, so `this.isJSON` resolves to
`isJSON`. Priority order of the source's conditional chain: null, array,
map, set, date, JSON-parsing string, then the typeof name. -/
def getValueType : JVal → String
  | .vnull => "null"
  | .varr _ => "array"
  | .vmap _ => "map"
  | .vset _ => "set"
  | .vdate _ => "date"
  | .vstr s => if isJSON s then "json" else "string"
  | .vnum _ => "number"
  | .vbool _ => "boolean"
  | .vfunc _ => "function"
  | .vundef => "undefined"
  | .vobj _ => "object"

/-- From src/utls.mjs `getValueType` under the file's own ES-module
semantics: at the top level of an ES module `this` is undefined, so the
`type === "string" && this.isJSON(value)` step throws a TypeError for every
string input; all other inputs short-circuit before touching `this`. -/
def getValueTypeMjs : JVal → Except String String
  | .vnull => .ok "null"
  | .varr _ => .ok "array"
  | .vmap _ => .ok "map"
  | .vset _ => .ok "set"
  | .vdate _ => .ok "date"
  | .vstr _ => .error "TypeError: this is undefined"
  | .vnum _ => .ok "number"
  | .vbool _ => .ok "boolean"
  | .vfunc _ => .ok "function"
  | .vundef => .ok "undefined"
  | .vobj _ => .ok "object"

/-- Left-pad a decimal rendering with zeroes to the given width. -/
def padNat (w n : Nat) : String :=
  let s := Nat.repr n
  ⟨List.replicate (w - s.length) '0'⟩ ++ s

/-- Modelled from the spec: Date.prototype.toISOString on an epoch
millisecond timestamp (the canonical UTC rendering written for date
leaves). Civil date via the standard days-from-epoch conversion. -/
def isoRender (ms : Int) : String :=
  let day : Int := 86400000
  let days : Int := Int.fdiv ms day
  let msod : Nat := (ms - days * day).toNat
  let z : Int := days + 719468
  let era : Int := Int.fdiv z 146097
  let doe : Nat := (z - era * 146097).toNat
  let yoe : Nat := (doe - doe / 1460 + doe / 36524 - doe / 146096) / 365
  let y : Int := (yoe : Int) + era * 400
  let doy : Nat := doe - (365 * yoe + yoe / 4 - yoe / 100)
  let mp : Nat := (5 * doy + 2) / 153
  let d : Nat := doy - (153 * mp + 2) / 5 + 1
  let m : Nat := if mp < 10 then mp + 3 else mp - 9
  let y : Int := if m ≤ 2 then y + 1 else y
  let yStr := if y < 0 then "-" ++ padNat 6 y.natAbs else padNat 4 y.toNat
  yStr ++ "-" ++ padNat 2 m ++ "-" ++ padNat 2 d ++ "T" ++
    padNat 2 (msod / 3600000) ++ ":" ++ padNat 2 (msod / 60000 % 60) ++ ":" ++
    padNat 2 (msod / 1000 % 60) ++ "." ++ padNat 3 (msod % 1000) ++ "Z"

/-- JSON text escaping of one character of a string literal. -/
def jsonEscape (c : Char) : String :=
  if c = '"' then "\\\""
  else if c = '\\' then "\\\\"
  else if c = '\n' then "\\n"
  else if c = '\t' then "\\t"
  else if c = '\r' then "\\r"
  else String.singleton c

mutual

/-- Modelled from the spec: JSON.stringify rendering to text. Used only
where the read path returns a stored rendering as a plain string; dates
render as their quoted ISO string, maps and sets as empty objects. -/
def jsonStr : JVal → String
  | .vnull => "null"
  | .vundef => "null"
  | .vbool b => if b then "true" else "false"
  | .vnum n => toString n
  | .vstr s => "\"" ++ String.join (s.data.map jsonEscape) ++ "\""
  | .vdate ms => "\"" ++ isoRender ms ++ "\""
  | .varr xs => "[" ++ jsonStrElems xs ++ "]"
  | .vobj fs => "\x7b" ++ jsonStrFlds fs ++ "\x7d"
  | .vmap _ => "\x7b\x7d"
  | .vset _ => "\x7b\x7d"
  | .vfunc _ => "null"

/-- Comma-joined array elements. -/
def jsonStrElems : List JVal → String
  | [] => ""
  | [x] => jsonStr x
  | x :: rest => jsonStr x ++ "," ++ jsonStrElems rest

/-- Comma-joined object members. -/
def jsonStrFlds : List (String × JVal) → String
  | [] => ""
  | [(k, v)] => "\"" ++ String.join (k.data.map jsonEscape) ++ "\":" ++ jsonStr v
  | (k, v) :: rest =>
    "\"" ++ String.join (k.data.map jsonEscape) ++ "\":" ++ jsonStr v ++ "," ++ jsonStrFlds rest

end

mutual

/-- Modelled from the spec: the composite JSON.parse of JSON.stringify of a
JS value — what a JSON-encoded leaf decodes back to on read. Dates render
to their ISO string, maps and sets to empty objects, undefined and function
entries of arrays to null, undefined and function fields of objects vanish;
JSON-pure structure is preserved. -/
def jsonRender : JVal → JVal
  | .vnull => .vnull
  | .vundef => .vnull
  | .vbool b => .vbool b
  | .vnum n => .vnum n
  | .vstr s => .vstr s
  | .vdate ms => .vstr (isoRender ms)
  | .varr xs => .varr (jsonRenderElems xs)
  | .vobj fs => .vobj (jsonRenderFlds fs)
  | .vmap _ => .vobj []
  | .vset _ => .vobj []
  | .vfunc _ => .vnull

/-- Array elements under JSON rendering: undefined and functions become
null. -/
def jsonRenderElems : List JVal → List JVal
  | [] => []
  | .vundef :: rest => .vnull :: jsonRenderElems rest
  | .vfunc _ :: rest => .vnull :: jsonRenderElems rest
  | x :: rest => jsonRender x :: jsonRenderElems rest

/-- Object members under JSON rendering: undefined and function fields are
dropped. -/
def jsonRenderFlds : List (String × JVal) → List (String × JVal)
  | [] => []
  | (_, .vundef) :: rest => jsonRenderFlds rest
  | (_, .vfunc _) :: rest => jsonRenderFlds rest
  | (k, v) :: rest => (k, jsonRender v) :: jsonRenderFlds rest

end

/-- Modelled from the spec: a value stored at a key or hash field. Redis
stores byte strings; the model keeps each string's provenance so the read
path's coercions (Number, Date.parse, JSON.parse) are expressed by their
specified behaviour on these renderings rather than by re-verified
printers and parsers: `raw s` is the string s itself, `num n` the decimal
rendering of n, `jsonv j` a JSON text whose parse yields j, `iso ms` the
toISOString text of the timestamp ms. -/
inductive RVal where
  | raw : String → RVal
  | num : Int → RVal
  | jsonv : JVal → RVal
  | iso : Int → RVal
deriving Repr

/-- The literal string content of a stored value (what the JS runtime sees
when it treats the payload as a plain string). -/
def strValOf : RVal → String
  | .raw s => s
  | .num n => toString n
  | .jsonv j => jsonStr j
  | .iso ms => isoRender ms

/-- JSON.parse on a stored payload: a `jsonv` rendering parses to its
source value, a decimal rendering to its number, an ISO timestamp string is
not valid JSON, and a raw string is parsed by the JSON grammar. -/
def parseRVal : RVal → Option JVal
  | .jsonv j => some j
  | .num n => some (.vnum n)
  | .iso _ => none
  | .raw s => jparse s

/-- `isJSON` applied to a stored payload (read path, src/unnamed/part_002
lines 345, 354, 388): parses and yields an object or array. -/
def isJSONr (rv : RVal) : Bool :=
  match parseRVal rv with
  | some (.vobj _) => true
  | some (.varr _) => true
  | _ => false

/-- An entry of the key-value store: a plain string key or a hash. -/
inductive Entry where
  | str : RVal → Entry
  | hash : List (String × RVal) → Entry
deriving Repr

/-- Modelled from the spec: the key-value store port (ioredis client).
An association list from keys to entries with distinct keys. -/
abbrev Store := List (String × Entry)

/-- Store lookup. -/
def sGet : Store → String → Option Entry
  | [], _ => none
  | (k', e) :: rest, k => if k' = k then some e else sGet rest k

/-- Replace the entry at a key in place, appending when absent. -/
def setEntry : Store → String → Entry → Store
  | [], k, e => [(k, e)]
  | (k', e') :: rest, k, e =>
    if k' = k then (k, e) :: rest else (k', e') :: setEntry rest k e

/-- DEL: drop the key. -/
def sdel (st : Store) (k : String) : Store :=
  st.filter (fun kv => kv.1 ≠ k)

/-- SET: store a plain string value, replacing any previous entry. -/
def sset (st : Store) (k : String) (v : RVal) : Store :=
  setEntry st k (.str v)

/-- Replace a hash field in place, appending when absent. -/
def upsertH : List (String × RVal) → String → RVal → List (String × RVal)
  | [], f, v => [(f, v)]
  | (f', v') :: rest, f, v =>
    if f' = f then (f, v) :: rest else (f', v') :: upsertH rest f v

/-- HSET: write one hash field. On a key holding a plain string Redis would
raise WRONGTYPE; no flow proved below reaches that case and the model
replaces the entry. -/
def hset (st : Store) (k f : String) (v : RVal) : Store :=
  match sGet st k with
  | some (.hash fs) => setEntry st k (.hash (upsertH fs f v))
  | _ => setEntry st k (.hash [(f, v)])

/-- HDEL: remove one hash field; Redis drops a hash key whose last field is
removed. A non-hash key is left unchanged (Redis raises WRONGTYPE on a
string key; no proved flow reaches that case). -/
def hdel (st : Store) (k f : String) : Store :=
  match sGet st k with
  | some (.hash fs) =>
    let fs' := fs.filter (fun fv => fv.1 ≠ f)
    if fs'.isEmpty then sdel st k else setEntry st k (.hash fs')
  | _ => st

/-- TYPE: the store-native type name of a key. -/
def stype (st : Store) (k : String) : String :=
  match sGet st k with
  | none => "none"
  | some (.str _) => "string"
  | some (.hash _) => "hash"

/-- Modelled from the spec: cursor-driven SCAN MATCH `pfx*`, collapsed to a
single exhaustive page (the source chains cursors until the store reports
completion; the claims concern the resulting key set). -/
def scanKeys (st : Store) (pfx : String) : List String :=
  (st.map Prod.fst).filter (fun k => pfx.data.isPrefixOf k.data)

/-- HGETALL of a key, as issued inside the read path's pipeline: fields of
a hash, an error for a plain string key (WRONGTYPE), an empty result for a
missing key. -/
def hgetallPipe (st : Store) (k : String) : Except Unit (List (String × RVal)) :=
  match sGet st k with
  | some (.hash fs) => .ok fs
  | some (.str _) => .error ()
  | none => .ok []

/-- Fault model for the store connection (spec section 7): whether the TYPE
probe issued by the subtree erase rejects. -/
structure Client where
  typeFails : Bool

/-- Truthiness of a JS value that is either the boolean false or a string —
the shapes `path`, `item`, `tp` and `tk` take in the source. `false` and
the empty string are falsy. -/
def jsTruthy : Option String → Bool
  | none => false
  | some s => !s.isEmpty

/-- Template-literal rendering of the same shape: the boolean false
interpolates to the text "false". -/
def jsRender : Option String → String
  | none => "false"
  | some s => s

/-- From src/unnamed/part_002 `_extractFinalSegment`: match the string
against ^(.*):([^:]+)$ — split at the last colon provided a nonempty
colon-free final segment follows; on no match return [false, str] with the
argument unchanged. A boolean-false argument is coerced to "false" by the
regex, which contains no colon, so the fallback returns the original
value. -/
def extractFinalSegment : Option String → Option String × Option String
  | none => (none, none)
  | some s =>
    let rev := s.data.reverse
    let finalRev := rev.takeWhile (fun c => c ≠ ':')
    match rev.dropWhile (fun c => c ≠ ':') with
    | ':' :: beforeRev =>
      if finalRev.isEmpty then (none, some s)
      else (some ⟨beforeRev.reverse⟩, some ⟨finalRev.reverse⟩)
    | _ => (none, some s)

/-- Substring test (String.prototype.includes). -/
def strContains : List Char → List Char → Bool
  | _, [] => true
  | [], _ :: _ => false
  | c :: rest, pat => pat.isPrefixOf (c :: rest) || strContains rest pat

/-- Arguments of `_saveItem` (src/unnamed/part_002 line 132). `item` may be
the boolean false when the leaf lives at the bare key. TTL is not modelled
(expiry never changes stored content). -/
structure SaveArgs where
  key : String
  item : Option String
  value : JVal
  oldValue : JVal

/-- The leaf write shared by most `_saveItem` branches: HSET on the hash
field when `item` is truthy, otherwise SET on the plain key. -/
def writeLeaf (st : Store) (key : String) (item : Option String) (rv : RVal) : Store :=
  if jsTruthy item then hset st key (jsRender item) rv else sset st key rv

/-- From src/unnamed/part_002 `_saveItem` (storagePath unset, expiry not
modelled): classify the value; delete the stale `.meta` record when the old
value's type is in the delete list (note: `date` is absent from that list);
then dispatch on the new type, writing a `.meta` tag record for the tagged
types and the rendered payload to the hash field or plain key. For an
array or plain object with a falsy `item` the source calls hset with a
single argument, which the client rejects with a wrong-arity error; the
rejection escapes `_saveItem`'s catch as a rethrown error, modelled as the
error result. Every other branch resolves. -/
def saveItem (st : Store) (a : SaveArgs) : Except Unit Store :=
  let oldType := getValueType a.oldValue
  let key := a.key
  let fullKey := if jsTruthy a.item then key ++ ":" ++ jsRender a.item else key
  let metaKey := fullKey ++ ".meta"
  let st1 :=
    if oldType = "number" ∨ oldType = "raw" ∨ oldType = "json" ∨ oldType = "boolean"
       ∨ oldType = "function" ∨ oldType = "null" ∨ oldType = "map" ∨ oldType = "set"
    then sdel st metaKey else st
  match a.value with
  | .vstr s =>
    -- a JSON-classifying string gets the tag "json" (grouped with
    -- number/raw/boolean in the source)
    .ok (if isJSON s then
      writeLeaf (sset st1 metaKey (.jsonv (.vobj [("type", .vstr "json")]))) key a.item (.raw s)
    else
      writeLeaf st1 key a.item (.raw s))
  | .vnum n =>
    .ok (writeLeaf (sset st1 metaKey (.jsonv (.vobj [("type", .vstr "number")]))) key a.item (.num n))
  | .vbool b =>
    .ok (writeLeaf (sset st1 metaKey (.jsonv (.vobj [("type", .vstr "boolean")]))) key a.item
      (.raw (if b then "true" else "false")))
  | .vdate ms =>
    .ok (writeLeaf (sset st1 metaKey (.jsonv (.vobj [("type", .vstr "date")]))) key a.item (.iso ms))
  | .varr xs =>
    -- no tag; JSON.stringify of the array, or the rejected single-argument
    -- hset when the item is falsy
    if jsTruthy a.item then .ok (hset st1 key (jsRender a.item) (.jsonv (jsonRender (.varr xs))))
    else .error ()
  | .vobj fs =>
    if jsTruthy a.item then .ok (hset st1 key (jsRender a.item) (.jsonv (jsonRender (.vobj fs))))
    else .error ()
  | .vfunc src =>
    let ftag := if !strContains src.data "function".data then "es6_function" else "function"
    .ok (writeLeaf (sset st1 metaKey (.jsonv (.vobj [("type", .vstr ftag)]))) key a.item
      (.jsonv (.vstr src)))
  | .vnull =>
    .ok (writeLeaf (sset st1 metaKey (.jsonv (.vobj [("type", .vstr "null")]))) key a.item
      (.jsonv .vnull))
  | .vmap entries =>
    .ok (writeLeaf (sset st1 metaKey (.jsonv (.vobj [("type", .vstr "map")]))) key a.item
      (.jsonv (jsonRender (.varr (entries.map (fun kv => .varr [kv.1, kv.2]))))))
  | .vset xs =>
    .ok (writeLeaf (sset st1 metaKey (.jsonv (.vobj [("type", .vstr "set")]))) key a.item
      (.jsonv (jsonRender (.varr xs))))
  | .vundef =>
    .ok (if jsTruthy a.item then hdel st1 key (jsRender a.item) else sdel st1 key)

/-- From src/unnamed/part_002 `_deleteKeyPath`: probe the type of
`key:path` (a falsy path interpolates as "false"); on "none" delete the
final path segment as a field of the parent hash; on "hash" or "string"
delete the key itself; then scan `key:path*` and delete every match. A
rejected store operation is caught by a handler that resolves `false`; its
rethrow escapes only the promise executor, so the caller observes an
ordinary `false` resolution — the fault model's failing TYPE probe takes
that path. -/
def deleteKeyPath (cl : Client) (st : Store) (key : String) (path : Option String) :
    Store × Bool :=
  if cl.typeFails then (st, false)
  else
    let probeKey := key ++ ":" ++ jsRender path
    let t := stype st probeKey
    let st1 :=
      if t = "none" then
        let (tp, tk) := extractFinalSegment path
        hdel st (key ++ (if jsTruthy tp then ":" ++ jsRender tp else "")) (jsRender tk)
      else st
    let st2 := if t = "hash" ∨ t = "string" then sdel st1 probeKey else st1
    let st3 := (scanKeys st2 probeKey).foldl (fun acc k => sdel acc k) st2
    (st3, true)

mutual

/-- Modelled from the spec: the `flat` package's flatten with delimiter ":"
and safe mode (spec section 4.2): depth-first paths to every leaf; arrays,
zero-entry containers and all non-plain-object values are leaves; nonempty
plain objects are recursed into with the key joined onto the path. -/
def flattenFields : List (String × JVal) → List (String × JVal)
  | [] => []
  | (k, v) :: rest => flattenOne k v ++ flattenFields rest

/-- The paths contributed by a single key and value. -/
def flattenOne (k : String) : JVal → List (String × JVal)
  | .vobj gs =>
    if gs.isEmpty then [(k, .vobj gs)]
    else (flattenFields gs).map (fun pl => (k ++ ":" ++ pl.1, pl.2))
  | leaf => [(k, leaf)]

end

/-- The path normalisation `path.replaceAll(".", ":")`, applied only when
the path is a string. -/
def replaceDots (s : String) : String :=
  ⟨s.data.map (fun c => if c = '.' then ':' else c)⟩

/-- The for-loop of `update`'s nonempty-object branch: save each flattened
leaf in order, awaiting each `_saveItem`; the first rejection aborts the
loop and propagates. -/
def saveFlat (name : String) (path : Option String) (oldValue : JVal) :
    Store → List (String × JVal) → Except Unit Store
  | st, [] => .ok st
  | st, kl :: rest =>
    let apath := (extractFinalSegment (some kl.1)).1
    let alast := (extractFinalSegment (some kl.1)).2
    match saveItem st
      { key := name ++ (if jsTruthy path then ":" ++ jsRender path else "")
               ++ (if jsTruthy apath then ":" ++ jsRender apath else ""),
        item := alast, value := kl.2, oldValue := oldValue } with
    | .ok st2 => saveFlat name path oldValue st2 rest
    | .error e => .error e

/-- From src/unnamed/part_002 `update` (storagePath unset, expiry not
modelled): return unchanged when the value deep-equals the old value; else
normalise a dotted string path; an undefined value or a zero-key plain
object erases the subtree as the terminal step; a nonempty plain object
erases (ignoring the erase's boolean resolution) and saves every flattened
leaf; every other value is a single leaf write at the final key/field
split. Resolves with the store and the changed flag; a `_saveItem`
rejection propagates through `update`'s catch as an error. -/
def update (cl : Client) (st : Store) (name : String) (path : Option String)
    (value oldValue : JVal) : Except Unit (Store × Bool) :=
  if deepEqual value oldValue then .ok (st, false)
  else
    let path := path.map replaceDots
    let tp := (extractFinalSegment path).1
    let tk := (extractFinalSegment path).2
    match value with
    | .vundef => .ok ((deleteKeyPath cl st name path).1, true)
    | .vobj fields =>
      if fields.isEmpty then .ok ((deleteKeyPath cl st name path).1, true)
      else
        match saveFlat name path oldValue (deleteKeyPath cl st name path).1
            (flattenFields fields) with
        | .ok st2 => .ok (st2, true)
        | .error e => .error e
    | v =>
      match saveItem st
        { key := if jsTruthy tp then name ++ ":" ++ jsRender tp else name,
          item := if jsTruthy tk then tk else path,
          value := v, oldValue := oldValue } with
      | .ok st2 => .ok (st2, true)
      | .error e => .error e

/-- From src/unnamed/part_002 `put`: root-level write through `update` with
path false ("not needed for root-level storage") and oldValue false
("always save"). -/
def put (cl : Client) (st : Store) (name : String) (value : JVal) :
    Except Unit (Store × Bool) :=
  update cl st name none value (.vbool false)

/-- Lexicographic code-unit order (Array.prototype.sort's default string
comparator). -/
def lexLe : List Char → List Char → Bool
  | [], _ => true
  | _ :: _, [] => false
  | c :: cs, d :: ds =>
    if c.toNat < d.toNat then true
    else if d.toNat < c.toNat then false
    else lexLe cs ds

/-- Ordered insertion for the read path's key sort. -/
def insertSorted (s : String) : List String → List String
  | [] => [s]
  | t :: rest => if lexLe s.data t.data then s :: t :: rest else t :: insertSorted s rest

/-- Array.prototype.sort on the scanned keys (default lexicographic
order). -/
def sortStrings : List String → List String
  | [] => []
  | s :: rest => insertSorted s (sortStrings rest)

/-- The read path's tag lookup (src/unnamed/part_002 lines 333-336):
JSON.parse of the GET of a `.meta` key, taking its `type` member. Junk
shapes (missing key, non-JSON payload, absent member) leave the tag
undefined. -/
def metaTypeAt (st : Store) (mk : String) : Option String :=
  match sGet st mk with
  | some (.str rv) =>
    (match parseRVal rv with
     | some (.vobj fs) =>
       (match lookupF fs "type" with
        | some (.vstr t) => some t
        | _ => none)
     | _ => none)
  | _ => none

/-- Number() coercion applied under a `number` tag. A non-numeric rendering
coerces to NaN in JS; no proved flow reaches that case and the model
returns 0 there. -/
def numberCoerce : RVal → JVal
  | .num n => .vnum n
  | .jsonv (.vnum n) => .vnum n
  | _ => .vnum 0

/-- new Date(Date.parse(s)) under a `date` tag: the ISO rendering written
by the save path recovers its millisecond timestamp exactly. Other
renderings give an invalid date; unreached in proved flows. -/
def dateCoerce : RVal → JVal
  | .iso ms => .vdate ms
  | _ => .vdate 0

/-- Destructuring of one JSON map entry by new Map (positions 0 and 1;
short arrays pad with undefined; a non-iterable entry throws in JS and is
unreached in proved flows). -/
def mapEntryOf : JVal → JVal × JVal
  | .varr (k :: v :: _) => (k, v)
  | .varr [k] => (k, .vundef)
  | _ => (.vundef, .vundef)

/-- Read coercion under a `map` tag: new Map(JSON.parse(s)) when the
payload is JSON, else the string unchanged. -/
def mapCoerce (rv : RVal) : JVal :=
  if isJSONr rv then
    match parseRVal rv with
    | some (.varr entries) => .vmap (entries.map mapEntryOf)
    | _ => .vmap []
  else .vstr (strValOf rv)

/-- Read coercion under a `set` tag: new Set(JSON.parse(s)) when the
payload is JSON, else the string unchanged. -/
def setCoerce (rv : RVal) : JVal :=
  if isJSONr rv then
    match parseRVal rv with
    | some (.varr xs) => .vset xs
    | _ => .vset []
  else .vstr (strValOf rv)

/-- Input after the first occurrence of a character. -/
def afterFirst (c : Char) : List Char → Option (List Char)
  | [] => none
  | x :: rest => if x = c then some rest else afterFirst c rest

/-- Characters strictly before the first occurrence of a character; none
when it never occurs. -/
def upTo (c : Char) : List Char → Option (List Char)
  | [] => none
  | x :: rest => if x = c then some [] else (upTo c rest).map (x :: ·)

/-- Characters strictly before the last occurrence of a character. -/
def beforeLast (c : Char) (l : List Char) : Option (List Char) :=
  (afterFirst c l.reverse).map List.reverse

/-- Split on a character (String.prototype.split semantics: the empty input
yields one empty segment). -/
def splitOnChar (c : Char) : List Char → List (List Char)
  | [] => [[]]
  | x :: rest =>
    let r := splitOnChar c rest
    if x = c then [] :: r
    else
      match r with
      | seg :: segs => (x :: seg) :: segs
      | [] => [[x]]

/-- Whitespace for String.prototype.trim. -/
def isWsChar (c : Char) : Bool :=
  c = ' ' || c = '\n' || c = '\t' || c = '\r'

/-- String.prototype.trim: strip whitespace from both ends. -/
def jsTrim (l : List Char) : List Char :=
  ((l.dropWhile isWsChar).reverse.dropWhile isWsChar).reverse

/-- The function-source parameter extraction of the read path: the regex
captures the text between the first "(" and the next ")", split on commas
and trimmed; no parenthesis pair yields no parameters. -/
def fnArgs (src : String) : List String :=
  match afterFirst '(' src.data with
  | some rest =>
    (match upTo ')' rest with
     | some inside => (splitOnChar ',' inside).map (fun seg => (⟨jsTrim seg⟩ : String))
     | none => [])
  | none => []

/-- The function-source body extraction: the text between the first opening
brace and the last closing brace, empty when the pair is absent. -/
def fnBody (src : String) : String :=
  match afterFirst '\x7b' src.data with
  | some rest =>
    (match beforeLast '\x7d' rest with
     | some inside => ⟨inside⟩
     | none => "")
  | none => ""

/-- The stored function source: JSON.parse of the payload, with a falsy
parse replaced by the empty string. -/
def storedFnSrc (rv : RVal) : String :=
  match parseRVal rv with
  | some (.vstr s) => s
  | _ => ""

/-- Read rebuild under an `es6_function` tag: eval of the arrow source
rebuilt from the extracted parameters and body; the resulting function's
source text is exactly that rebuilt form. -/
def es6Rebuild (rv : RVal) : JVal :=
  let src := storedFnSrc rv
  .vfunc ("(" ++ String.intercalate ", " (fnArgs src) ++ ") => \x7b" ++ fnBody src ++ "\x7d")

/-- A maximal run of word characters (regex \w). -/
def wordRun : List Char → List Char
  | [] => []
  | c :: rest => if c.isAlphanum ∨ c = '_' then c :: wordRun rest else []

/-- Read rebuild under a `function` tag: the source is re-created through
new Function returning `function name(args) body`. The name comes from
interpolating the ^function-(\w+) match result: for an anonymous source the
match fails and interpolates as the empty string; for a named source the
whole match array interpolates (full match, comma, group) producing
syntactically broken source on which new Function throws in JS — unreached
in proved flows, the model keeps the interpolated text. -/
def fnRebuild (rv : RVal) : JVal :=
  let src := storedFnSrc rv
  let fnameText :=
    if "function ".data.isPrefixOf src.data then
      let w := wordRun (src.data.drop 9)
      if w.isEmpty then "" else "function " ++ (⟨w⟩ : String) ++ "," ++ (⟨w⟩ : String)
    else ""
  .vfunc ("function " ++ fnameText ++ "(" ++ String.intercalate ", " (fnArgs src) ++
    ") \x7b" ++ fnBody src ++ "\x7d")

/-- Decode one hash field on the read path (src/unnamed/part_002 lines
330-395): the tag comes from a sibling `.meta` key when the scan saw one,
else the typeof of the fetched string; dispatch on the tag; the default
branch JSON-parses self-describing payloads and strips a leading "JSON\x7d\x7d\x7d"
marker from strings that remain strings. -/
def decodeField (st : Store) (children : List String) (c k : String) (rv : RVal) : JVal :=
  let mk := c ++ ":" ++ k ++ ".meta"
  let ktype : String :=
    if children.contains mk then
      match metaTypeAt st mk with
      | some t => t
      | none => "undefined"
    else "string"
  match ktype with
  | "number" => numberCoerce rv
  | "date" => dateCoerce rv
  | "map" => mapCoerce rv
  | "null" => .vnull
  | "boolean" => .vbool (strValOf rv = "true")
  | "set" => setCoerce rv
  | "es6_function" => es6Rebuild rv
  | "function" => fnRebuild rv
  | "json" => .vstr (strValOf rv)
  | _ =>
    let v := if isJSONr rv then (parseRVal rv).getD .vnull else .vstr (strValOf rv)
    match v with
    | .vstr s =>
      if "JSON\x7d\x7d\x7d".data.isPrefixOf s.data then .vstr ⟨s.data.drop 7⟩ else .vstr s
    | other => other

/-- Modelled from the spec: the pre-flattening step of the `flat` package's
unflatten — every scanned key's decoded field map is flattened (safe mode)
and joined onto the key with the ":" delimiter, yielding one flat
path-to-leaf mapping. -/
def joinAll (wo : List (String × List (String × JVal))) : List (String × JVal) :=
  wo.flatMap (fun ce => (flattenFields ce.2).map (fun pl => (ce.1 ++ ":" ++ pl.1, pl.2)))

/-- String.prototype.split(":") on a path. -/
def splitColon (s : String) : List String :=
  (splitOnChar ':' s.data).map (fun l => (⟨l⟩ : String))

/-- Property assignment on a model object: replace in place or append. -/
def upsertF : List (String × JVal) → String → JVal → List (String × JVal)
  | [], k, v => [(k, v)]
  | (k', v') :: rest, k, v =>
    if k' = k then (k, v) :: rest else (k', v') :: upsertF rest k v

/-- Modelled from the spec: the `flat` package's unflatten walk for one
split path (object mode, overwrite off): descend through the segments,
creating an object node where the binding is missing or loosely null,
abandoning the entry where a defined non-object binding is in the way
(an array binding would be descended into in the source; no proved flow
reaches it), and assigning the leaf at the final segment. -/
def insertWalk (fields : List (String × JVal)) (segs : List String) (leaf : JVal) :
    List (String × JVal) :=
  match segs with
  | [] => fields
  | [k] => upsertF fields k leaf
  | k :: rest =>
    match lookupF fields k with
    | some (.vobj gs) => upsertF fields k (.vobj (insertWalk gs rest leaf))
    | none => upsertF fields k (.vobj (insertWalk [] rest leaf))
    | some .vnull => upsertF fields k (.vobj (insertWalk [] rest leaf))
    | some .vundef => upsertF fields k (.vobj (insertWalk [] rest leaf))
    | some _ => fields

/-- Modelled from the spec: the `flat` package's unflatten with delimiter
":", object mode, safe mode — fold the walk over the mapping in order. The
final assignment stores the decoded leaf itself (decoded leaves are never
nonempty plain objects in the flows below, so the source's inner
re-unflatten of the leaf is the identity there). -/
def unflattenV (m : List (String × JVal)) : JVal :=
  .vobj (m.foldl (fun acc pl => insertWalk acc (splitColon pl.1) pl.2) [])

/-- JS falsiness of a decoded value (the `workingObject[path] ||
workingObject` resolution). -/
def jsFalsyV : JVal → Bool
  | .vundef => true
  | .vnull => true
  | .vbool b => !b
  | .vnum n => n == 0
  | .vstr s => s.isEmpty
  | _ => false

/-- From src/unnamed/part_002 `get` (storagePath unset): scan every key
under the name; sort; pipeline HGETALL over each (plain string keys error
inside the pipeline and are skipped); decode each hash field through its
tag; unflatten the joined mapping; when the result has no keys, fall back
to probing the name's own store type and return its string value or raw
hash fields without coercion; finally resolve workingObject[path] when that
property exists and is truthy, else the working object itself. -/
def get (st : Store) (name : String) : JVal :=
  let childrenRaw := scanKeys st name
  let joined :=
    if childrenRaw.length > 0 then
      let children := sortStrings childrenRaw
      joinAll (children.filterMap (fun c =>
        match hgetallPipe st c with
        | .ok d => some (c, d.map (fun kv => (kv.1, decodeField st children c kv.1 kv.2)))
        | .error _ => none))
    else []
  let wobj := unflattenV joined
  let wobj : JVal :=
    match wobj with
    | .vobj [] =>
      (match stype st name with
       | "string" =>
         (match sGet st name with
          | some (.str rv) => .vstr (strValOf rv)
          | _ => .vobj [])
       | "hash" =>
         (match sGet st name with
          | some (.hash fs) => .vobj (fs.map (fun fv => (fv.1, .vstr (strValOf fv.2))))
          | _ => .vobj [])
       | _ => .vobj [])
    | w => w
  match wobj with
  | .vobj fs =>
    (match lookupF fs name with
     | some v => if jsFalsyV v then .vobj fs else v
     | none => .vobj fs)
  | w => w

/-- A queued update request, abstracted for the queue claims to an
identity plus whether applying it through `update` rejects with a
store-operation failure (spec section 7). A request object is truthy, so
the drain loop's shift test never stops on one. -/
structure Req where
  rid : Nat
  fails : Bool
deriving Repr, DecidableEq

/-- The queue subsystem state of one instance, with history ghosts:
`queue` is this.queue, `lock` is this.queueLock, `active` counts
processQueue invocations currently past the lock gate, `applied` lists the
requests whose update resolved, in completion order, and `submitted` every
request ever passed to queueUpdate, in submission order. -/
structure QState where
  queue : List Req
  lock : Bool
  active : Nat
  applied : List Req
  submitted : List Req
deriving Repr, DecidableEq

/-- The state of a fresh instance (constructor, src/unnamed/part_002 lines
19-20). -/
def QInit : QState := ⟨[], false, 0, [], []⟩

/-- Steps taken by a running drain loop (processQueue past the lock gate),
at the granularity of its await points. -/
inductive QDrain : QState → QState → Prop where
  /-- the loop shifts the head request and its update resolves. -/
  | applyOk (r : Req) (q : List Req) (a : Nat) (ap sub : List Req) :
      r.fails = false →
      QDrain ⟨r :: q, true, a + 1, ap, sub⟩ ⟨q, true, a + 1, ap ++ [r], sub⟩
  /-- the loop shifts the head request, its update rejects, and the wrapped
  error propagates out of processQueue: the loop stops with the lock still
  held — the source's catch never resets this.queueLock. -/
  | applyFail (r : Req) (q : List Req) (a : Nat) (ap sub : List Req) :
      r.fails = true →
      QDrain ⟨r :: q, true, a + 1, ap, sub⟩ ⟨q, true, a, ap, sub⟩
  /-- the loop shifts undefined from the empty queue, releases the lock,
  and the synchronous length recheck finds nothing left. -/
  | finish (a : Nat) (ap sub : List Req) :
      QDrain ⟨[], true, a + 1, ap, sub⟩ ⟨[], false, a, ap, sub⟩

/-- One event of the queue subsystem: a queueUpdate call (push, then
processQueue returning at the lock check or taking the lock) or a step of
the running drain. JavaScript's run-to-completion semantics make each
listed step atomic. -/
inductive QStep : QState → QState → Prop where
  /-- queueUpdate while a drain holds the lock: append; processQueue
  returns immediately at the lock check. -/
  | enqLocked (r : Req) (q : List Req) (a : Nat) (ap sub : List Req) :
      QStep ⟨q, true, a, ap, sub⟩ ⟨q ++ [r], true, a, ap, sub ++ [r]⟩
  /-- queueUpdate while unlocked: append; processQueue takes the lock and
  enters the drain loop. -/
  | enqUnlocked (r : Req) (q : List Req) (a : Nat) (ap sub : List Req) :
      QStep ⟨q, false, a, ap, sub⟩ ⟨q ++ [r], true, a + 1, ap, sub ++ [r]⟩
  /-- a step of the running drain loop. -/
  | drain {s t : QState} : QDrain s t → QStep s t

/-- States reachable from a fresh instance. -/
inductive QReach : QState → Prop where
  | init : QReach QInit
  | step {s t : QState} : QReach s → QStep s t → QReach t

/-- Executable drain under the lock (the while loop of processQueue):
apply queued updates in order until the queue empties — then release the
lock — or until one rejects — then stop with the lock still held. -/
def runDrain : List Req → List Req → List Req → QState
  | [], ap, sub => ⟨[], false, 0, ap, sub⟩
  | r :: q, ap, sub =>
    if r.fails then ⟨q, true, 0, ap, sub⟩ else runDrain q (ap ++ [r]) sub

/-- Executable queueUpdate under the schedule in which each triggered
drain runs to completion (or to its failure) before the next call: append,
then drain when the lock is free, return immediately when it is held. -/
def runEnqueue (s : QState) (r : Req) : QState :=
  if s.lock then ⟨s.queue ++ [r], true, s.active, s.applied, s.submitted ++ [r]⟩
  else runDrain (s.queue ++ [r]) s.applied (s.submitted ++ [r])

/-- The classifier tags for which `_saveItem` writes a `.meta` record for
the new value (src/unnamed/part_002 lines 160-245). -/
def taggedType (t : String) : Bool :=
  t = "json" || t = "number" || t = "boolean" || t = "date" || t = "function" ||
  t = "null" || t = "map" || t = "set"

/-- The old-value tags for which `_saveItem` deletes the previous `.meta`
record (src/unnamed/part_002 lines 145-157); note that "date" is absent. -/
def staleDeleteType (t : String) : Bool :=
  t = "number" || t = "raw" || t = "json" || t = "boolean" || t = "function" ||
  t = "null" || t = "map" || t = "set"

/-- The `.meta` key addressed by a leaf write. -/
def metaKeyOf (a : SaveArgs) : String :=
  (if jsTruthy a.item then a.key ++ ":" ++ jsRender a.item else a.key) ++ ".meta"

/-- The tag text `_saveItem` writes for a tagged value (a function source
without the word "function" is tagged es6_function; a string is tagged
only when it classifies as json). -/
def writtenTag : JVal → String
  | .vfunc src => if !strContains src.data "function".data then "es6_function" else "function"
  | .vdate _ => "date"
  | .vnum _ => "number"
  | .vbool _ => "boolean"
  | .vnull => "null"
  | .vmap _ => "map"
  | .vset _ => "set"
  | .vstr _ => "json"
  | _ => ""

/-- Hash-field lookup (first binding wins; hashes built by the code have
distinct fields). -/
def lookupH : List (String × RVal) → String → Option RVal
  | [], _ => none
  | (f', v) :: rest, f => if f' = f then some v else lookupH rest f

/-- The field binding of a hash key in the store, if any. -/
def fldGet (st : Store) (c f : String) : Option RVal :=
  match sGet st c with
  | some (.hash h) => lookupH h f
  | _ => none

/-- The tag record payload `_saveItem` writes for a tagged value. -/
def tagMeta (v : JVal) : RVal :=
  .jsonv (.vobj [("type", .vstr (writtenTag v))])

/-- The leaf payload `_saveItem` writes (summary of its write table; the
lemma saveItem_put_shape derives it from the definition). -/
def encLeaf : JVal → RVal
  | .vstr s => .raw s
  | .vnum n => .num n
  | .vbool b => .raw (if b then "true" else "false")
  | .vdate ms => .iso ms
  | .vnull => .jsonv .vnull
  | .vmap entries => .jsonv (jsonRender (.varr (entries.map (fun kv => .varr [kv.1, kv.2]))))
  | .vset xs => .jsonv (jsonRender (.varr xs))
  | .varr xs => .jsonv (jsonRender (.varr xs))
  | .vobj fs => .jsonv (jsonRender (.vobj fs))
  | .vfunc src => .jsonv (.vstr src)
  | .vundef => .raw ""

/-- Whether `_saveItem` writes a tag record for this value. -/
def taggedLeaf (v : JVal) : Bool := taggedType (getValueType v)

/-- A safe path segment for the round-trip statement: nonempty, without
the ":" delimiter (which would split into several segments) and without
"." (which would collide with the ".meta" tag keys). -/
def segOk (s : String) : Bool :=
  !s.data.isEmpty && s.data.all (fun c => c ≠ ':' && c ≠ '.')

/-- A safe object name: a safe segment that also avoids the characters the
store's MATCH patterns treat specially (the model reads `name*` as a
literal prefix). -/
def nameOk (s : String) : Bool :=
  segOk s && s.data.all (fun c => c ≠ '*' && c ≠ '?' && c ≠ '[' && c ≠ '\\')

/-- Duplicate-free keys of an object field list. -/
def nodupKeysB : List (String × JVal) → Bool
  | [] => true
  | (k, _) :: rest => rest.all (fun kv => kv.1 != k) && nodupKeysB rest

mutual

/-- A pure-JSON value: the fragment on which JSON.stringify then JSON.parse
is the identity and deep equality is reflexive — no dates, maps, sets,
functions or undefined anywhere, and object keys distinct (a native JS
object never has duplicate keys). -/
def pureJSON : JVal → Bool
  | .vnull => true
  | .vbool _ => true
  | .vnum _ => true
  | .vstr _ => true
  | .varr xs => pureJSONList xs
  | .vobj fs => nodupKeysB fs && pureJSONFlds fs
  | _ => false

/-- Pure-JSON elements. -/
def pureJSONList : List JVal → Bool
  | [] => true
  | x :: rest => pureJSON x && pureJSONList rest

/-- Pure-JSON field values. -/
def pureJSONFlds : List (String × JVal) → Bool
  | [] => true
  | (_, v) :: rest => pureJSON v && pureJSONFlds rest

end

mutual

/-- Well-formedness of a stored value for the round-trip statement: the
supported leaf types — strings not beginning with the read path's
"JSON\x7d\x7d\x7d" marker, numbers, booleans, null, dates, pure-JSON
arrays, maps and sets with pure-JSON entries, empty objects — and nonempty
plain objects whose keys are safe segments, distinct per level, with
well-formed values. Functions are excluded (two distinct function values
are never deep-equal) and undefined is excluded (an undefined leaf is a
deletion, not a write). -/
def wfVal : JVal → Bool
  | .vstr s => !("JSON\x7d\x7d\x7d".data.isPrefixOf s.data)
  | .vnum _ => true
  | .vbool _ => true
  | .vnull => true
  | .vdate _ => true
  | .varr xs => pureJSONList xs
  | .vmap entries => entries.all (fun kv => pureJSON kv.1 && pureJSON kv.2)
  | .vset xs => pureJSONList xs
  | .vobj fs => wfFlds fs
  | .vfunc _ => false
  | .vundef => false

/-- Well-formed object fields: safe, per-level-distinct keys with
well-formed values. -/
def wfFlds : List (String × JVal) → Bool
  | [] => true
  | (k, v) :: rest =>
    segOk k && wfVal v && rest.all (fun kv => kv.1 != k) && wfFlds rest

end

/-- A value `flatten` leaves as a leaf: anything except a nonempty plain
object. -/
def isLeafVal : JVal → Bool
  | .vobj fs => fs.isEmpty
  | _ => true

mutual

/-- The flattened leaves of an object, kept as segment lists (the lemma
flattenFields_eq_segLeaves relates this to flattenFields through
joinSegs). -/
def segLeaves : List (String × JVal) → List (List String × JVal)
  | [] => []
  | (k, v) :: rest => segOne k v ++ segLeaves rest

/-- The segment-list entries contributed by one key and value. -/
def segOne (k : String) : JVal → List (List String × JVal)
  | .vobj gs =>
    if gs.isEmpty then [([k], .vobj gs)]
    else (segLeaves gs).map (fun e => (k :: e.1, e.2))
  | .vnull => [([k], .vnull)]
  | .vundef => [([k], .vundef)]
  | .vbool b => [([k], .vbool b)]
  | .vnum n => [([k], .vnum n)]
  | .vstr s => [([k], .vstr s)]
  | .vdate ms => [([k], .vdate ms)]
  | .varr xs => [([k], .varr xs)]
  | .vmap as => [([k], .vmap as)]
  | .vset xs => [([k], .vset xs)]
  | .vfunc src => [([k], .vfunc src)]

end

/-- Join segments with the ":" delimiter. -/
def joinSegs : List String → String
  | [] => ""
  | [s] => s
  | s :: rest => s ++ ":" ++ joinSegs rest

/-- The entries of an unflatten input whose first segment is the given
key, with that segment stripped. -/
def grp (k : String) (m : List (List String × JVal)) : List (List String × JVal) :=
  m.filterMap (fun sl =>
    match sl.1 with
    | s :: rest => if s = k then some (rest, sl.2) else none
    | [] => none)

/-- The field list of a plain object value. -/
def objFields : JVal → List (String × JVal)
  | .vobj gs => gs
  | _ => []

/-- The unflatten walk folded over a list of split paths. -/
def foldIns (fields : List (String × JVal)) (m : List (List String × JVal)) :
    List (String × JVal) :=
  m.foldl (fun acc sl => insertWalk acc sl.1 sl.2) fields

/-- What the walk does to one binding: the bindings of other keys never
touch it, and each entry of its group updates it exactly as insertWalk
would (lemma lookupF_foldIns). -/
def subFold : Option JVal → List (List String × JVal) → Option JVal
  | cur, [] => cur
  | _, ([], leaf) :: g => subFold (some leaf) g
  | cur, (s :: rest, leaf) :: g =>
    match cur with
    | some (.vobj gs) => subFold (some (.vobj (insertWalk gs (s :: rest) leaf))) g
    | none => subFold (some (.vobj (insertWalk [] (s :: rest) leaf))) g
    | some .vnull => subFold (some (.vobj (insertWalk [] (s :: rest) leaf))) g
    | some .vundef => subFold (some (.vobj (insertWalk [] (s :: rest) leaf))) g
    | some other => subFold (some other) g

/-- One flattened leaf write of the object save fold: the store transition
`_saveItem` performs for a leaf at segment list `e.1` under the given name
when the old value is the boolean false — stale-tag delete, tag record for
tagged types, hash-field payload (the lemma saveItem_boolold derives it
from `_saveItem`). -/
def saveStep (name : String) (st : Store) (e : List String × JVal) : Store :=
  let hk := joinSegs (name :: e.1.dropLast)
  let f := e.1.getLastD ""
  let mk := hk ++ ":" ++ f ++ ".meta"
  let st1 := sdel st mk
  let st2 := if taggedLeaf e.2 then sset st1 mk (tagMeta e.2) else st1
  hset st2 hk f (encLeaf e.2)

/-- The object save fold over a leaf list. -/
def saveFold (name : String) (st : Store) (E : List (List String × JVal)) : Store :=
  E.foldl (saveStep name) st

/-- The hash key a leaf is written under. -/
def hkeyOf (name : String) (e : List String × JVal) : String :=
  joinSegs (name :: e.1.dropLast)

/-- The hash field a leaf is written to. -/
def fldOf (e : List String × JVal) : String :=
  e.1.getLastD ""

/-- The tag-record key of a leaf. -/
def mkOf (name : String) (e : List String × JVal) : String :=
  joinSegs (name :: e.1.dropLast) ++ ":" ++ e.1.getLastD "" ++ ".meta"

/-- The hash fields the save fold writes under one hash key, in fold
order. -/
def hContrib (name : String) (q : String) (E : List (List String × JVal)) :
    List (String × RVal) :=
  E.filterMap (fun e => if hkeyOf name e = q then some (fldOf e, encLeaf e.2) else none)

/-- A concrete object exercising every leaf type that survives the codec:
string, number, boolean, null, date, array, nested object, map and set. -/
def demoObj : List (String × JVal) :=
  [("s", .vstr "hello"),
   ("n", .vnum 42),
   ("b", .vbool true),
   ("z", .vnull),
   ("d", .vdate 1700000000000),
   ("a", .varr [.vnum 1, .vstr "two", .vbool false]),
   ("o", .vobj [("x", .vnum 1), ("y", .vstr "why")]),
   ("m", .vmap [(.vstr "k1", .vnum 7), (.vstr "k2", .vstr "v")]),
   ("t", .vset [.vnum 1, .vnum 2, .vnum 3])]

/-
  Theorems. Helper lemmas first, then one theorem per claim (witnesses and
  counterexamples where applicable).
-/

theorem splitOnChar_not_mem (c : Char) (l : List Char) (h : c ∉ l) :
    splitOnChar c l = [l] := by
  induction l with
  | nil => rfl
  | cons x rest ih =>
    have hx : x ≠ c := fun he => h (he ▸ List.mem_cons_self x rest)
    have hr := ih (fun hm => h (List.mem_cons_of_mem x hm))
    rw [splitOnChar, hr]
    simp [hx]

theorem splitOnChar_append (c : Char) (a b : List Char) (h : c ∉ a) :
    splitOnChar c (a ++ c :: b) = a :: splitOnChar c b := by
  induction a with
  | nil => simp [splitOnChar]
  | cons x rest ih =>
    have hx : x ≠ c := fun he => h (he ▸ List.mem_cons_self x rest)
    have hr := ih (fun hm => h (List.mem_cons_of_mem x hm))
    rw [List.cons_append, splitOnChar, hr]
    simp [hx]

theorem data_mk (l : List Char) : (⟨l⟩ : String).data = l := rfl

theorem mk_data (s : String) : (⟨s.data⟩ : String) = s := rfl

theorem data_append_colon (d t : String) :
    (d ++ ":" ++ t).data = d.data ++ ':' :: t.data := by
  rw [String.data_append, String.data_append, List.append_assoc]
  rfl

theorem splitColon_no_colon (s : String) (h : ':' ∉ s.data) : splitColon s = [s] := by
  unfold splitColon
  rw [splitOnChar_not_mem _ _ h]
  rfl

theorem splitColon_append (d t : String) (h : ':' ∉ d.data) :
    splitColon (d ++ ":" ++ t) = d :: splitColon t := by
  unfold splitColon
  rw [data_append_colon, splitOnChar_append _ _ _ h]
  rfl

theorem joinSegs_cons (s : String) (rest : List String) (h : rest ≠ []) :
    joinSegs (s :: rest) = s ++ ":" ++ joinSegs rest := by
  cases rest with
  | nil => exact absurd rfl h
  | cons _ _ => rfl

theorem splitColon_joinSegs (segs : List String) (h : segs ≠ [])
    (hall : ∀ s ∈ segs, ':' ∉ s.data) : splitColon (joinSegs segs) = segs := by
  induction segs with
  | nil => exact absurd rfl h
  | cons s rest ih =>
    cases rest with
    | nil => exact splitColon_no_colon s (hall s (List.mem_cons_self s []))
    | cons s2 r2 =>
      rw [joinSegs_cons s (s2 :: r2) (by simp),
        splitColon_append _ _ (hall s (List.mem_cons_self s _)),
        ih (by simp) (fun x hx => hall x (List.mem_cons_of_mem s hx))]

theorem takeWhile_all_append (p : Char → Bool) (a : List Char) (y : Char) (b : List Char)
    (ha : ∀ x ∈ a, p x = true) (hy : p y = false) :
    (a ++ y :: b).takeWhile p = a := by
  induction a with
  | nil => simp [List.takeWhile, hy]
  | cons x rest ih =>
    rw [List.cons_append, List.takeWhile]
    rw [ha x (List.mem_cons_self x rest)]
    rw [ih (fun z hz => ha z (List.mem_cons_of_mem x hz))]

theorem dropWhile_all_append (p : Char → Bool) (a : List Char) (y : Char) (b : List Char)
    (ha : ∀ x ∈ a, p x = true) (hy : p y = false) :
    (a ++ y :: b).dropWhile p = y :: b := by
  induction a with
  | nil => simp [List.dropWhile, hy]
  | cons x rest ih =>
    rw [List.cons_append, List.dropWhile]
    rw [ha x (List.mem_cons_self x rest)]
    exact ih (fun z hz => ha z (List.mem_cons_of_mem x hz))

theorem extract_no_colon (t : String) (h : ':' ∉ t.data) :
    extractFinalSegment (some t) = (none, some t) := by
  unfold extractFinalSegment
  dsimp only
  have hall : ∀ x ∈ t.data.reverse, (fun c => decide (c ≠ ':')) x = true := by
    intro x hx
    simp only [decide_eq_true_eq]
    exact fun he => h (he ▸ (List.mem_reverse).mp hx)
  rw [List.dropWhile_eq_nil_iff.mpr (fun x hx => hall x hx)]

theorem extract_last (d t : String) (ht : ':' ∉ t.data) (htne : t.data ≠ []) :
    extractFinalSegment (some (d ++ ":" ++ t)) = (some d, some t) := by
  unfold extractFinalSegment
  dsimp only
  have hrev : (d ++ ":" ++ t).data.reverse = t.data.reverse ++ ':' :: d.data.reverse := by
    rw [data_append_colon, List.reverse_append, List.reverse_cons, List.append_assoc]
    rfl
  have hall : ∀ x ∈ t.data.reverse, (fun c => decide (c ≠ ':')) x = true := by
    intro x hx
    simp only [decide_eq_true_eq]
    exact fun he => ht (he ▸ (List.mem_reverse).mp hx)
  rw [hrev, takeWhile_all_append _ _ _ _ hall (by simp),
    dropWhile_all_append _ _ _ _ hall (by simp)]
  simp only [List.isEmpty_eq_true, List.reverse_eq_nil_iff]
  rw [if_neg htne]
  simp [List.reverse_reverse]

theorem jsizeFlds_cons (k : String) (v : JVal) (rest : List (String × JVal)) :
    jsizeFlds ((k, v) :: rest) = jsize v + jsizeFlds rest + 1 := rfl

theorem jsize_vobj (fs : List (String × JVal)) : jsize (.vobj fs) = jsizeFlds fs + 1 := rfl

/-- Every flattened entry's segment list is nonempty, and its head is a key
of the object. -/
theorem segLeaves_head_mem (fs : List (String × JVal)) :
    ∀ e ∈ segLeaves fs, ∃ hd tl, e.1 = hd :: tl ∧ hd ∈ fs.map Prod.fst := by
  induction fs with
  | nil => intro e he; cases he
  | cons kv rest ih =>
    obtain ⟨k, v⟩ := kv
    intro e he
    rw [segLeaves, List.mem_append] at he
    cases he with
    | inl hin =>
      cases v
      case vobj gs =>
        rw [segOne] at hin
        by_cases hg : gs.isEmpty
        · rw [if_pos hg, List.mem_singleton] at hin
          subst hin
          exact ⟨k, [], rfl, by simp⟩
        · rw [if_neg hg, List.mem_map] at hin
          obtain ⟨e', _, he'⟩ := hin
          subst he'
          exact ⟨k, e'.1, rfl, by simp⟩
      all_goals rw [segOne, List.mem_singleton] at hin
      all_goals subst hin
      all_goals exact ⟨k, [], rfl, by simp⟩
    | inr hin =>
      obtain ⟨hd, tl, he1, hmem⟩ := ih e hin
      exact ⟨hd, tl, he1, by simp [hmem]⟩

theorem jsize_pos (v : JVal) : 0 < jsize v := by
  cases v <;> simp [jsize]

/-- The flattened paths are the joined segment lists (fuel-indexed form). -/
theorem flatten_seg_aux : ∀ (n : Nat) (fs : List (String × JVal)), jsizeFlds fs ≤ n →
    flattenFields fs = (segLeaves fs).map (fun e => (joinSegs e.1, e.2)) := by
  intro n
  induction n with
  | zero =>
    intro fs h
    cases fs with
    | nil => rfl
    | cons kv rest =>
      obtain ⟨k, v⟩ := kv
      rw [jsizeFlds_cons] at h
      exact absurd h (by omega)
  | succ n ih =>
    intro fs h
    cases fs with
    | nil => rfl
    | cons kv rest =>
      obtain ⟨k, v⟩ := kv
      rw [jsizeFlds_cons] at h
      rw [flattenFields, segLeaves, List.map_append, ih rest (by omega)]
      congr 1
      cases v
      case vobj gs =>
        rw [flattenOne, segOne]
        by_cases hg : gs.isEmpty
        · rw [if_pos hg, if_pos hg]
          rfl
        · rw [if_neg hg, if_neg hg]
          rw [jsize_vobj] at h
          rw [ih gs (by omega), List.map_map, List.map_map]
          apply List.map_congr_left
          intro e he
          obtain ⟨hd, tl, he1, _⟩ := segLeaves_head_mem gs e he
          simp only [Function.comp_apply]
          rw [joinSegs_cons _ _ (by rw [he1]; simp)]
      all_goals rfl

/-- The flattened paths are the joined segment lists. -/
theorem flattenFields_eq_segLeaves (fs : List (String × JVal)) :
    flattenFields fs = (segLeaves fs).map (fun e => (joinSegs e.1, e.2)) :=
  flatten_seg_aux (jsizeFlds fs) fs (Nat.le_refl _)

/-- Each entry contributed by one binding starts with that binding's key. -/
theorem segOne_head (k : String) (v : JVal) :
    ∀ e ∈ segOne k v, ∃ tl, e.1 = k :: tl := by
  intro e he
  cases v
  case vobj gs =>
    rw [segOne] at he
    by_cases hg : gs.isEmpty
    · rw [if_pos hg, List.mem_singleton] at he
      subst he
      exact ⟨[], rfl⟩
    · rw [if_neg hg, List.mem_map] at he
      obtain ⟨e', _, he'⟩ := he
      subst he'
      exact ⟨e'.1, rfl⟩
  all_goals rw [segOne, List.mem_singleton] at he
  all_goals subst he
  all_goals exact ⟨[], rfl⟩

/-- One binding always contributes at least one flattened leaf
(fuel-indexed form). -/
theorem segOne_ne_nil_aux : ∀ (n : Nat) (v : JVal) (k : String), jsize v ≤ n →
    segOne k v ≠ [] := by
  intro n
  induction n with
  | zero =>
    intro v k h
    exact absurd (Nat.lt_of_lt_of_le (jsize_pos v) h) (by omega)
  | succ n ih =>
    intro v k h
    cases v
    case vobj gs =>
      rw [segOne]
      by_cases hg : gs.isEmpty
      · rw [if_pos hg]; simp
      · rw [if_neg hg]
        cases gs with
        | nil => simp at hg
        | cons kv rest =>
          obtain ⟨k', v'⟩ := kv
          rw [segLeaves]
          have h' : jsize v' ≤ n := by
            rw [jsize_vobj, jsizeFlds_cons] at h
            omega
          intro hcon
          rw [List.map_eq_nil_iff, List.append_eq_nil] at hcon
          exact ih v' k' h' hcon.1
    all_goals rw [segOne]
    all_goals simp

/-- One binding always contributes at least one flattened leaf. -/
theorem segOne_ne_nil (k : String) (v : JVal) : segOne k v ≠ [] :=
  segOne_ne_nil_aux (jsize v) v k (Nat.le_refl _)

/-- A nonempty object has at least one flattened leaf. -/
theorem segLeaves_ne_nil (fs : List (String × JVal)) (h : fs ≠ []) :
    segLeaves fs ≠ [] := by
  cases fs with
  | nil => exact absurd rfl h
  | cons kv rest =>
    obtain ⟨k, v⟩ := kv
    rw [segLeaves]
    intro hcon
    rw [List.append_eq_nil] at hcon
    exact segOne_ne_nil k v hcon.1

theorem wfFlds_cons (k : String) (v : JVal) (rest : List (String × JVal)) :
    wfFlds ((k, v) :: rest)
      = (segOk k && wfVal v && rest.all (fun kv => kv.1 != k) && wfFlds rest) := rfl

/-- Every leaf of a well-formed object sits at safe segments, is a
flatten-leaf, and is itself well-formed (fuel-indexed form). -/
theorem segLeaves_wf_aux : ∀ (n : Nat) (fs : List (String × JVal)), jsizeFlds fs ≤ n →
    wfFlds fs = true → ∀ e ∈ segLeaves fs,
      (∀ s ∈ e.1, segOk s = true) ∧ isLeafVal e.2 = true ∧ wfVal e.2 = true := by
  intro n
  induction n with
  | zero =>
    intro fs h hwf e he
    cases fs with
    | nil => cases he
    | cons kv rest =>
      obtain ⟨k, v⟩ := kv
      rw [jsizeFlds_cons] at h
      exact absurd h (by omega)
  | succ n ih =>
    intro fs h hwf e he
    cases fs with
    | nil => cases he
    | cons kv rest =>
      obtain ⟨k, v⟩ := kv
      rw [jsizeFlds_cons] at h
      rw [wfFlds_cons] at hwf
      simp only [Bool.and_eq_true] at hwf
      obtain ⟨⟨⟨hk, hv⟩, _⟩, hrest⟩ := hwf
      rw [segLeaves, List.mem_append] at he
      cases he with
      | inl hin =>
        cases v
        case vobj gs =>
          rw [segOne] at hin
          by_cases hg : gs.isEmpty
          · rw [if_pos hg, List.mem_singleton] at hin
            subst hin
            refine ⟨?_, ?_, hv⟩
            · intro s hs
              rw [List.mem_singleton] at hs
              subst hs
              exact hk
            · rw [isLeafVal]
              exact hg
          · rw [if_neg hg, List.mem_map] at hin
            obtain ⟨e', he', hee⟩ := hin
            subst hee
            rw [wfVal] at hv
            rw [jsize_vobj] at h
            obtain ⟨hsegs, hleaf, hwfv⟩ := ih gs (by omega) hv e' he'
            refine ⟨?_, hleaf, hwfv⟩
            intro s hs
            rw [List.mem_cons] at hs
            cases hs with
            | inl hskk => subst hskk; exact hk
            | inr hs2 => exact hsegs s hs2
        all_goals rw [segOne, List.mem_singleton] at hin
        all_goals subst hin
        all_goals
          exact ⟨fun s hs => by rw [List.mem_singleton] at hs; exact hs ▸ hk, rfl, hv⟩
      | inr hin => exact ih rest (by omega) hrest e hin

/-- Every leaf of a well-formed object sits at safe segments, is a
flatten-leaf, and is itself well-formed. -/
theorem segLeaves_wf (fs : List (String × JVal)) (hwf : wfFlds fs = true) :
    ∀ e ∈ segLeaves fs,
      (∀ s ∈ e.1, segOk s = true) ∧ isLeafVal e.2 = true ∧ wfVal e.2 = true :=
  segLeaves_wf_aux (jsizeFlds fs) fs (Nat.le_refl _) hwf

theorem keys_ne_of_all (rest : List (String × JVal)) (k : String)
    (hall : rest.all (fun kv => kv.1 != k) = true) :
    ∀ hb ∈ rest.map Prod.fst, hb ≠ k := by
  intro hb hmem
  rw [List.mem_map] at hmem
  obtain ⟨kv, hkv, hfst⟩ := hmem
  rw [List.all_eq_true] at hall
  have := hall kv hkv
  rw [bne_iff_ne] at this
  exact hfst ▸ this

/-- Distinct bindings contribute distinct segment lists (fuel-indexed
form). -/
theorem segLeaves_pairwise_aux : ∀ (n : Nat) (fs : List (String × JVal)),
    jsizeFlds fs ≤ n → wfFlds fs = true →
    (segLeaves fs).Pairwise (fun a b => a.1 ≠ b.1) := by
  intro n
  induction n with
  | zero =>
    intro fs h hwf
    cases fs with
    | nil => exact List.Pairwise.nil
    | cons kv rest =>
      obtain ⟨k, v⟩ := kv
      rw [jsizeFlds_cons] at h
      exact absurd h (by omega)
  | succ n ih =>
    intro fs h hwf
    cases fs with
    | nil => exact List.Pairwise.nil
    | cons kv rest =>
      obtain ⟨k, v⟩ := kv
      rw [jsizeFlds_cons] at h
      rw [wfFlds_cons] at hwf
      simp only [Bool.and_eq_true] at hwf
      obtain ⟨⟨⟨hk, hv⟩, hall⟩, hrest⟩ := hwf
      rw [segLeaves, List.pairwise_append]
      refine ⟨?_, ih rest (by omega) hrest, ?_⟩
      · cases v
        case vobj gs =>
          rw [segOne]
          by_cases hg : gs.isEmpty
          · rw [if_pos hg]
            exact List.pairwise_singleton _ _
          · rw [if_neg hg, List.pairwise_map]
            rw [wfVal] at hv
            rw [jsize_vobj] at h
            refine (ih gs (by omega) hv).imp ?_
            intro a b hne
            dsimp only
            intro hcon
            injection hcon with _ h2
            exact hne h2
        all_goals rw [segOne]
        all_goals exact List.pairwise_singleton _ _
      · intro a ha b hb
        obtain ⟨ta, ha1⟩ := segOne_head k v a ha
        obtain ⟨hbh, tb, hb1, hbmem⟩ := segLeaves_head_mem rest b hb
        rw [ha1, hb1]
        intro hcon
        have : k = hbh := by
          have := congrArg (fun l => l.headI) hcon
          simpa using this
        exact keys_ne_of_all rest k hall hbh hbmem this.symm

/-- Distinct bindings contribute distinct segment lists. -/
theorem segLeaves_pairwise (fs : List (String × JVal)) (hwf : wfFlds fs = true) :
    (segLeaves fs).Pairwise (fun a b => a.1 ≠ b.1) :=
  segLeaves_pairwise_aux (jsizeFlds fs) fs (Nat.le_refl _) hwf

theorem grp_append (k : String) (m₁ m₂ : List (List String × JVal)) :
    grp k (m₁ ++ m₂) = grp k m₁ ++ grp k m₂ := by
  rw [grp, grp, grp, List.filterMap_append]

theorem grp_map_cons_self (k : String) (l : List (List String × JVal)) :
    grp k (l.map (fun e => (k :: e.1, e.2))) = l := by
  induction l with
  | nil => rfl
  | cons e rest ih =>
    rw [List.map_cons, grp, List.filterMap_cons]
    dsimp only
    rw [if_pos (rfl : k = k)]
    rw [grp] at ih
    rw [ih]

theorem grp_segOne_ne (k k' : String) (v : JVal) (h : k' ≠ k) :
    grp k (segOne k' v) = [] := by
  rw [grp, List.filterMap_eq_nil_iff]
  intro e he
  obtain ⟨tl, he1⟩ := segOne_head k' v e he
  rw [he1]
  dsimp only
  rw [if_neg h]

theorem grp_not_key (k : String) (fs : List (String × JVal))
    (h : ∀ k' ∈ fs.map Prod.fst, k' ≠ k) : grp k (segLeaves fs) = [] := by
  rw [grp, List.filterMap_eq_nil_iff]
  intro e he
  obtain ⟨hd, tl, he1, hmem⟩ := segLeaves_head_mem fs e he
  rw [he1]
  dsimp only
  rw [if_neg (h hd hmem)]

theorem grp_segOne_self_leaf (k : String) (v : JVal) (h : isLeafVal v = true) :
    grp k (segOne k v) = [([], v)] := by
  cases v
  case vobj gs =>
    rw [isLeafVal] at h
    rw [segOne, if_pos h, grp, List.filterMap_cons]
    dsimp only
    rw [if_pos (rfl : k = k)]
    rfl
  all_goals rw [segOne, grp, List.filterMap_cons]
  all_goals dsimp only
  all_goals rw [if_pos (rfl : k = k)]
  all_goals rfl

theorem grp_segOne_self_obj (k : String) (gs : List (String × JVal))
    (h : gs.isEmpty = false) :
    grp k (segOne k (.vobj gs)) = segLeaves gs := by
  rw [segOne, if_neg (by rw [h]; exact Bool.false_ne_true)]
  exact grp_map_cons_self k (segLeaves gs)

theorem isLeafVal_eq_false (v : JVal) (h : isLeafVal v = false) :
    ∃ gs, v = .vobj gs ∧ gs.isEmpty = false := by
  cases v
  case vobj gs =>
    rw [isLeafVal] at h
    exact ⟨gs, rfl, h⟩
  all_goals simp [isLeafVal] at h

theorem wfFlds_nodup (fs : List (String × JVal)) (h : wfFlds fs = true) :
    nodupKeysB fs = true := by
  induction fs with
  | nil => rfl
  | cons kv rest ih =>
    obtain ⟨k, v⟩ := kv
    rw [wfFlds_cons] at h
    simp only [Bool.and_eq_true] at h
    obtain ⟨⟨_, hall⟩, hrest⟩ := h
    rw [nodupKeysB, Bool.and_eq_true]
    exact ⟨hall, ih hrest⟩

theorem lookupF_mem_nodup (fs : List (String × JVal)) (k : String) (v : JVal)
    (hnd : nodupKeysB fs = true) (hmem : (k, v) ∈ fs) : lookupF fs k = some v := by
  induction fs with
  | nil => cases hmem
  | cons kv rest ih =>
    obtain ⟨k', v'⟩ := kv
    rw [nodupKeysB, Bool.and_eq_true] at hnd
    obtain ⟨hall, hnd'⟩ := hnd
    rw [List.mem_cons] at hmem
    cases hmem with
    | inl heq =>
      obtain ⟨hk, hv⟩ := Prod.mk.injEq .. ▸ heq
      rw [lookupF, if_pos hk.symm]
      exact congrArg some hv.symm
    | inr hmem =>
      have hne : k ≠ k' :=
        keys_ne_of_all rest k' hall k (List.mem_map.mpr ⟨(k, v), hmem, rfl⟩)
      rw [lookupF, if_neg (fun hc => hne hc.symm)]
      exact ih hnd' hmem

theorem lookupF_isSome_of_mem_keys (fs : List (String × JVal)) (k : String)
    (hmem : k ∈ fs.map Prod.fst) : (lookupF fs k).isSome = true := by
  induction fs with
  | nil => cases hmem
  | cons kv rest ih =>
    obtain ⟨k', v'⟩ := kv
    rw [List.map_cons, List.mem_cons] at hmem
    by_cases hk : k' = k
    · rw [lookupF, if_pos hk]
      rfl
    · rw [lookupF, if_neg hk]
      cases hmem with
      | inl heq => exact absurd heq.symm hk
      | inr hmem => exact ih hmem

/-- The unflatten groups of the leaves of a well-formed-keyed object: the
group of a key absent from the object is empty; a leaf binding's group is
its one leaf at the empty path; a nonempty-object binding's group is the
leaves of that subobject. -/
theorem grp_segLeaves (fs : List (String × JVal)) (k : String)
    (hnd : nodupKeysB fs = true) :
    grp k (segLeaves fs) =
      match lookupF fs k with
      | none => []
      | some v => if isLeafVal v then [([], v)] else segLeaves (objFields v) := by
  induction fs with
  | nil => rfl
  | cons kv rest ih =>
    obtain ⟨k', v⟩ := kv
    rw [nodupKeysB, Bool.and_eq_true] at hnd
    obtain ⟨hall, hnd'⟩ := hnd
    rw [segLeaves, grp_append, lookupF]
    by_cases hk : k' = k
    · subst hk
      rw [if_pos rfl]
      rw [grp_not_key k' rest (keys_ne_of_all rest k' hall)]
      by_cases hl : isLeafVal v = true
      · rw [grp_segOne_self_leaf k' v hl, List.append_nil]
        dsimp only
        rw [if_pos hl]
      · have hlf : isLeafVal v = false := Bool.eq_false_iff.mpr hl
        obtain ⟨gs, rfl, hg⟩ := isLeafVal_eq_false v hlf
        rw [grp_segOne_self_obj k' gs hg, List.append_nil]
        dsimp only
        rw [if_neg hl]
        rfl
    · rw [if_neg hk, grp_segOne_ne k k' v hk, List.nil_append]
      exact ih hnd'

theorem lookupF_upsertF_self (A : List (String × JVal)) (k : String) (v : JVal) :
    lookupF (upsertF A k v) k = some v := by
  induction A with
  | nil => rw [upsertF, lookupF, if_pos rfl]
  | cons kv rest ih =>
    obtain ⟨k', v'⟩ := kv
    rw [upsertF]
    by_cases h : k' = k
    · rw [if_pos h, lookupF, if_pos rfl]
    · rw [if_neg h, lookupF, if_neg h]
      exact ih

theorem lookupF_upsertF_ne (A : List (String × JVal)) (k q : String) (v : JVal)
    (h : k ≠ q) : lookupF (upsertF A k v) q = lookupF A q := by
  induction A with
  | nil =>
    show (if k = q then some v else (none : Option JVal)) = none
    rw [if_neg h]
  | cons kv rest ih =>
    obtain ⟨k', v'⟩ := kv
    rw [upsertF]
    by_cases hk : k' = k
    · rw [if_pos hk, lookupF, lookupF, if_neg (hk ▸ h), if_neg (fun hq => h (hk ▸ hq))]
    · rw [if_neg hk, lookupF, lookupF]
      by_cases hq : k' = q
      · rw [if_pos hq, if_pos hq]
      · rw [if_neg hq, if_neg hq]
        exact ih

theorem insertWalk_one (A : List (String × JVal)) (hd : String) (leaf : JVal) :
    insertWalk A [hd] leaf = upsertF A hd leaf := rfl

theorem insertWalk_step_obj (A : List (String × JVal)) (hd s : String) (r : List String)
    (leaf : JVal) (gs : List (String × JVal)) (h : lookupF A hd = some (.vobj gs)) :
    insertWalk A (hd :: s :: r) leaf
      = upsertF A hd (.vobj (insertWalk gs (s :: r) leaf)) := by
  simp only [insertWalk, h]

theorem insertWalk_step_none (A : List (String × JVal)) (hd s : String) (r : List String)
    (leaf : JVal) (h : lookupF A hd = none) :
    insertWalk A (hd :: s :: r) leaf
      = upsertF A hd (.vobj (insertWalk [] (s :: r) leaf)) := by
  simp only [insertWalk, h]

theorem insertWalk_step_null (A : List (String × JVal)) (hd s : String) (r : List String)
    (leaf : JVal) (h : lookupF A hd = some .vnull) :
    insertWalk A (hd :: s :: r) leaf
      = upsertF A hd (.vobj (insertWalk [] (s :: r) leaf)) := by
  simp only [insertWalk, h]

theorem insertWalk_step_undef (A : List (String × JVal)) (hd s : String) (r : List String)
    (leaf : JVal) (h : lookupF A hd = some .vundef) :
    insertWalk A (hd :: s :: r) leaf
      = upsertF A hd (.vobj (insertWalk [] (s :: r) leaf)) := by
  simp only [insertWalk, h]

theorem insertWalk_step_other (A : List (String × JVal)) (hd s : String) (r : List String)
    (leaf v : JVal) (h : lookupF A hd = some v) (h1 : ∀ gs, v ≠ .vobj gs)
    (h2 : v ≠ .vnull) (h3 : v ≠ .vundef) :
    insertWalk A (hd :: s :: r) leaf = A := by
  cases v
  case vobj gs => exact absurd rfl (h1 gs)
  case vnull => exact absurd rfl h2
  case vundef => exact absurd rfl h3
  all_goals simp only [insertWalk, h]

theorem lookupF_insertWalk_ne (A : List (String × JVal)) (hd : String) (tl : List String)
    (leaf : JVal) (q : String) (hne : hd ≠ q) :
    lookupF (insertWalk A (hd :: tl) leaf) q = lookupF A q := by
  cases tl with
  | nil =>
    rw [insertWalk_one]
    exact lookupF_upsertF_ne A hd q leaf hne
  | cons s r =>
    cases hcur : lookupF A hd with
    | none =>
      rw [insertWalk_step_none A hd s r leaf hcur]
      exact lookupF_upsertF_ne A hd q _ hne
    | some v =>
      cases v
      -- vnull
      · rw [insertWalk_step_null A hd s r leaf hcur]
        exact lookupF_upsertF_ne A hd q _ hne
      -- vundef
      · rw [insertWalk_step_undef A hd s r leaf hcur]
        exact lookupF_upsertF_ne A hd q _ hne
      -- vbool, vnum, vstr, vdate, varr: fall through to vobj below
      · rw [insertWalk_step_other A hd s r leaf _ hcur
          (fun gs hc => JVal.noConfusion hc) (fun hc => JVal.noConfusion hc)
          (fun hc => JVal.noConfusion hc)]
      · rw [insertWalk_step_other A hd s r leaf _ hcur
          (fun gs hc => JVal.noConfusion hc) (fun hc => JVal.noConfusion hc)
          (fun hc => JVal.noConfusion hc)]
      · rw [insertWalk_step_other A hd s r leaf _ hcur
          (fun gs hc => JVal.noConfusion hc) (fun hc => JVal.noConfusion hc)
          (fun hc => JVal.noConfusion hc)]
      · rw [insertWalk_step_other A hd s r leaf _ hcur
          (fun gs hc => JVal.noConfusion hc) (fun hc => JVal.noConfusion hc)
          (fun hc => JVal.noConfusion hc)]
      · rw [insertWalk_step_other A hd s r leaf _ hcur
          (fun gs hc => JVal.noConfusion hc) (fun hc => JVal.noConfusion hc)
          (fun hc => JVal.noConfusion hc)]
      -- vobj
      · rename_i gs
        rw [insertWalk_step_obj A hd s r leaf gs hcur]
        exact lookupF_upsertF_ne A hd q _ hne
      -- vmap, vset, vfunc
      · rw [insertWalk_step_other A hd s r leaf _ hcur
          (fun gs hc => JVal.noConfusion hc) (fun hc => JVal.noConfusion hc)
          (fun hc => JVal.noConfusion hc)]
      · rw [insertWalk_step_other A hd s r leaf _ hcur
          (fun gs hc => JVal.noConfusion hc) (fun hc => JVal.noConfusion hc)
          (fun hc => JVal.noConfusion hc)]
      · rw [insertWalk_step_other A hd s r leaf _ hcur
          (fun gs hc => JVal.noConfusion hc) (fun hc => JVal.noConfusion hc)
          (fun hc => JVal.noConfusion hc)]

theorem grp_cons_self (k : String) (tl : List String) (leaf : JVal)
    (m : List (List String × JVal)) :
    grp k ((k :: tl, leaf) :: m) = (tl, leaf) :: grp k m := by
  rw [grp, List.filterMap_cons]
  dsimp only
  rw [if_pos (rfl : k = k)]
  rfl

theorem grp_cons_ne (k hd : String) (tl : List String) (leaf : JVal)
    (m : List (List String × JVal)) (h : hd ≠ k) :
    grp k ((hd :: tl, leaf) :: m) = grp k m := by
  rw [grp, List.filterMap_cons]
  dsimp only
  rw [if_neg h]
  rfl

/-- What the unflatten fold does to one binding: the entries of other keys
never touch it, and each entry of its group updates it exactly as the walk
would. -/
theorem lookupF_foldIns (k : String) :
    ∀ (m : List (List String × JVal)) (A : List (String × JVal)),
      (∀ e ∈ m, e.1 ≠ []) →
      lookupF (foldIns A m) k = subFold (lookupF A k) (grp k m) := by
  intro m
  induction m with
  | nil => intro A _; rfl
  | cons e m' ih =>
    intro A hne
    obtain ⟨segs, leaf⟩ := e
    cases segs with
    | nil => exact absurd rfl (hne ([], leaf) (List.mem_cons_self _ _))
    | cons hd tl =>
      rw [show foldIns A ((hd :: tl, leaf) :: m')
            = foldIns (insertWalk A (hd :: tl) leaf) m' from rfl]
      by_cases hk : hd = k
      · subst hk
        rw [grp_cons_self]
        cases tl with
        | nil =>
          rw [ih _ (fun e he => hne e (List.mem_cons_of_mem _ he))]
          rw [insertWalk_one, lookupF_upsertF_self]
          rfl
        | cons s r =>
          rw [ih _ (fun e he => hne e (List.mem_cons_of_mem _ he))]
          cases hcur : lookupF A hd with
          | none =>
            rw [insertWalk_step_none A hd s r leaf hcur, lookupF_upsertF_self]
            rfl
          | some v =>
            cases v
            -- vnull
            · rw [insertWalk_step_null A hd s r leaf hcur, lookupF_upsertF_self]
              rfl
            -- vundef
            · rw [insertWalk_step_undef A hd s r leaf hcur, lookupF_upsertF_self]
              rfl
            -- vbool, vnum, vstr, vdate, varr
            · rw [insertWalk_step_other A hd s r leaf _ hcur
                (fun gs hc => JVal.noConfusion hc) (fun hc => JVal.noConfusion hc)
                (fun hc => JVal.noConfusion hc), hcur]
              rfl
            · rw [insertWalk_step_other A hd s r leaf _ hcur
                (fun gs hc => JVal.noConfusion hc) (fun hc => JVal.noConfusion hc)
                (fun hc => JVal.noConfusion hc), hcur]
              rfl
            · rw [insertWalk_step_other A hd s r leaf _ hcur
                (fun gs hc => JVal.noConfusion hc) (fun hc => JVal.noConfusion hc)
                (fun hc => JVal.noConfusion hc), hcur]
              rfl
            · rw [insertWalk_step_other A hd s r leaf _ hcur
                (fun gs hc => JVal.noConfusion hc) (fun hc => JVal.noConfusion hc)
                (fun hc => JVal.noConfusion hc), hcur]
              rfl
            · rw [insertWalk_step_other A hd s r leaf _ hcur
                (fun gs hc => JVal.noConfusion hc) (fun hc => JVal.noConfusion hc)
                (fun hc => JVal.noConfusion hc), hcur]
              rfl
            -- vobj
            · rename_i gs
              rw [insertWalk_step_obj A hd s r leaf gs hcur, lookupF_upsertF_self]
              rfl
            -- vmap, vset, vfunc
            · rw [insertWalk_step_other A hd s r leaf _ hcur
                (fun gs hc => JVal.noConfusion hc) (fun hc => JVal.noConfusion hc)
                (fun hc => JVal.noConfusion hc), hcur]
              rfl
            · rw [insertWalk_step_other A hd s r leaf _ hcur
                (fun gs hc => JVal.noConfusion hc) (fun hc => JVal.noConfusion hc)
                (fun hc => JVal.noConfusion hc), hcur]
              rfl
            · rw [insertWalk_step_other A hd s r leaf _ hcur
                (fun gs hc => JVal.noConfusion hc) (fun hc => JVal.noConfusion hc)
                (fun hc => JVal.noConfusion hc), hcur]
              rfl
      · rw [grp_cons_ne k hd tl leaf m' hk]
        rw [ih _ (fun e he => hne e (List.mem_cons_of_mem _ he))]
        rw [lookupF_insertWalk_ne A hd tl leaf k hk]

/-- Folding a group over an object binding is the walk fold of that
group. -/
theorem subFold_obj (l : List (List String × JVal)) :
    ∀ (cur : List (String × JVal)), (∀ e ∈ l, e.1 ≠ []) →
    subFold (some (.vobj cur)) l = some (.vobj (foldIns cur l)) := by
  induction l with
  | nil => intro cur _; rfl
  | cons e l' ih =>
    intro cur hne
    obtain ⟨segs, leaf⟩ := e
    cases segs with
    | nil => exact absurd rfl (hne ([], leaf) (List.mem_cons_self _ _))
    | cons s r =>
      rw [show subFold (some (.vobj cur)) ((s :: r, leaf) :: l')
            = subFold (some (.vobj (insertWalk cur (s :: r) leaf))) l' from rfl]
      exact ih (insertWalk cur (s :: r) leaf)
        (fun e he => hne e (List.mem_cons_of_mem _ he))

/-- Folding a nonempty group over an absent binding builds the walk fold
of that group from nothing. -/
theorem subFold_none (l : List (List String × JVal)) (hne : ∀ e ∈ l, e.1 ≠ [])
    (hl : l ≠ []) : subFold none l = some (.vobj (foldIns [] l)) := by
  cases l with
  | nil => exact absurd rfl hl
  | cons e l' =>
    obtain ⟨segs, leaf⟩ := e
    cases segs with
    | nil => exact absurd rfl (hne ([], leaf) (List.mem_cons_self _ _))
    | cons s r =>
      rw [show subFold none ((s :: r, leaf) :: l')
            = subFold (some (.vobj (insertWalk [] (s :: r) leaf))) l' from rfl]
      exact subFold_obj l' (insertWalk [] (s :: r) leaf)
        (fun e he => hne e (List.mem_cons_of_mem _ he))

theorem upsertF_keys (A : List (String × JVal)) (k : String) (v : JVal) :
    ∀ q ∈ (upsertF A k v).map Prod.fst, q ∈ A.map Prod.fst ∨ q = k := by
  induction A with
  | nil =>
    intro q hq
    rw [upsertF] at hq
    simp at hq
    exact Or.inr hq
  | cons kv rest ih =>
    obtain ⟨k', v'⟩ := kv
    intro q hq
    rw [upsertF] at hq
    by_cases h : k' = k
    · rw [if_pos h, List.map_cons, List.mem_cons] at hq
      cases hq with
      | inl he => exact Or.inr he
      | inr hm => exact Or.inl (by simp; exact Or.inr (by simpa using hm))
    · rw [if_neg h, List.map_cons, List.mem_cons] at hq
      cases hq with
      | inl he => exact Or.inl (by simp [he])
      | inr hm =>
        cases ih q hm with
        | inl h1 => exact Or.inl (by simp; exact Or.inr (by simpa using h1))
        | inr h2 => exact Or.inr h2

theorem insertWalk_keys (A : List (String × JVal)) (hd : String) (tl : List String)
    (leaf : JVal) :
    ∀ q ∈ (insertWalk A (hd :: tl) leaf).map Prod.fst, q ∈ A.map Prod.fst ∨ q = hd := by
  cases tl with
  | nil =>
    rw [insertWalk_one]
    exact upsertF_keys A hd leaf
  | cons s r =>
    intro q hq
    cases hcur : lookupF A hd with
    | none =>
      rw [insertWalk_step_none A hd s r leaf hcur] at hq
      exact upsertF_keys A hd _ q hq
    | some v =>
      cases v
      -- vnull
      · rw [insertWalk_step_null A hd s r leaf hcur] at hq
        exact upsertF_keys A hd _ q hq
      -- vundef
      · rw [insertWalk_step_undef A hd s r leaf hcur] at hq
        exact upsertF_keys A hd _ q hq
      -- vbool, vnum, vstr, vdate, varr
      · rw [insertWalk_step_other A hd s r leaf _ hcur
          (fun gs hc => JVal.noConfusion hc) (fun hc => JVal.noConfusion hc)
          (fun hc => JVal.noConfusion hc)] at hq
        exact Or.inl hq
      · rw [insertWalk_step_other A hd s r leaf _ hcur
          (fun gs hc => JVal.noConfusion hc) (fun hc => JVal.noConfusion hc)
          (fun hc => JVal.noConfusion hc)] at hq
        exact Or.inl hq
      · rw [insertWalk_step_other A hd s r leaf _ hcur
          (fun gs hc => JVal.noConfusion hc) (fun hc => JVal.noConfusion hc)
          (fun hc => JVal.noConfusion hc)] at hq
        exact Or.inl hq
      · rw [insertWalk_step_other A hd s r leaf _ hcur
          (fun gs hc => JVal.noConfusion hc) (fun hc => JVal.noConfusion hc)
          (fun hc => JVal.noConfusion hc)] at hq
        exact Or.inl hq
      · rw [insertWalk_step_other A hd s r leaf _ hcur
          (fun gs hc => JVal.noConfusion hc) (fun hc => JVal.noConfusion hc)
          (fun hc => JVal.noConfusion hc)] at hq
        exact Or.inl hq
      -- vobj
      · rename_i gs
        rw [insertWalk_step_obj A hd s r leaf gs hcur] at hq
        exact upsertF_keys A hd _ q hq
      -- vmap, vset, vfunc
      · rw [insertWalk_step_other A hd s r leaf _ hcur
          (fun gs hc => JVal.noConfusion hc) (fun hc => JVal.noConfusion hc)
          (fun hc => JVal.noConfusion hc)] at hq
        exact Or.inl hq
      · rw [insertWalk_step_other A hd s r leaf _ hcur
          (fun gs hc => JVal.noConfusion hc) (fun hc => JVal.noConfusion hc)
          (fun hc => JVal.noConfusion hc)] at hq
        exact Or.inl hq
      · rw [insertWalk_step_other A hd s r leaf _ hcur
          (fun gs hc => JVal.noConfusion hc) (fun hc => JVal.noConfusion hc)
          (fun hc => JVal.noConfusion hc)] at hq
        exact Or.inl hq

/-- Every key of the walk fold comes from the start object or heads an
entry of the mapping. -/
theorem foldIns_keys :
    ∀ (m : List (List String × JVal)) (A : List (String × JVal)),
      ∀ q ∈ (foldIns A m).map Prod.fst,
        q ∈ A.map Prod.fst ∨ ∃ e ∈ m, ∃ t, e.1 = q :: t := by
  intro m
  induction m with
  | nil => intro A q hq; exact Or.inl hq
  | cons e m' ih =>
    intro A q hq
    obtain ⟨segs, leaf⟩ := e
    cases segs with
    | nil =>
      rw [show foldIns A (([], leaf) :: m') = foldIns A m' from rfl] at hq
      cases ih A q hq with
      | inl h1 => exact Or.inl h1
      | inr h2 =>
        obtain ⟨e, he, t, het⟩ := h2
        exact Or.inr ⟨e, List.mem_cons_of_mem _ he, t, het⟩
    | cons hd tl =>
      rw [show foldIns A ((hd :: tl, leaf) :: m')
            = foldIns (insertWalk A (hd :: tl) leaf) m' from rfl] at hq
      cases ih _ q hq with
      | inl h1 =>
        cases insertWalk_keys A hd tl leaf q h1 with
        | inl h2 => exact Or.inl h2
        | inr h3 =>
          exact Or.inr ⟨(hd :: tl, leaf), List.mem_cons_self _ _, tl, by rw [h3]⟩
      | inr h2 =>
        obtain ⟨e, he, t, het⟩ := h2
        exact Or.inr ⟨e, List.mem_cons_of_mem _ he, t, het⟩

theorem jsizeList_cons (x : JVal) (rest : List JVal) :
    jsizeList (x :: rest) = jsize x + jsizeList rest + 1 := rfl

theorem jsizePairs_cons (a b : JVal) (rest : List (JVal × JVal)) :
    jsizePairs ((a, b) :: rest) = jsize a + jsize b + jsizePairs rest + 1 := rfl

theorem jsizeList_mem (xs : List JVal) (x : JVal) (h : x ∈ xs) :
    jsize x ≤ jsizeList xs := by
  induction xs with
  | nil => cases h
  | cons y rest ih =>
    rw [jsizeList_cons]
    rw [List.mem_cons] at h
    cases h with
    | inl he => subst he; omega
    | inr hm => have := ih hm; omega

theorem jsizeFlds_mem (fs : List (String × JVal)) (kv : String × JVal) (h : kv ∈ fs) :
    jsize kv.2 < jsizeFlds fs := by
  induction fs with
  | nil => cases h
  | cons kv' rest ih =>
    obtain ⟨k', v'⟩ := kv'
    rw [jsizeFlds_cons]
    rw [List.mem_cons] at h
    cases h with
    | inl he => subst he; dsimp only; omega
    | inr hm => have := ih hm; omega

theorem jsizePairs_mem (as : List (JVal × JVal)) (ab : JVal × JVal) (h : ab ∈ as) :
    jsize ab.1 ≤ jsizePairs as ∧ jsize ab.2 ≤ jsizePairs as := by
  induction as with
  | nil => cases h
  | cons cd rest ih =>
    obtain ⟨c, d⟩ := cd
    rw [jsizePairs_cons]
    rw [List.mem_cons] at h
    cases h with
    | inl he => subst he; dsimp only; omega
    | inr hm => have := ih hm; omega

theorem pureJSONList_mem (xs : List JVal) (h : pureJSONList xs = true) :
    ∀ x ∈ xs, pureJSON x = true := by
  induction xs with
  | nil => intro x hx; cases hx
  | cons y rest ih =>
    rw [pureJSONList, Bool.and_eq_true] at h
    intro x hx
    rw [List.mem_cons] at hx
    cases hx with
    | inl he => subst he; exact h.1
    | inr hm => exact ih h.2 x hm

theorem pureJSONFlds_mem (fs : List (String × JVal)) (h : pureJSONFlds fs = true) :
    ∀ kv ∈ fs, pureJSON kv.2 = true := by
  induction fs with
  | nil => intro kv hkv; cases hkv
  | cons kv' rest ih =>
    obtain ⟨k', v'⟩ := kv'
    rw [pureJSONFlds, Bool.and_eq_true] at h
    intro kv hkv
    rw [List.mem_cons] at hkv
    cases hkv with
    | inl he => subst he; exact h.1
    | inr hm => exact ih h.2 kv hm

theorem wfFlds_mem_wf (fs : List (String × JVal)) (h : wfFlds fs = true) :
    ∀ kv ∈ fs, wfVal kv.2 = true := by
  induction fs with
  | nil => intro kv hkv; cases hkv
  | cons kv' rest ih =>
    obtain ⟨k', v'⟩ := kv'
    rw [wfFlds_cons] at h
    simp only [Bool.and_eq_true] at h
    obtain ⟨⟨⟨_, hv⟩, _⟩, hrest⟩ := h
    intro kv hkv
    rw [List.mem_cons] at hkv
    cases hkv with
    | inl he => subst he; exact hv
    | inr hm => exact ih hrest kv hm

theorem zip_self (xs : List JVal) : List.zip xs xs = xs.map (fun x => (x, x)) := by
  induction xs with
  | nil => rfl
  | cons y rest ih => rw [List.zip_cons_cons, List.map_cons, ih]

/-- Deep equality is reflexive on pure-JSON values, with any fuel covering
the structural size. -/
theorem deq_refl_pure : ∀ (n : Nat) (v : JVal), jsize v ≤ n → pureJSON v = true →
    deq n v v = true := by
  intro n
  induction n with
  | zero =>
    intro v h _
    exact absurd h (by have := jsize_pos v; omega)
  | succ n ih =>
    intro v h hp
    cases v
    -- vnull
    · rfl
    -- vundef
    · exact Bool.noConfusion hp
    -- vbool
    · rename_i b
      show (b == b) = true
      exact beq_self_eq_true b
    -- vnum
    · rename_i m
      show (m == m) = true
      exact beq_self_eq_true m
    -- vstr
    · rename_i s
      show (s == s) = true
      exact beq_self_eq_true s
    -- vdate
    · exact Bool.noConfusion hp
    -- varr
    · rename_i xs
      rw [pureJSON] at hp
      rw [show jsize (.varr xs) = jsizeList xs + 1 from rfl] at h
      show (xs.length == xs.length
        && (List.zip xs xs).all fun p => deq n p.1 p.2) = true
      rw [Bool.and_eq_true]
      refine ⟨beq_self_eq_true _, ?_⟩
      rw [zip_self, List.all_eq_true]
      intro p hp'
      rw [List.mem_map] at hp'
      obtain ⟨x, hx, rfl⟩ := hp'
      have hb := jsizeList_mem xs x hx
      exact ih x (by omega) (pureJSONList_mem xs hp x hx)
    -- vobj
    · rename_i fs
      rw [pureJSON, Bool.and_eq_true] at hp
      obtain ⟨hnd, hflds⟩ := hp
      rw [show jsize (.vobj fs) = jsizeFlds fs + 1 from rfl] at h
      show (fs.all (fun kv =>
          match lookupF fs kv.1 with
          | some y => deq n kv.2 y
          | none => false)
        && fs.all fun kv => (lookupF fs kv.1).isSome) = true
      rw [Bool.and_eq_true]
      constructor
      · rw [List.all_eq_true]
        intro kv hkv
        have hlkp : lookupF fs kv.1 = some kv.2 :=
          lookupF_mem_nodup fs kv.1 kv.2 hnd hkv
        have hb := jsizeFlds_mem fs kv hkv
        have hd := ih kv.2 (by omega) (pureJSONFlds_mem fs hflds kv hkv)
        show (match lookupF fs kv.1 with
          | some y => deq n kv.2 y
          | none => false) = true
        rw [hlkp]
        exact hd
      · rw [List.all_eq_true]
        intro kv hkv
        show (lookupF fs kv.1).isSome = true
        rw [lookupF_mem_nodup fs kv.1 kv.2 hnd hkv]
        rfl
    -- vmap
    · exact Bool.noConfusion hp
    -- vset
    · exact Bool.noConfusion hp
    -- vfunc
    · exact Bool.noConfusion hp

/-- Deep equality is reflexive on well-formed stored values, with any fuel
covering the structural size. -/
theorem deq_refl_wf : ∀ (n : Nat) (v : JVal), jsize v ≤ n → wfVal v = true →
    deq n v v = true := by
  intro n
  induction n with
  | zero =>
    intro v h _
    exact absurd h (by have := jsize_pos v; omega)
  | succ n ih =>
    intro v h hw
    cases v
    -- vnull
    · rfl
    -- vundef
    · exact Bool.noConfusion hw
    -- vbool
    · rename_i b
      show (b == b) = true
      exact beq_self_eq_true b
    -- vnum
    · rename_i m
      show (m == m) = true
      exact beq_self_eq_true m
    -- vstr
    · rename_i s
      show (s == s) = true
      exact beq_self_eq_true s
    -- vdate
    · rename_i ms
      show (ms == ms) = true
      exact beq_self_eq_true ms
    -- varr
    · rename_i xs
      rw [wfVal] at hw
      exact deq_refl_pure (n + 1) (.varr xs) h (by rw [pureJSON]; exact hw)
    -- vobj
    · rename_i fs
      rw [wfVal] at hw
      rw [show jsize (.vobj fs) = jsizeFlds fs + 1 from rfl] at h
      show (fs.all (fun kv =>
          match lookupF fs kv.1 with
          | some y => deq n kv.2 y
          | none => false)
        && fs.all fun kv => (lookupF fs kv.1).isSome) = true
      rw [Bool.and_eq_true]
      constructor
      · rw [List.all_eq_true]
        intro kv hkv
        have hlkp : lookupF fs kv.1 = some kv.2 :=
          lookupF_mem_nodup fs kv.1 kv.2 (wfFlds_nodup fs hw) hkv
        have hb := jsizeFlds_mem fs kv hkv
        have hd := ih kv.2 (by omega) (wfFlds_mem_wf fs hw kv hkv)
        show (match lookupF fs kv.1 with
          | some y => deq n kv.2 y
          | none => false) = true
        rw [hlkp]
        exact hd
      · rw [List.all_eq_true]
        intro kv hkv
        show (lookupF fs kv.1).isSome = true
        rw [lookupF_mem_nodup fs kv.1 kv.2 (wfFlds_nodup fs hw) hkv]
        rfl
    -- vmap
    · rename_i entries
      rw [wfVal] at hw
      rw [show jsize (.vmap entries) = jsizePairs entries + 1 from rfl] at h
      show (entries.length == entries.length
        && entries.all fun ab => entries.any fun cd =>
             deq n ab.1 cd.1 && deq n ab.2 cd.2) = true
      rw [Bool.and_eq_true]
      refine ⟨beq_self_eq_true _, ?_⟩
      rw [List.all_eq_true]
      intro ab hab
      rw [List.any_eq_true]
      refine ⟨ab, hab, ?_⟩
      rw [List.all_eq_true] at hw
      have hpp := hw ab hab
      rw [Bool.and_eq_true] at hpp
      obtain ⟨hb1, hb2⟩ := jsizePairs_mem entries ab hab
      rw [Bool.and_eq_true]
      exact ⟨deq_refl_pure n ab.1 (by omega) hpp.1,
        deq_refl_pure n ab.2 (by omega) hpp.2⟩
    -- vset
    · rename_i xs
      rw [wfVal] at hw
      rw [show jsize (.vset xs) = jsizeList xs + 1 from rfl] at h
      show (xs.length == xs.length
        && xs.all fun x => xs.any fun y => deq n x y) = true
      rw [Bool.and_eq_true]
      refine ⟨beq_self_eq_true _, ?_⟩
      rw [List.all_eq_true]
      intro x hx
      rw [List.any_eq_true]
      refine ⟨x, hx, ?_⟩
      have hb := jsizeList_mem xs x hx
      exact deq_refl_pure n x (by omega) (pureJSONList_mem xs hw x hx)
    -- vfunc
    · exact Bool.noConfusion hw

/-- Unflattening any permutation of the flattened leaves of a well-formed
object rebuilds an object deep-equal to it, at any fuel beyond its size. -/
theorem rebuild_deq : ∀ (F : Nat) (fs : List (String × JVal))
    (m : List (List String × JVal)),
    jsizeFlds fs < F → wfFlds fs = true → m.Perm (segLeaves fs) →
    deq F (.vobj fs) (.vobj (foldIns [] m)) = true := by
  intro F
  induction F with
  | zero => intro fs m h _ _; exact absurd h (by omega)
  | succ n ih =>
    intro fs m h hwf hperm
    have hne : ∀ e ∈ m, e.1 ≠ [] := by
      intro e he
      obtain ⟨hd, tl, he1, _⟩ := segLeaves_head_mem fs e (hperm.mem_iff.mp he)
      rw [he1]; simp
    have hnd := wfFlds_nodup fs hwf
    show (fs.all (fun kv =>
        match lookupF (foldIns [] m) kv.1 with
        | some y => deq n kv.2 y
        | none => false)
      && (foldIns [] m).all fun kv => (lookupF fs kv.1).isSome) = true
    rw [Bool.and_eq_true]
    constructor
    · rw [List.all_eq_true]
      intro kv hkv
      have hml := lookupF_foldIns kv.1 m [] hne
      rw [show lookupF ([] : List (String × JVal)) kv.1 = none from rfl] at hml
      have hgperm : (grp kv.1 m).Perm (grp kv.1 (segLeaves fs)) := hperm.filterMap _
      have hchar := grp_segLeaves fs kv.1 hnd
      rw [lookupF_mem_nodup fs kv.1 kv.2 hnd hkv] at hchar
      dsimp only at hchar
      by_cases hl : isLeafVal kv.2 = true
      · rw [if_pos hl] at hchar
        rw [hchar] at hgperm
        have hgm : grp kv.1 m = [([], kv.2)] := List.perm_singleton.mp hgperm
        rw [hgm] at hml
        rw [show subFold none [(([] : List String), kv.2)] = some kv.2 from rfl] at hml
        have hb := jsizeFlds_mem fs kv hkv
        have hd := deq_refl_wf n kv.2 (by omega) (wfFlds_mem_wf fs hwf kv hkv)
        show (match lookupF (foldIns [] m) kv.1 with
          | some y => deq n kv.2 y
          | none => false) = true
        rw [hml]
        exact hd
      · have hlf : isLeafVal kv.2 = false := Bool.eq_false_iff.mpr hl
        obtain ⟨gs, hv, hg⟩ := isLeafVal_eq_false kv.2 hlf
        rw [if_neg hl, hv] at hchar
        rw [show objFields (.vobj gs) = gs from rfl] at hchar
        rw [hchar] at hgperm
        have hgne : ∀ e ∈ grp kv.1 m, e.1 ≠ [] := by
          intro e he
          obtain ⟨hd', tl, he1, _⟩ :=
            segLeaves_head_mem gs e (hgperm.mem_iff.mp he)
          rw [he1]; simp
        have hgsne : gs ≠ [] := by
          intro hc
          rw [hc] at hg
          exact Bool.noConfusion hg
        have hgmne : grp kv.1 m ≠ [] := by
          intro hc
          have hlen := hgperm.length_eq
          rw [hc] at hlen
          exact segLeaves_ne_nil gs hgsne (List.length_eq_zero.mp hlen.symm)
        rw [subFold_none (grp kv.1 m) hgne hgmne] at hml
        have hwgs : wfFlds gs = true := by
          have hwv := wfFlds_mem_wf fs hwf kv hkv
          rw [hv, wfVal] at hwv
          exact hwv
        have hb := jsizeFlds_mem fs kv hkv
        rw [hv, jsize_vobj] at hb
        have hrec := ih gs (grp kv.1 m) (by omega) hwgs hgperm
        show (match lookupF (foldIns [] m) kv.1 with
          | some y => deq n kv.2 y
          | none => false) = true
        rw [hml, hv]
        exact hrec
    · rw [List.all_eq_true]
      intro kv hkv
      have hk1 : kv.1 ∈ (foldIns [] m).map Prod.fst := List.mem_map.mpr ⟨kv, hkv, rfl⟩
      cases foldIns_keys m [] kv.1 hk1 with
      | inl h0 => cases h0
      | inr h1 =>
        obtain ⟨e, he, t, het⟩ := h1
        obtain ⟨hd, tl, he1, hmem⟩ := segLeaves_head_mem fs e (hperm.mem_iff.mp he)
        have hkh : kv.1 = hd := by
          rw [het] at he1
          injection he1 with hh _
        show (lookupF fs kv.1).isSome = true
        exact hkh ▸ lookupF_isSome_of_mem_keys fs hd hmem

/-- Flattening a map whose values are all flatten-leaves is the
identity. -/
theorem flattenFields_all_leaf (fs : List (String × JVal))
    (h : ∀ kv ∈ fs, isLeafVal kv.2 = true) : flattenFields fs = fs := by
  induction fs with
  | nil => rfl
  | cons kv rest ih =>
    obtain ⟨k, v⟩ := kv
    rw [flattenFields, ih (fun kv hkv => h kv (List.mem_cons_of_mem _ hkv))]
    have hv := h (k, v) (List.mem_cons_self _ _)
    cases v
    case vobj gs =>
      rw [isLeafVal] at hv
      rw [flattenOne, if_pos hv]
      rfl
    all_goals rfl

/-- JSON rendering is the identity on pure-JSON values (fuel-indexed
conjunction over the three mutual renderers). -/
theorem jsonRender_pure_aux : ∀ (n : Nat),
    (∀ v, jsize v ≤ n → pureJSON v = true → jsonRender v = v) ∧
    (∀ xs, jsizeList xs ≤ n → pureJSONList xs = true → jsonRenderElems xs = xs) ∧
    (∀ fs, jsizeFlds fs ≤ n → pureJSONFlds fs = true → jsonRenderFlds fs = fs) := by
  intro n
  induction n with
  | zero =>
    refine ⟨?_, ?_, ?_⟩
    · intro v h _
      exact absurd h (by have := jsize_pos v; omega)
    · intro xs h _
      cases xs with
      | nil => rfl
      | cons x rest => rw [jsizeList_cons] at h; exact absurd h (by omega)
    · intro fs h _
      cases fs with
      | nil => rfl
      | cons kv rest =>
        obtain ⟨k, v⟩ := kv
        rw [jsizeFlds_cons] at h
        exact absurd h (by omega)
  | succ n ih =>
    obtain ⟨ihv, ihl, ihf⟩ := ih
    refine ⟨?_, ?_, ?_⟩
    · intro v h hp
      cases v
      -- vnull
      · rfl
      -- vundef
      · exact Bool.noConfusion hp
      -- vbool
      · rfl
      -- vnum
      · rfl
      -- vstr
      · rfl
      -- vdate
      · exact Bool.noConfusion hp
      -- varr
      · rename_i xs
        rw [pureJSON] at hp
        rw [show jsize (.varr xs) = jsizeList xs + 1 from rfl] at h
        show JVal.varr (jsonRenderElems xs) = .varr xs
        rw [ihl xs (by omega) hp]
      -- vobj
      · rename_i fs
        rw [pureJSON, Bool.and_eq_true] at hp
        rw [show jsize (.vobj fs) = jsizeFlds fs + 1 from rfl] at h
        show JVal.vobj (jsonRenderFlds fs) = .vobj fs
        rw [ihf fs (by omega) hp.2]
      -- vmap
      · exact Bool.noConfusion hp
      -- vset
      · exact Bool.noConfusion hp
      -- vfunc
      · exact Bool.noConfusion hp
    · intro xs h hp
      cases xs with
      | nil => rfl
      | cons x rest =>
        rw [jsizeList_cons] at h
        rw [pureJSONList, Bool.and_eq_true] at hp
        cases x
        -- vnull
        · show JVal.vnull :: jsonRenderElems rest = _
          rw [ihl rest (by omega) hp.2]
        -- vundef
        · exact Bool.noConfusion hp.1
        -- vbool
        · show JVal.vbool _ :: jsonRenderElems rest = _
          rw [ihl rest (by omega) hp.2]
        -- vnum
        · show JVal.vnum _ :: jsonRenderElems rest = _
          rw [ihl rest (by omega) hp.2]
        -- vstr
        · show JVal.vstr _ :: jsonRenderElems rest = _
          rw [ihl rest (by omega) hp.2]
        -- vdate
        · exact Bool.noConfusion hp.1
        -- varr
        · rename_i ys
          show jsonRender (.varr ys) :: jsonRenderElems rest = _
          rw [ihv (.varr ys) (by have : jsize (.varr ys) = jsizeList ys + 1 := rfl; omega) hp.1,
            ihl rest (by omega) hp.2]
        -- vobj
        · rename_i gs
          show jsonRender (.vobj gs) :: jsonRenderElems rest = _
          rw [ihv (.vobj gs) (by have : jsize (.vobj gs) = jsizeFlds gs + 1 := rfl; omega) hp.1,
            ihl rest (by omega) hp.2]
        -- vmap
        · exact Bool.noConfusion hp.1
        -- vset
        · exact Bool.noConfusion hp.1
        -- vfunc
        · exact Bool.noConfusion hp.1
    · intro fs h hp
      cases fs with
      | nil => rfl
      | cons kv rest =>
        obtain ⟨k, v⟩ := kv
        rw [jsizeFlds_cons] at h
        rw [pureJSONFlds, Bool.and_eq_true] at hp
        cases v
        -- vnull
        · show (k, JVal.vnull) :: jsonRenderFlds rest = _
          rw [ihf rest (by omega) hp.2]
        -- vundef
        · exact Bool.noConfusion hp.1
        -- vbool
        · show (k, JVal.vbool _) :: jsonRenderFlds rest = _
          rw [ihf rest (by omega) hp.2]
        -- vnum
        · show (k, JVal.vnum _) :: jsonRenderFlds rest = _
          rw [ihf rest (by omega) hp.2]
        -- vstr
        · show (k, JVal.vstr _) :: jsonRenderFlds rest = _
          rw [ihf rest (by omega) hp.2]
        -- vdate
        · exact Bool.noConfusion hp.1
        -- varr
        · rename_i ys
          show (k, jsonRender (.varr ys)) :: jsonRenderFlds rest = _
          rw [ihv (.varr ys) (by have : jsize (.varr ys) = jsizeList ys + 1 := rfl; omega) hp.1,
            ihf rest (by omega) hp.2]
        -- vobj
        · rename_i gs
          show (k, jsonRender (.vobj gs)) :: jsonRenderFlds rest = _
          rw [ihv (.vobj gs) (by have : jsize (.vobj gs) = jsizeFlds gs + 1 := rfl; omega) hp.1,
            ihf rest (by omega) hp.2]
        -- vmap
        · exact Bool.noConfusion hp.1
        -- vset
        · exact Bool.noConfusion hp.1
        -- vfunc
        · exact Bool.noConfusion hp.1

/-- JSON rendering is the identity on pure-JSON values. -/
theorem jsonRender_pure (v : JVal) (hp : pureJSON v = true) : jsonRender v = v :=
  (jsonRender_pure_aux (jsize v)).1 v (Nat.le_refl _) hp

/-- JSON rendering is the identity on pure-JSON element lists. -/
theorem jsonRenderElems_pure (xs : List JVal) (hp : pureJSONList xs = true) :
    jsonRenderElems xs = xs :=
  (jsonRender_pure_aux (jsizeList xs)).2.1 xs (Nat.le_refl _) hp

/-- The JSON encoding of map entries is a pure-JSON element list. -/
theorem mapEnc_pure (entries : List (JVal × JVal))
    (h : entries.all (fun kv => pureJSON kv.1 && pureJSON kv.2) = true) :
    pureJSONList (entries.map (fun kv => JVal.varr [kv.1, kv.2])) = true := by
  induction entries with
  | nil => rfl
  | cons ab rest ih =>
    rw [List.all_cons, Bool.and_eq_true] at h
    rw [List.map_cons, pureJSONList, Bool.and_eq_true]
    refine ⟨?_, ih h.2⟩
    show pureJSONList [ab.1, ab.2] = true
    rw [Bool.and_eq_true] at h
    show (pureJSON ab.1 && (pureJSON ab.2 && true)) = true
    rw [h.1.1, h.1.2]
    rfl

/-- Destructuring the encoded map entries restores the entry list. -/
theorem mapEntry_roundtrip (entries : List (JVal × JVal)) :
    (entries.map (fun kv => JVal.varr [kv.1, kv.2])).map mapEntryOf = entries := by
  induction entries with
  | nil => rfl
  | cons ab rest ih =>
    rw [List.map_cons, List.map_cons, ih]
    rfl

theorem isJSONr_raw (s : String) : isJSONr (.raw s) = isJSON s := by
  rw [isJSONr, isJSON, show parseRVal (.raw s) = jparse s from rfl]

/-- Decoding the stored rendering of a well-formed leaf restores the leaf
exactly: the tag record resolves tagged types, and the default branch
restores untagged strings, arrays and empty objects. -/
theorem decode_encode (st : Store) (children : List String) (c k : String) (v : JVal)
    (hwv : wfVal v = true) (hlv : isLeafVal v = true)
    (hmeta : children.contains (c ++ ":" ++ k ++ ".meta") = taggedLeaf v)
    (htag : taggedLeaf v = true →
      metaTypeAt st (c ++ ":" ++ k ++ ".meta") = some (writtenTag v)) :
    decodeField st children c k (encLeaf v) = v := by
  cases v
  -- vnull
  · rw [decodeField]
    dsimp only
    rw [if_pos (hmeta.trans (by rfl)), htag (by rfl)]
    rfl
  -- vundef
  · exact Bool.noConfusion hwv
  -- vbool
  · rename_i b
    cases b
    · rw [decodeField]
      dsimp only
      rw [if_pos (hmeta.trans (by rfl)), htag (by rfl)]
      rfl
    · rw [decodeField]
      dsimp only
      rw [if_pos (hmeta.trans (by rfl)), htag (by rfl)]
      rfl
  -- vnum
  · rw [decodeField]
    dsimp only
    rw [if_pos (hmeta.trans (by rfl)), htag (by rfl)]
    rfl
  -- vstr
  · rename_i s
    by_cases hj : isJSON s = true
    · have ht : taggedLeaf (.vstr s) = true := by
        rw [taggedLeaf, getValueType, if_pos hj]
        rfl
      rw [decodeField]
      dsimp only
      rw [if_pos (hmeta.trans ht), htag ht]
      rfl
    · have hjf : isJSON s = false := Bool.eq_false_iff.mpr hj
      have ht : taggedLeaf (.vstr s) = false := by
        rw [taggedLeaf, getValueType, if_neg hj]
        rfl
      have hcf : children.contains (c ++ ":" ++ k ++ ".meta") = false := hmeta.trans ht
      have hpre : ("JSON\x7d\x7d\x7d".data.isPrefixOf s.data) = false := by
        rw [wfVal, Bool.not_eq_true'] at hwv
        exact hwv
      rw [decodeField]
      dsimp only
      rw [if_neg (by rw [hcf]; exact Bool.false_ne_true)]
      rw [show encLeaf (.vstr s) = .raw s from rfl, isJSONr_raw, hjf]
      rw [if_neg Bool.false_ne_true]
      dsimp only
      rw [show strValOf (.raw s) = s from rfl, hpre]
      rfl
  -- vdate
  · rw [decodeField]
    dsimp only
    rw [if_pos (hmeta.trans (by rfl)), htag (by rfl)]
    rfl
  -- varr
  · rename_i xs
    rw [wfVal] at hwv
    have hren : jsonRender (.varr xs) = .varr xs :=
      jsonRender_pure (.varr xs) (by rw [pureJSON]; exact hwv)
    rw [decodeField]
    dsimp only
    rw [if_neg (by rw [hmeta.trans (by rfl)]; exact Bool.false_ne_true)]
    rw [show encLeaf (.varr xs) = .jsonv (jsonRender (.varr xs)) from rfl, hren]
    rfl
  -- vobj
  · rename_i gs
    rw [isLeafVal] at hlv
    have hgs : gs = [] := by
      cases gs with
      | nil => rfl
      | cons a b => exact Bool.noConfusion hlv
    subst hgs
    rw [decodeField]
    dsimp only
    rw [if_neg (by rw [hmeta.trans (by rfl)]; exact Bool.false_ne_true)]
    rfl
  -- vmap
  · rename_i entries
    rw [wfVal] at hwv
    have hp := mapEnc_pure entries hwv
    have hren : jsonRender (.varr (entries.map (fun kv => JVal.varr [kv.1, kv.2])))
        = .varr (entries.map (fun kv => JVal.varr [kv.1, kv.2])) :=
      jsonRender_pure _ (by rw [pureJSON]; exact hp)
    rw [decodeField]
    dsimp only
    rw [if_pos (hmeta.trans (by rfl)), htag (by rfl)]
    rw [show encLeaf (.vmap entries)
          = .jsonv (jsonRender (.varr (entries.map (fun kv => JVal.varr [kv.1, kv.2]))))
        from rfl, hren]
    show JVal.vmap ((entries.map (fun kv => JVal.varr [kv.1, kv.2])).map mapEntryOf)
      = .vmap entries
    rw [mapEntry_roundtrip]
  -- vset
  · rename_i xs
    rw [wfVal] at hwv
    have hren : jsonRender (.varr xs) = .varr xs :=
      jsonRender_pure (.varr xs) (by rw [pureJSON]; exact hwv)
    rw [decodeField]
    dsimp only
    rw [if_pos (hmeta.trans (by rfl)), htag (by rfl)]
    rw [show encLeaf (.vset xs) = .jsonv (jsonRender (.varr xs)) from rfl, hren]
    rfl
  -- vfunc
  · exact Bool.noConfusion hwv

theorem str_data_ext (a b : String) (h : a.data = b.data) : a = b := by
  cases a
  cases b
  exact congrArg String.mk h

theorem str_append_empty (s : String) : s ++ "" = s :=
  str_data_ext _ _ (by rw [String.data_append]; exact List.append_nil _)

theorem str_append_assoc (a b c : String) : a ++ b ++ c = a ++ (b ++ c) :=
  str_data_ext _ _ (by
    rw [String.data_append, String.data_append, String.data_append, String.data_append,
      List.append_assoc])

theorem isEmpty_eq_data (s : String) : s.isEmpty = s.data.isEmpty := by
  cases s with
  | mk data =>
    cases data with
    | nil => rfl
    | cons c cs =>
      show (String.endPos ⟨c :: cs⟩ == 0) = false
      have h : String.endPos ⟨c :: cs⟩ ≠ 0 := by
        intro hc
        have h2 : String.utf8ByteSize.go cs + c.utf8Size = 0 :=
          congrArg String.Pos.byteIdx hc
        have hpos := Char.utf8Size_pos c
        omega
      exact beq_eq_false_iff_ne.mpr h

theorem segOk_parts (s : String) (h : segOk s = true) :
    s.data ≠ [] ∧ ':' ∉ s.data ∧ '.' ∉ s.data := by
  rw [segOk, Bool.and_eq_true] at h
  obtain ⟨h1, h2⟩ := h
  rw [List.all_eq_true] at h2
  refine ⟨?_, ?_, ?_⟩
  · intro hc
    rw [hc] at h1
    exact Bool.noConfusion h1
  · intro hc
    have := h2 ':' hc
    simp only [Bool.and_eq_true, decide_eq_true_eq] at this
    exact this.1 rfl
  · intro hc
    have := h2 '.' hc
    simp only [Bool.and_eq_true, decide_eq_true_eq] at this
    exact this.2 rfl

theorem jsTruthy_some (s : String) (h : s.data ≠ []) : jsTruthy (some s) = true := by
  cases hd : s.data with
  | nil => exact absurd hd h
  | cons c cs =>
    rw [jsTruthy, isEmpty_eq_data, hd]
    rfl

theorem joinSegs_data_ne (segs : List String) (hne : segs ≠ [])
    (hok : ∀ s ∈ segs, segOk s = true) : (joinSegs segs).data ≠ [] := by
  cases segs with
  | nil => exact absurd rfl hne
  | cons s rest =>
    cases rest with
    | nil =>
      show s.data ≠ []
      exact (segOk_parts s (hok s (List.mem_cons_self _ _))).1
    | cons t r =>
      rw [joinSegs_cons s (t :: r) (by simp), data_append_colon]
      intro hc
      rw [List.append_eq_nil] at hc
      exact (segOk_parts s (hok s (List.mem_cons_self _ _))).1 hc.1

theorem joinSegs_snoc (init : List String) (last : String) :
    joinSegs (init ++ [last])
      = if init = [] then last else joinSegs init ++ ":" ++ last := by
  induction init with
  | nil =>
    rw [if_pos rfl]
    rfl
  | cons s rest ih =>
    cases rest with
    | nil =>
      rw [if_neg (by simp)]
      rfl
    | cons t r =>
      rw [if_neg (by simp)]
      rw [show (s :: t :: r) ++ [last] = s :: ((t :: r) ++ [last]) from rfl]
      rw [joinSegs_cons s ((t :: r) ++ [last]) (by simp)]
      rw [ih, if_neg (by simp)]
      rw [joinSegs_cons s (t :: r) (by simp)]
      apply str_data_ext
      simp [String.data_append, List.append_assoc]

/-- Splitting the joined path of a safe segment list at its last colon
recovers the parent path and the final segment. -/
theorem extract_joinSnoc (init : List String) (last : String)
    (hok : ∀ s ∈ init ++ [last], segOk s = true) :
    extractFinalSegment (some (joinSegs (init ++ [last]))) =
      ((if init = [] then none else some (joinSegs init)), some last) := by
  have hlast := segOk_parts last (hok last (by simp))
  by_cases hd : init = []
  · subst hd
    rw [if_pos rfl]
    exact extract_no_colon last hlast.2.1
  · rw [if_neg hd, joinSegs_snoc, if_neg hd]
    exact extract_last (joinSegs init) last hlast.2.1 hlast.1

/-- The shape of `_saveItem` for a truthy hash-field item against a
boolean-false old value: stale-tag delete, optional tag record, hash
write. -/
theorem saveItem_boolold (st : Store) (key f : String) (leaf : JVal)
    (hf : jsTruthy (some f) = true) (hleaf : leaf ≠ .vundef) :
    saveItem st ⟨key, some f, leaf, .vbool false⟩ =
      .ok (let mk := key ++ ":" ++ f ++ ".meta"
       let st1 := sdel st mk
       let st2 := if taggedLeaf leaf then sset st1 mk (tagMeta leaf) else st1
       hset st2 key f (encLeaf leaf)) := by
  rw [saveItem]
  dsimp only
  rw [hf]
  cases leaf
  -- vnull
  · dsimp only
    simp only [writeLeaf]; rw [hf]; rfl
  -- vundef
  · exact absurd rfl hleaf
  -- vbool
  · rename_i b
    cases b <;> (dsimp only; simp only [writeLeaf]; rw [hf]; rfl)
  -- vnum
  · dsimp only
    simp only [writeLeaf]; rw [hf]; rfl
  -- vstr
  · rename_i s
    dsimp only
    by_cases hj : isJSON s = true
    · rw [hj]
      rw [show taggedLeaf (.vstr s) = taggedType (if isJSON s = true then "json" else "string")
            from rfl, hj]
      simp only [writeLeaf]; rw [hf]; rfl
    · have hjf : isJSON s = false := Bool.eq_false_iff.mpr hj
      rw [hjf]
      rw [show taggedLeaf (.vstr s) = taggedType (if isJSON s = true then "json" else "string")
            from rfl, hjf]
      simp only [writeLeaf]; rw [hf]; rfl
  -- vdate
  · dsimp only
    simp only [writeLeaf]; rw [hf]; rfl
  -- varr
  · rfl
  -- vobj
  · rfl
  -- vmap
  · dsimp only
    simp only [writeLeaf]; rw [hf]; rfl
  -- vset
  · dsimp only
    simp only [writeLeaf]; rw [hf]; rfl
  -- vfunc
  · rename_i src
    dsimp only
    by_cases hc : strContains src.data "function".data = true
    · rw [hc]
      simp only [writeLeaf, tagMeta, writtenTag]
      rw [hf, hc]
      rfl
    · have hcf : strContains src.data "function".data = false := Bool.eq_false_iff.mpr hc
      rw [hcf]
      simp only [writeLeaf, tagMeta, writtenTag]
      rw [hf, hcf]
      rfl

theorem foldl_congr_mem {α β : Type} :
    ∀ (l : List α) (st : β) (f g : β → α → β),
      (∀ acc, ∀ e ∈ l, f acc e = g acc e) → l.foldl f st = l.foldl g st := by
  intro l
  induction l with
  | nil => intro st f g _; rfl
  | cons e rest ih =>
    intro st f g h
    rw [List.foldl_cons, List.foldl_cons, h st e (List.mem_cons_self _ _)]
    exact ih _ f g (fun acc e' he' => h acc e' (List.mem_cons_of_mem _ he'))

/-- `update` on a nonempty plain object not deep-equal to the old value:
erase, then run the leaf-save loop over every flattened leaf. -/
theorem update_vobj (cl : Client) (st : Store) (name : String)
    (fields : List (String × JVal)) (old : JVal) (hne : fields.isEmpty = false)
    (hdeq : deepEqual (.vobj fields) old = false) :
    update cl st name none (.vobj fields) old =
      match saveFlat name none old (deleteKeyPath cl st name none).1
          (flattenFields fields) with
      | .ok st2 => .ok (st2, true)
      | .error e => .error e := by
  rw [update, if_neg (by rw [hdeq]; exact Bool.false_ne_true)]
  dsimp only [Option.map]
  rw [if_neg (by rw [hne]; exact Bool.false_ne_true)]

/-- One step of the leaf-save loop equals the abstract leaf write. -/
theorem body_eq_saveStep (name : String) (fs : List (String × JVal))
    (hwf : wfFlds fs = true) :
    ∀ (acc : Store), ∀ e ∈ segLeaves fs,
      saveItem acc
        { key := name ++ (if jsTruthy (none : Option String)
                   then ":" ++ jsRender (none : Option String) else "")
                 ++ (if jsTruthy (extractFinalSegment (some (joinSegs e.1))).1
                     then ":" ++ jsRender (extractFinalSegment (some (joinSegs e.1))).1 else ""),
          item := (extractFinalSegment (some (joinSegs e.1))).2,
          value := e.2, oldValue := .vbool false }
        = .ok (saveStep name acc e) := by
  intro acc e he
  rw [show (if jsTruthy (none : Option String)
        then ":" ++ jsRender (none : Option String) else "") = "" from rfl]
  obtain ⟨hd0, tl0, he1, _⟩ := segLeaves_head_mem fs e he
  have hene : e.1 ≠ [] := by rw [he1]; simp
  obtain ⟨hok, hleafv, hwv⟩ := segLeaves_wf fs hwf e he
  have hsplit := List.dropLast_append_getLast hene
  have hgl : e.1.getLastD "" = e.1.getLast hene := by
    rw [List.getLastD_eq_getLast?, List.getLast?_eq_getLast _ hene]
    rfl
  have hlmem : e.1.getLast hene ∈ e.1 := List.getLast_mem hene
  have hfne : (e.1.getLast hene).data ≠ [] :=
    (segOk_parts _ (hok _ hlmem)).1
  have hftruthy : jsTruthy (some (e.1.getLast hene)) = true :=
    jsTruthy_some _ hfne
  have hundef : e.2 ≠ .vundef := by
    intro hc
    rw [hc] at hwv
    exact Bool.noConfusion hwv
  have hex : extractFinalSegment (some (joinSegs e.1)) =
      ((if e.1.dropLast = [] then none else some (joinSegs e.1.dropLast)),
       some (e.1.getLast hene)) := by
    conv_lhs => rw [← hsplit]
    rw [extract_joinSnoc _ _ (by
      intro s hs
      rw [hsplit] at hs
      exact hok s hs)]
  rw [hex]
  dsimp only
  by_cases hdl : e.1.dropLast = []
  · rw [if_pos hdl]
    rw [show jsTruthy none = false from rfl, if_neg Bool.false_ne_true]
    rw [saveItem_boolold acc (name ++ "" ++ "") (e.1.getLast hene) e.2 hftruthy hundef]
    rw [saveStep]
    dsimp only
    rw [hgl, hdl]
    rw [show name ++ "" ++ "" = name from by rw [str_append_empty, str_append_empty]]
    rfl
  · rw [if_neg hdl]
    have hdsub : ∀ s ∈ e.1.dropLast, segOk s = true := by
      intro s hs
      refine hok s ?_
      rw [← hsplit]
      exact List.mem_append_left _ hs
    have hjt : jsTruthy (some (joinSegs e.1.dropLast)) = true :=
      jsTruthy_some _ (joinSegs_data_ne _ hdl hdsub)
    rw [hjt, if_pos rfl]
    rw [saveItem_boolold acc
      (name ++ "" ++ (":" ++ jsRender (some (joinSegs e.1.dropLast))))
      (e.1.getLast hene) e.2 hftruthy hundef]
    rw [saveStep]
    dsimp only
    rw [hgl]
    rw [show name ++ "" ++ (":" ++ jsRender (some (joinSegs e.1.dropLast)))
          = joinSegs (name :: e.1.dropLast) from by
      rw [str_append_empty, joinSegs_cons _ _ hdl,
        show jsRender (some (joinSegs e.1.dropLast)) = joinSegs e.1.dropLast from rfl,
        str_append_assoc]]

/-- The leaf-save loop over mapped segment leaves succeeds, folding the
abstract leaf writes in order. -/
theorem saveFlat_fold (name : String) (fs : List (String × JVal))
    (hwf : wfFlds fs = true) :
    ∀ (E : List (List String × JVal)), (∀ e ∈ E, e ∈ segLeaves fs) →
    ∀ st, saveFlat name none (.vbool false) st (E.map (fun e => (joinSegs e.1, e.2)))
      = .ok (E.foldl (saveStep name) st) := by
  intro E
  induction E with
  | nil => intro _ st; rfl
  | cons e E2 ih =>
    intro hmem st
    rw [List.map_cons, List.foldl_cons, saveFlat]
    dsimp only
    rw [body_eq_saveStep name fs hwf st e (hmem e (List.mem_cons_self _ _))]
    exact ih (fun e2 he2 => hmem e2 (List.mem_cons_of_mem _ he2)) (saveStep name st e)

/-- The leaf-save loop over the flattened paths of a well-formed object is
the abstract save fold over the segment-list leaves. -/
theorem obj_fold_saveFold (name : String) (fs : List (String × JVal)) (st : Store)
    (hwf : wfFlds fs = true) :
    saveFlat name none (.vbool false) st (flattenFields fs)
      = .ok (saveFold name st (segLeaves fs)) := by
  rw [flattenFields_eq_segLeaves, saveFold]
  exact saveFlat_fold name fs hwf (segLeaves fs) (fun e he => he) st

theorem saveFold_nil (name : String) (acc : Store) : saveFold name acc [] = acc := rfl

theorem saveFold_cons (name : String) (acc : Store) (e : List String × JVal)
    (E : List (List String × JVal)) :
    saveFold name acc (e :: E) = saveFold name (saveStep name acc e) E := rfl

theorem saveFold_append (name : String) (acc : Store)
    (E₁ E₂ : List (List String × JVal)) :
    saveFold name acc (E₁ ++ E₂) = saveFold name (saveFold name acc E₁) E₂ := by
  rw [saveFold, saveFold, saveFold, List.foldl_append]

theorem sGet_setEntry_self (st : Store) (k : String) (e : Entry) :
    sGet (setEntry st k e) k = some e := by
  induction st with
  | nil => simp [setEntry, sGet]
  | cons kv rest ih =>
    obtain ⟨k', e'⟩ := kv
    by_cases h : k' = k
    · simp [setEntry, h, sGet]
    · show sGet (if k' = k then (k, e) :: rest else (k', e') :: setEntry rest k e) k = some e
      rw [if_neg h]
      show (if k' = k then some e' else sGet (setEntry rest k e) k) = some e
      rw [if_neg h, ih]

theorem sGet_setEntry_ne (st : Store) (k m : String) (e : Entry) (h : m ≠ k) :
    sGet (setEntry st k e) m = sGet st m := by
  induction st with
  | nil =>
    show (if k = m then some e else none) = none
    rw [if_neg (Ne.symm h)]
  | cons kv rest ih =>
    obtain ⟨k', e'⟩ := kv
    by_cases hk : k' = k
    · subst hk
      show sGet (if k' = k' then (k', e) :: rest else _) m = _
      rw [if_pos rfl]
      show (if k' = m then some e else sGet rest m) = if k' = m then some e' else sGet rest m
      rw [if_neg (fun hm => h hm.symm), if_neg (fun hm => h hm.symm)]
    · show sGet (if k' = k then (k, e) :: rest else (k', e') :: setEntry rest k e) m = _
      rw [if_neg hk]
      show (if k' = m then some e' else sGet (setEntry rest k e) m)
        = if k' = m then some e' else sGet rest m
      rw [ih]

theorem sGet_sdel_self (st : Store) (k : String) : sGet (sdel st k) k = none := by
  induction st with
  | nil => rfl
  | cons kv rest ih =>
    obtain ⟨k', e'⟩ := kv
    rw [sdel, List.filter_cons]
    by_cases hk : k' = k
    · rw [if_neg (by simp [hk])]
      exact ih
    · rw [if_pos (by simp [hk])]
      show (if k' = k then some e' else sGet (sdel rest k) k) = none
      rw [if_neg hk]
      exact ih

theorem sGet_sdel_ne (st : Store) (k m : String) (h : m ≠ k) :
    sGet (sdel st k) m = sGet st m := by
  induction st with
  | nil => rfl
  | cons kv rest ih =>
    obtain ⟨k', e'⟩ := kv
    rw [sdel, List.filter_cons]
    by_cases hk : k' = k
    · rw [if_neg (by simp [hk])]
      show sGet (sdel rest k) m = _
      rw [ih]
      show sGet rest m = if k' = m then some e' else sGet rest m
      rw [if_neg (fun hm => h (by rw [← hm, hk]))]
    · rw [if_pos (by simp [hk])]
      show (if k' = m then some e' else sGet (sdel rest k) m)
        = if k' = m then some e' else sGet rest m
      rw [ih]

theorem sGet_sset_ne (st : Store) (k m : String) (v : RVal) (h : m ≠ k) :
    sGet (sset st k v) m = sGet st m := sGet_setEntry_ne st k m _ h

theorem sGet_sset_self (st : Store) (k : String) (v : RVal) :
    sGet (sset st k v) k = some (.str v) := sGet_setEntry_self st k _

theorem sGet_hset_ne (st : Store) (k f m : String) (v : RVal) (h : m ≠ k) :
    sGet (hset st k f v) m = sGet st m := by
  unfold hset
  cases sGet st k with
  | none => exact sGet_setEntry_ne st k m _ h
  | some e => cases e <;> exact sGet_setEntry_ne st k m _ h

theorem sGet_hdel_ne (st : Store) (k f m : String) (h : m ≠ k) :
    sGet (hdel st k f) m = sGet st m := by
  unfold hdel
  cases sGet st k with
  | none => rfl
  | some e =>
    cases e with
    | str _ => rfl
    | hash fs =>
      dsimp only
      split
      · exact sGet_sdel_ne st k m h
      · exact sGet_setEntry_ne st k m _ h

theorem sGet_writeLeaf_ne (st : Store) (key : String) (item : Option String)
    (rv : RVal) (m : String) (h : m ≠ key) :
    sGet (writeLeaf st key item rv) m = sGet st m := by
  unfold writeLeaf
  split
  · exact sGet_hset_ne st key _ m rv h
  · exact sGet_sset_ne st key m rv h

theorem string_ne_append_right (k t : String) (h : t.data ≠ []) : k ≠ k ++ t := by
  intro he
  apply h
  have hd := congrArg String.data he
  rw [String.data_append] at hd
  have hlen := congrArg List.length hd
  rw [List.length_append] at hlen
  exact List.length_eq_zero.mp (by omega)

/-- The target key of a leaf write is never its own `.meta` key. -/
theorem metaKeyOf_ne_key (a : SaveArgs) : a.key ≠ metaKeyOf a := by
  unfold metaKeyOf
  by_cases h : jsTruthy a.item = true
  · rw [if_pos h, String.append_assoc, String.append_assoc]
    apply string_ne_append_right
    simp [String.data_append]
  · rw [if_neg h]
    apply string_ne_append_right
    simp

theorem sGet_hset_hash (st : Store) (k f : String) (v : RVal)
    (h : List (String × RVal)) (hh : sGet st k = some (.hash h)) :
    sGet (hset st k f v) k = some (.hash (upsertH h f v)) := by
  rw [hset, hh]
  exact sGet_setEntry_self st k _

theorem sGet_hset_new (st : Store) (k f : String) (v : RVal)
    (hh : sGet st k = none) :
    sGet (hset st k f v) k = some (.hash [(f, v)]) := by
  rw [hset, hh]
  exact sGet_setEntry_self st k _

theorem upsertH_append (h : List (String × RVal)) (f : String) (v : RVal)
    (hf : ∀ fv ∈ h, fv.1 ≠ f) : upsertH h f v = h ++ [(f, v)] := by
  induction h with
  | nil => rfl
  | cons fv rest ih =>
    obtain ⟨f', v'⟩ := fv
    rw [upsertH, if_neg (hf (f', v') (List.mem_cons_self _ _)),
      ih (fun fv hm => hf fv (List.mem_cons_of_mem _ hm))]
    rfl

/-- A leaf's hash key is never its own tag-record key. -/
theorem hkey_ne_mk (name : String) (e : List String × JVal) :
    hkeyOf name e ≠ mkOf name e := by
  rw [hkeyOf, mkOf, String.append_assoc, String.append_assoc]
  apply string_ne_append_right
  rw [String.data_append]
  simp

/-- A save step leaves every key other than its hash key and its tag key
unchanged. -/
theorem sGet_saveStep_other (name : String) (acc : Store) (e : List String × JVal)
    (q : String) (h1 : q ≠ mkOf name e) (h2 : q ≠ hkeyOf name e) :
    sGet (saveStep name acc e) q = sGet acc q := by
  rw [saveStep]
  rw [show joinSegs (name :: e.1.dropLast) ++ ":" ++ e.1.getLastD "" ++ ".meta"
        = mkOf name e from rfl,
      show joinSegs (name :: e.1.dropLast) = hkeyOf name e from rfl,
      show e.1.getLastD "" = fldOf e from rfl]
  rw [sGet_hset_ne _ _ _ _ _ h2]
  by_cases ht : taggedLeaf e.2 = true
  · rw [if_pos ht, sGet_sset_ne _ _ _ _ h1, sGet_sdel_ne _ _ _ h1]
  · rw [if_neg ht, sGet_sdel_ne _ _ _ h1]

/-- A save step records the tag of a tagged leaf at its tag key. -/
theorem sGet_saveStep_mk (name : String) (acc : Store) (e : List String × JVal)
    (htag : taggedLeaf e.2 = true) :
    sGet (saveStep name acc e) (mkOf name e) = some (.str (tagMeta e.2)) := by
  rw [saveStep]
  rw [show joinSegs (name :: e.1.dropLast) ++ ":" ++ e.1.getLastD "" ++ ".meta"
        = mkOf name e from rfl,
      show joinSegs (name :: e.1.dropLast) = hkeyOf name e from rfl,
      show e.1.getLastD "" = fldOf e from rfl]
  rw [sGet_hset_ne _ _ _ _ _ (fun hc => hkey_ne_mk name e hc.symm), if_pos htag,
    sGet_sset_self]

/-- A save step erases the tag key of an untagged leaf. -/
theorem sGet_saveStep_mk_untagged (name : String) (acc : Store)
    (e : List String × JVal) (htag : taggedLeaf e.2 = false) :
    sGet (saveStep name acc e) (mkOf name e) = none := by
  rw [saveStep]
  rw [show joinSegs (name :: e.1.dropLast) ++ ":" ++ e.1.getLastD "" ++ ".meta"
        = mkOf name e from rfl,
      show joinSegs (name :: e.1.dropLast) = hkeyOf name e from rfl,
      show e.1.getLastD "" = fldOf e from rfl]
  rw [sGet_hset_ne _ _ _ _ _ (fun hc => hkey_ne_mk name e hc.symm),
    if_neg (by rw [htag]; exact Bool.false_ne_true), sGet_sdel_self]

/-- The save fold leaves keys it never addresses unchanged. -/
theorem sGet_saveFold_frame (name : String) (q : String) :
    ∀ (E : List (List String × JVal)) (acc : Store),
      (∀ e ∈ E, mkOf name e ≠ q) → (∀ e ∈ E, hkeyOf name e ≠ q) →
      sGet (saveFold name acc E) q = sGet acc q := by
  intro E
  induction E with
  | nil => intro acc _ _; rfl
  | cons e E' ih =>
    intro acc hmk hhk
    rw [saveFold_cons]
    rw [ih _ (fun e' he' => hmk e' (List.mem_cons_of_mem _ he'))
      (fun e' he' => hhk e' (List.mem_cons_of_mem _ he'))]
    exact sGet_saveStep_other name acc e q
      (fun hc => hmk e (List.mem_cons_self _ _) hc.symm)
      (fun hc => hhk e (List.mem_cons_self _ _) hc.symm)

theorem hContrib_nil (name q : String) : hContrib name q [] = [] := rfl

theorem hContrib_cons_pos (name q : String) (e : List String × JVal)
    (E : List (List String × JVal)) (h : hkeyOf name e = q) :
    hContrib name q (e :: E) = (fldOf e, encLeaf e.2) :: hContrib name q E := by
  rw [hContrib, List.filterMap_cons]
  rw [if_pos h]
  rfl

theorem hContrib_cons_neg (name q : String) (e : List String × JVal)
    (E : List (List String × JVal)) (h : ¬hkeyOf name e = q) :
    hContrib name q (e :: E) = hContrib name q E := by
  rw [hContrib, List.filterMap_cons]
  rw [if_neg h]
  rfl

/-- The save fold accumulates one hash key's fields in fold order onto the
existing hash, provided the fold never deletes that key's tag and all field
names stay distinct. -/
theorem sGet_saveFold_hash (name : String) (q : String) :
    ∀ (E : List (List String × JVal)) (acc : Store) (cur : List (String × RVal)),
      (∀ e ∈ E, mkOf name e ≠ q) →
      (cur.map Prod.fst ++ (hContrib name q E).map Prod.fst).Nodup →
      sGet acc q = some (.hash cur) →
      sGet (saveFold name acc E) q = some (.hash (cur ++ hContrib name q E)) := by
  intro E
  induction E with
  | nil =>
    intro acc cur _ _ hacc
    rw [saveFold_nil, hContrib_nil, List.append_nil]
    exact hacc
  | cons e E' ih =>
    intro acc cur hmk hnd hacc
    rw [saveFold_cons]
    by_cases hk : hkeyOf name e = q
    · rw [hContrib_cons_pos name q e E' hk] at hnd ⊢
      have hne1 : q ≠ mkOf name e := fun hc => hmk e (List.mem_cons_self _ _) hc.symm
      have hfresh : ∀ fv ∈ cur, fv.1 ≠ fldOf e := by
        intro fv hfv hc
        rw [List.map_cons] at hnd
        have hdisj := (List.nodup_append.mp hnd).2.2
        exact hdisj (List.mem_map.mpr ⟨fv, hfv, rfl⟩)
          (by rw [hc]; exact List.mem_cons_self _ _)
      have hstep : sGet (saveStep name acc e) q
          = some (.hash (cur ++ [(fldOf e, encLeaf e.2)])) := by
        rw [saveStep]
        rw [show joinSegs (name :: e.1.dropLast) ++ ":" ++ e.1.getLastD "" ++ ".meta"
              = mkOf name e from rfl,
            show joinSegs (name :: e.1.dropLast) = hkeyOf name e from rfl,
            show e.1.getLastD "" = fldOf e from rfl]
        have hst2 : sGet (if taggedLeaf e.2 = true
            then sset (sdel acc (mkOf name e)) (mkOf name e) (tagMeta e.2)
            else sdel acc (mkOf name e)) q = some (.hash cur) := by
          by_cases ht : taggedLeaf e.2 = true
          · rw [if_pos ht, sGet_sset_ne _ _ _ _ hne1, sGet_sdel_ne _ _ _ hne1]
            exact hacc
          · rw [if_neg ht, sGet_sdel_ne _ _ _ hne1]
            exact hacc
        rw [hk]
        rw [sGet_hset_hash _ _ _ _ cur hst2]
        rw [upsertH_append cur (fldOf e) (encLeaf e.2) hfresh]
      rw [ih (saveStep name acc e) (cur ++ [(fldOf e, encLeaf e.2)])
        (fun e' he' => hmk e' (List.mem_cons_of_mem _ he'))
        (by
          rw [List.map_append]
          rw [List.append_assoc]
          rw [List.map_cons] at hnd
          exact hnd)
        hstep]
      rw [List.append_assoc]
      rfl
    · rw [hContrib_cons_neg name q e E' hk] at hnd ⊢
      have hstep : sGet (saveStep name acc e) q = some (.hash cur) := by
        rw [sGet_saveStep_other name acc e q
          (fun hc => hmk e (List.mem_cons_self _ _) hc.symm)
          (fun hc => hk hc.symm)]
        exact hacc
      exact ih (saveStep name acc e) cur
        (fun e' he' => hmk e' (List.mem_cons_of_mem _ he')) hnd hstep

/-- The tag record at a leaf's tag key after the save fold is decided by
that leaf alone: present with its tag when tagged, absent when not. -/
theorem sGet_saveFold_meta (name : String) (q : String)
    (E₁ E₂ : List (List String × JVal)) (e : List String × JVal) (acc : Store)
    (hq : q = mkOf name e)
    (hmk2 : ∀ e' ∈ E₂, mkOf name e' ≠ q)
    (hhk : ∀ e' ∈ E₁ ++ e :: E₂, hkeyOf name e' ≠ q) :
    sGet (saveFold name acc (E₁ ++ e :: E₂)) q =
      if taggedLeaf e.2 then some (.str (tagMeta e.2)) else none := by
  rw [saveFold_append, saveFold_cons]
  rw [sGet_saveFold_frame name q E₂ _ hmk2 (fun e' he' => hhk e' (by
    rw [List.mem_append]
    exact Or.inr (List.mem_cons_of_mem _ he')))]
  subst hq
  by_cases ht : taggedLeaf e.2 = true
  · rw [if_pos ht]
    exact sGet_saveStep_mk name _ e ht
  · rw [if_neg ht]
    exact sGet_saveStep_mk_untagged name _ e (Bool.eq_false_iff.mpr ht)

theorem setEntry_keys (st : Store) (k : String) (v : Entry) :
    ∀ q ∈ (setEntry st k v).map Prod.fst, q ∈ st.map Prod.fst ∨ q = k := by
  induction st with
  | nil =>
    intro q hq
    rw [setEntry, List.map_cons, List.mem_cons] at hq
    cases hq with
    | inl he => exact Or.inr he
    | inr hm => cases hm
  | cons kv rest ih =>
    obtain ⟨k', e'⟩ := kv
    intro q hq
    rw [setEntry] at hq
    by_cases h : k' = k
    · rw [if_pos h, List.map_cons, List.mem_cons] at hq
      cases hq with
      | inl he => exact Or.inr he
      | inr hm => exact Or.inl (by rw [List.map_cons]; exact List.mem_cons_of_mem _ hm)
    · rw [if_neg h, List.map_cons, List.mem_cons] at hq
      cases hq with
      | inl he => exact Or.inl (by rw [List.map_cons, he]; exact List.mem_cons_self _ _)
      | inr hm =>
        cases ih q hm with
        | inl h1 => exact Or.inl (by rw [List.map_cons]; exact List.mem_cons_of_mem _ h1)
        | inr h2 => exact Or.inr h2

theorem sdel_keys (st : Store) (k : String) :
    ∀ q ∈ (sdel st k).map Prod.fst, q ∈ st.map Prod.fst := by
  intro q hq
  rw [List.mem_map] at hq
  obtain ⟨kv, hkv, rfl⟩ := hq
  exact List.mem_map.mpr ⟨kv, List.mem_of_mem_filter hkv, rfl⟩

theorem sset_keys (st : Store) (k : String) (v : RVal) :
    ∀ q ∈ (sset st k v).map Prod.fst, q ∈ st.map Prod.fst ∨ q = k :=
  setEntry_keys st k _

theorem hset_keys (st : Store) (k f : String) (v : RVal) :
    ∀ q ∈ (hset st k f v).map Prod.fst, q ∈ st.map Prod.fst ∨ q = k := by
  rw [hset]
  cases sGet st k with
  | none => exact setEntry_keys st k _
  | some e =>
    cases e with
    | str rv => exact setEntry_keys st k _
    | hash h => exact setEntry_keys st k _

theorem saveStep_keys (name : String) (acc : Store) (e : List String × JVal) :
    ∀ q ∈ (saveStep name acc e).map Prod.fst,
      q ∈ acc.map Prod.fst ∨ q = hkeyOf name e ∨ q = mkOf name e := by
  intro q hq
  rw [saveStep] at hq
  rw [show joinSegs (name :: e.1.dropLast) ++ ":" ++ e.1.getLastD "" ++ ".meta"
        = mkOf name e from rfl,
      show joinSegs (name :: e.1.dropLast) = hkeyOf name e from rfl,
      show e.1.getLastD "" = fldOf e from rfl] at hq
  cases hset_keys _ _ _ _ q hq with
  | inr h => exact Or.inr (Or.inl h)
  | inl h =>
    by_cases ht : taggedLeaf e.2 = true
    · rw [if_pos ht] at h
      cases sset_keys _ _ _ q h with
      | inr h2 => exact Or.inr (Or.inr h2)
      | inl h2 => exact Or.inl (sdel_keys acc _ q h2)
    · rw [if_neg ht] at h
      exact Or.inl (sdel_keys acc _ q h)

theorem saveFold_keys (name : String) :
    ∀ (E : List (List String × JVal)) (acc : Store) (q : String),
      q ∈ (saveFold name acc E).map Prod.fst →
      q ∈ acc.map Prod.fst ∨ (∃ e ∈ E, q = hkeyOf name e)
        ∨ (∃ e ∈ E, q = mkOf name e) := by
  intro E
  induction E with
  | nil => intro acc q hq; exact Or.inl hq
  | cons e E' ih =>
    intro acc q hq
    rw [saveFold_cons] at hq
    cases ih _ q hq with
    | inl h1 =>
      cases saveStep_keys name acc e q h1 with
      | inl h2 => exact Or.inl h2
      | inr h2 =>
        cases h2 with
        | inl h3 => exact Or.inr (Or.inl ⟨e, List.mem_cons_self _ _, h3⟩)
        | inr h3 => exact Or.inr (Or.inr ⟨e, List.mem_cons_self _ _, h3⟩)
    | inr h1 =>
      cases h1 with
      | inl h2 =>
        obtain ⟨e', he', h3⟩ := h2
        exact Or.inr (Or.inl ⟨e', List.mem_cons_of_mem _ he', h3⟩)
      | inr h2 =>
        obtain ⟨e', he', h3⟩ := h2
        exact Or.inr (Or.inr ⟨e', List.mem_cons_of_mem _ he', h3⟩)

theorem setEntry_keys_nodup (st : Store) (k : String) (v : Entry)
    (h : (st.map Prod.fst).Nodup) : ((setEntry st k v).map Prod.fst).Nodup := by
  induction st with
  | nil =>
    rw [setEntry, List.map_cons]
    exact List.nodup_singleton k
  | cons kv rest ih =>
    obtain ⟨k', e'⟩ := kv
    rw [List.map_cons, List.nodup_cons] at h
    rw [setEntry]
    by_cases hk : k' = k
    · rw [if_pos hk, List.map_cons, List.nodup_cons]
      exact ⟨hk ▸ h.1, h.2⟩
    · rw [if_neg hk, List.map_cons, List.nodup_cons]
      refine ⟨?_, ih h.2⟩
      intro hc
      cases setEntry_keys rest k v k' hc with
      | inl h1 => exact h.1 h1
      | inr h1 => exact hk h1

theorem sdel_keys_nodup (st : Store) (k : String)
    (h : (st.map Prod.fst).Nodup) : ((sdel st k).map Prod.fst).Nodup := by
  have hsub : List.Sublist ((sdel st k).map Prod.fst) (st.map Prod.fst) :=
    List.Sublist.map _ (List.filter_sublist st)
  exact List.Nodup.sublist hsub h

theorem hset_keys_nodup (st : Store) (k f : String) (v : RVal)
    (h : (st.map Prod.fst).Nodup) : ((hset st k f v).map Prod.fst).Nodup := by
  rw [hset]
  cases sGet st k with
  | none => exact setEntry_keys_nodup st k _ h
  | some e =>
    cases e with
    | str rv => exact setEntry_keys_nodup st k _ h
    | hash hh => exact setEntry_keys_nodup st k _ h

theorem saveStep_keys_nodup (name : String) (acc : Store) (e : List String × JVal)
    (h : (acc.map Prod.fst).Nodup) : ((saveStep name acc e).map Prod.fst).Nodup := by
  rw [saveStep]
  apply hset_keys_nodup
  by_cases ht : taggedLeaf e.2 = true
  · rw [if_pos ht]
    exact setEntry_keys_nodup _ _ _ (sdel_keys_nodup acc _ h)
  · rw [if_neg ht]
    exact sdel_keys_nodup acc _ h

theorem saveFold_keys_nodup (name : String) :
    ∀ (E : List (List String × JVal)) (acc : Store),
      (acc.map Prod.fst).Nodup → ((saveFold name acc E).map Prod.fst).Nodup := by
  intro E
  induction E with
  | nil => intro acc h; exact h
  | cons e E' ih =>
    intro acc h
    rw [saveFold_cons]
    exact ih _ (saveStep_keys_nodup name acc e h)

theorem mem_keys_of_sGet_some (st : Store) (q : String) (e : Entry)
    (h : sGet st q = some e) : q ∈ st.map Prod.fst := by
  induction st with
  | nil => cases h
  | cons kv rest ih =>
    obtain ⟨k', e'⟩ := kv
    rw [sGet] at h
    rw [List.map_cons]
    by_cases hk : k' = q
    · rw [hk]
      exact List.mem_cons_self _ _
    · rw [if_neg hk] at h
      exact List.mem_cons_of_mem _ (ih h)

theorem sGet_isSome_of_mem_keys (st : Store) (q : String)
    (h : q ∈ st.map Prod.fst) : (sGet st q).isSome = true := by
  induction st with
  | nil => cases h
  | cons kv rest ih =>
    obtain ⟨k', e'⟩ := kv
    rw [List.map_cons, List.mem_cons] at h
    rw [sGet]
    by_cases hk : k' = q
    · rw [if_pos hk]
      rfl
    · rw [if_neg hk]
      cases h with
      | inl he => exact absurd he.symm hk
      | inr hm => exact ih hm

/-- Reading the tag record written for a leaf yields its tag. -/
theorem metaTypeAt_tagMeta (st : Store) (mk : String) (leaf : JVal)
    (h : sGet st mk = some (.str (tagMeta leaf))) :
    metaTypeAt st mk = some (writtenTag leaf) := by
  rw [metaTypeAt, h]
  rfl

theorem splitOnChar_ne_nil (c : Char) (l : List Char) : splitOnChar c l ≠ [] := by
  cases l with
  | nil => simp [splitOnChar]
  | cons x rest =>
    rw [splitOnChar]
    by_cases hx : x = c
    · rw [if_pos hx]
      simp
    · rw [if_neg hx]
      cases hr : splitOnChar c rest with
      | nil => exact absurd hr (splitOnChar_ne_nil c rest)
      | cons seg segs => simp

theorem splitOnChar_append_any (c : Char) :
    ∀ (a b : List Char), splitOnChar c (a ++ c :: b) = splitOnChar c a ++ splitOnChar c b := by
  intro a
  induction a with
  | nil =>
    intro b
    exact splitOnChar_append c [] b (by simp)
  | cons x rest ih =>
    intro b
    rw [List.cons_append, splitOnChar, splitOnChar]
    by_cases hx : x = c
    · rw [if_pos hx, if_pos hx, ih b]
      rfl
    · rw [if_neg hx, if_neg hx, ih b]
      cases hr : splitOnChar c rest with
      | nil => exact absurd hr (splitOnChar_ne_nil c rest)
      | cons seg segs => rfl

/-- Splitting after appending a colon and a colon-free tail appends one
segment. -/
theorem splitColon_append_any (a b : String) (hb : ':' ∉ b.data) :
    splitColon (a ++ ":" ++ b) = splitColon a ++ [b] := by
  rw [splitColon, data_append_colon, splitOnChar_append_any,
    splitOnChar_not_mem _ _ hb, List.map_append]
  rw [splitColon]
  rfl

theorem joinSegs_no_dot (l : List String) (h : ∀ s ∈ l, '.' ∉ s.data) :
    '.' ∉ (joinSegs l).data := by
  induction l with
  | nil => simp [joinSegs]
  | cons s rest ih =>
    cases rest with
    | nil => exact h s (List.mem_cons_self _ _)
    | cons t r =>
      rw [joinSegs_cons s (t :: r) (by simp), data_append_colon]
      intro hc
      rw [List.mem_append] at hc
      cases hc with
      | inl h1 => exact h s (List.mem_cons_self _ _) h1
      | inr h1 =>
        rw [List.mem_cons] at h1
        cases h1 with
        | inl h2 => exact absurd h2 (by decide)
        | inr h2 => exact ih (fun s' hs' => h s' (List.mem_cons_of_mem _ hs')) h2

theorem joinSegs_inj (l₁ l₂ : List String) (h1 : l₁ ≠ []) (h2 : l₂ ≠ [])
    (hc1 : ∀ s ∈ l₁, ':' ∉ s.data) (hc2 : ∀ s ∈ l₂, ':' ∉ s.data)
    (h : joinSegs l₁ = joinSegs l₂) : l₁ = l₂ := by
  have hsp := congrArg splitColon h
  rw [splitColon_joinSegs l₁ h1 hc1, splitColon_joinSegs l₂ h2 hc2] at hsp
  exact hsp

theorem str_append_inj_right (a b t : String) (h : a ++ t = b ++ t) : a = b := by
  apply str_data_ext
  have hd := congrArg String.data h
  rw [String.data_append, String.data_append] at hd
  exact List.append_cancel_right hd

theorem insertSorted_perm (s : String) (l : List String) :
    (insertSorted s l).Perm (s :: l) := by
  induction l with
  | nil => exact List.Perm.refl _
  | cons t rest ih =>
    rw [insertSorted]
    by_cases hle : lexLe s.data t.data = true
    · rw [if_pos hle]
    · rw [if_neg hle]
      exact (ih.cons t).trans (List.Perm.swap s t rest)

theorem sortStrings_perm (l : List String) : (sortStrings l).Perm l := by
  induction l with
  | nil => exact List.Perm.refl _
  | cons s rest ih =>
    rw [sortStrings]
    exact (insertSorted_perm s (sortStrings rest)).trans (ih.cons s)

theorem unflattenV_eq_foldIns (m : List (String × JVal)) :
    unflattenV m = .vobj (foldIns [] (m.map (fun pl => (splitColon pl.1, pl.2)))) := by
  rw [unflattenV, foldIns, List.foldl_map]

/-- The save fold builds one hash key's fields from nothing when the key
starts absent. -/
theorem sGet_saveFold_hash_new (name : String) (q : String) :
    ∀ (E : List (List String × JVal)) (acc : Store),
      (∀ e ∈ E, mkOf name e ≠ q) →
      ((hContrib name q E).map Prod.fst).Nodup →
      sGet acc q = none → hContrib name q E ≠ [] →
      sGet (saveFold name acc E) q = some (.hash (hContrib name q E)) := by
  intro E
  induction E with
  | nil => intro acc _ _ _ hc; exact absurd rfl hc
  | cons e E' ih =>
    intro acc hmk hnd hacc hcne
    rw [saveFold_cons]
    by_cases hk : hkeyOf name e = q
    · rw [hContrib_cons_pos name q e E' hk] at hnd ⊢
      have hne1 : q ≠ mkOf name e := fun hc => hmk e (List.mem_cons_self _ _) hc.symm
      have hstep : sGet (saveStep name acc e) q
          = some (.hash [(fldOf e, encLeaf e.2)]) := by
        rw [saveStep]
        rw [show joinSegs (name :: e.1.dropLast) ++ ":" ++ e.1.getLastD "" ++ ".meta"
              = mkOf name e from rfl,
            show joinSegs (name :: e.1.dropLast) = hkeyOf name e from rfl,
            show e.1.getLastD "" = fldOf e from rfl]
        have hst2 : sGet (if taggedLeaf e.2 = true
            then sset (sdel acc (mkOf name e)) (mkOf name e) (tagMeta e.2)
            else sdel acc (mkOf name e)) q = none := by
          by_cases ht : taggedLeaf e.2 = true
          · rw [if_pos ht, sGet_sset_ne _ _ _ _ hne1, sGet_sdel_ne _ _ _ hne1]
            exact hacc
          · rw [if_neg ht, sGet_sdel_ne _ _ _ hne1]
            exact hacc
        rw [hk]
        rw [sGet_hset_new _ _ _ _ hst2]
      rw [sGet_saveFold_hash name q E' (saveStep name acc e) [(fldOf e, encLeaf e.2)]
        (fun e' he' => hmk e' (List.mem_cons_of_mem _ he'))
        (by rw [List.map_cons] at hnd; exact hnd) hstep]
      rfl
    · rw [hContrib_cons_neg name q e E' hk] at hnd hcne ⊢
      have hstep : sGet (saveStep name acc e) q = none := by
        rw [sGet_saveStep_other name acc e q
          (fun hc => hmk e (List.mem_cons_self _ _) hc.symm)
          (fun hc => hk hc.symm)]
        exact hacc
      exact ih (saveStep name acc e)
        (fun e' he' => hmk e' (List.mem_cons_of_mem _ he')) hnd hstep hcne

theorem flatMap_congr_mem {α β : Type} (l : List α) (f g : α → List β)
    (h : ∀ a ∈ l, f a = g a) : l.flatMap f = l.flatMap g := by
  induction l with
  | nil => rfl
  | cons a rest ih =>
    rw [List.flatMap_cons, List.flatMap_cons, h a (List.mem_cons_self _ _),
      ih (fun a' ha' => h a' (List.mem_cons_of_mem _ ha'))]

/-- Concatenating per-key groups over a duplicate-free covering key list
permutes the original list. -/
theorem flatMap_filter_perm {α β : Type} (key : α → String) (g : α → β) :
    ∀ (ks : List String) (E : List α), ks.Nodup → (∀ e ∈ E, key e ∈ ks) →
      (ks.flatMap (fun c => (E.filter (fun e => key e == c)).map g)).Perm
        (E.map g) := by
  intro ks
  induction ks with
  | nil =>
    intro E _ hcov
    cases E with
    | nil => exact List.Perm.refl _
    | cons e E' => exact absurd (hcov e (List.mem_cons_self _ _)) (List.not_mem_nil _)
  | cons c ks' ih =>
    intro E hnd hcov
    rw [List.nodup_cons] at hnd
    rw [List.flatMap_cons]
    have hinner : ks'.flatMap (fun c' => (E.filter (fun e => key e == c')).map g)
        = ks'.flatMap (fun c' =>
            ((E.filter (fun e => !(key e == c))).filter (fun e => key e == c')).map g) := by
      apply flatMap_congr_mem
      intro c' hc'
      congr 1
      rw [List.filter_filter]
      apply List.filter_congr
      intro e _
      by_cases hk : key e = c'
      · rw [show (key e == c') = true from beq_iff_eq.mpr hk]
        have : (key e == c) = false := by
          rw [beq_eq_false_iff_ne]
          intro hc
          exact hnd.1 (hc ▸ hk ▸ hc')
        rw [this]
        rfl
      · rw [show (key e == c') = false from beq_eq_false_iff_ne.mpr hk]
        rw [Bool.false_and]
    rw [hinner]
    have hrec := ih (E.filter (fun e => !(key e == c))) hnd.2 (by
      intro e he
      rw [List.mem_filter] at he
      have hm := hcov e he.1
      rw [List.mem_cons] at hm
      cases hm with
      | inl h1 =>
        exfalso
        have := he.2
        rw [show (key e == c) = true from beq_iff_eq.mpr h1] at this
        exact Bool.noConfusion this
      | inr h1 => exact h1)
    refine (hrec.append_left _).trans ?_
    rw [← List.map_append]
    exact (List.filter_append_perm (fun e => key e == c) E).map g

/-- The read path's join over the pipeline results, fused over the skipped
children. -/
theorem joinAll_filterMap (children : List String)
    (F : String → Option (String × List (String × JVal))) :
    joinAll (children.filterMap F) = children.flatMap (fun c =>
      match F c with
      | some ce => (flattenFields ce.2).map (fun pl => (ce.1 ++ ":" ++ pl.1, pl.2))
      | none => []) := by
  induction children with
  | nil => rfl
  | cons c rest ih =>
    rw [List.filterMap_cons, List.flatMap_cons]
    cases F c with
    | none =>
      rw [ih]
      rfl
    | some ce =>
      rw [joinAll, List.flatMap_cons]
      rw [joinAll] at ih
      rw [ih]

theorem hContrib_eq_filter (name q : String) (E : List (List String × JVal)) :
    hContrib name q E
      = (E.filter (fun e => hkeyOf name e == q)).map (fun e => (fldOf e, encLeaf e.2)) := by
  induction E with
  | nil => rfl
  | cons e E' ih =>
    by_cases hk : hkeyOf name e = q
    · rw [hContrib_cons_pos name q e E' hk, List.filter_cons,
        if_pos (beq_iff_eq.mpr hk), List.map_cons, ih]
    · rw [hContrib_cons_neg name q e E' hk, List.filter_cons,
        if_neg (by rw [beq_eq_false_iff_ne.mpr hk]; exact Bool.noConfusion), ih]

/-- The tag key is the joined full segment path plus the `.meta` suffix. -/
theorem mkOf_eq (name : String) (e : List String × JVal) (h : e.1 ≠ []) :
    mkOf name e = joinSegs (name :: e.1) ++ ".meta" := by
  rw [mkOf]
  have hgl : e.1.getLastD "" = e.1.getLast h := by
    rw [List.getLastD_eq_getLast?, List.getLast?_eq_getLast _ h]
    rfl
  rw [hgl]
  have hsplit := List.dropLast_append_getLast h
  conv_rhs => rw [← hsplit]
  rw [show name :: (e.1.dropLast ++ [e.1.getLast h])
        = (name :: e.1.dropLast) ++ [e.1.getLast h] from rfl]
  rw [joinSegs_snoc, if_neg (by simp)]

/-- Distinct leaves have distinct tag keys. -/
theorem mkOf_inj (name : String) (e e' : List String × JVal)
    (hname : segOk name = true)
    (h1 : e.1 ≠ []) (h2 : e'.1 ≠ [])
    (hok1 : ∀ s ∈ e.1, segOk s = true) (hok2 : ∀ s ∈ e'.1, segOk s = true)
    (hne : e.1 ≠ e'.1) : mkOf name e ≠ mkOf name e' := by
  rw [mkOf_eq name e h1, mkOf_eq name e' h2]
  intro hc
  have hj := str_append_inj_right _ _ _ hc
  have := joinSegs_inj (name :: e.1) (name :: e'.1) (by simp) (by simp)
    (by
      intro s hs
      rw [List.mem_cons] at hs
      cases hs with
      | inl he => exact he ▸ (segOk_parts name hname).2.1
      | inr hm => exact (segOk_parts s (hok1 s hm)).2.1)
    (by
      intro s hs
      rw [List.mem_cons] at hs
      cases hs with
      | inl he => exact he ▸ (segOk_parts name hname).2.1
      | inr hm => exact (segOk_parts s (hok2 s hm)).2.1)
    hj
  injection this with _ hcon
  exact hne hcon

/-- A hash key never collides with any tag key (tag keys contain a dot). -/
theorem hkey_ne_mk_cross (name : String) (e e' : List String × JVal)
    (hname : segOk name = true) (h2 : e'.1 ≠ [])
    (hok1 : ∀ s ∈ e.1, segOk s = true) :
    hkeyOf name e ≠ mkOf name e' := by
  rw [hkeyOf, mkOf_eq name e' h2]
  intro hc
  have hdot : '.' ∈ (joinSegs (name :: e'.1) ++ ".meta").data := by
    rw [String.data_append, List.mem_append]
    right
    simp
  rw [← hc] at hdot
  refine joinSegs_no_dot (name :: e.1.dropLast) ?_ hdot
  intro s hs
  rw [List.mem_cons] at hs
  cases hs with
  | inl he => exact he ▸ (segOk_parts name hname).2.2
  | inr hm =>
    have : s ∈ e.1 := by
      have hsub : List.Sublist e.1.dropLast e.1 := List.dropLast_sublist e.1
      exact hsub.mem hm
    exact (segOk_parts s (hok1 s this)).2.2

theorem name_prefix_hkey (name : String) (e : List String × JVal) :
    name.data.isPrefixOf (hkeyOf name e).data = true := by
  rw [hkeyOf]
  rw [List.isPrefixOf_iff_prefix]
  cases hd : e.1.dropLast with
  | nil => exact ⟨[], List.append_nil _⟩
  | cons s r =>
    rw [joinSegs_cons _ _ (by simp), data_append_colon]
    exact ⟨_, rfl⟩

theorem name_prefix_mk (name : String) (e : List String × JVal) (h : e.1 ≠ []) :
    name.data.isPrefixOf (mkOf name e).data = true := by
  rw [mkOf_eq name e h, List.isPrefixOf_iff_prefix, String.data_append]
  refine List.IsPrefix.trans ?_ (List.prefix_append _ _)
  cases hsegs : e.1 with
  | nil => exact absurd hsegs h
  | cons s r =>
    rw [joinSegs_cons _ _ (by simp), data_append_colon]
    exact ⟨_, rfl⟩

theorem deepEqual_obj_bool (fs : List (String × JVal)) (b : Bool) :
    deepEqual (.vobj fs) (.vbool b) = false := rfl

theorem deleteKeyPath_nil (name : String) :
    deleteKeyPath ⟨false⟩ [] name none = ([], true) := rfl

theorem jsFalsyV_obj (l : List (String × JVal)) : jsFalsyV (.vobj l) = false := rfl

/-- The hash key and field of a leaf join back to its full segment path. -/
theorem hkey_fld_join (name : String) (e : List String × JVal) (h : e.1 ≠ []) :
    hkeyOf name e ++ ":" ++ fldOf e = joinSegs (name :: e.1) := by
  rw [hkeyOf, fldOf]
  have hgl : e.1.getLastD "" = e.1.getLast h := by
    rw [List.getLastD_eq_getLast?, List.getLast?_eq_getLast _ h]
    rfl
  rw [hgl]
  have hsplit := List.dropLast_append_getLast h
  conv_rhs => rw [← hsplit]
  rw [show name :: (e.1.dropLast ++ [e.1.getLast h])
        = (name :: e.1.dropLast) ++ [e.1.getLast h] from rfl]
  rw [joinSegs_snoc, if_neg (by simp)]

/-- Leaves written under one hash key carry distinct field names. -/
theorem hContrib_fields_nodup (name q : String) :
    ∀ (E : List (List String × JVal)),
      segOk name = true →
      E.Pairwise (fun a b => a.1 ≠ b.1) →
      (∀ e ∈ E, e.1 ≠ []) → (∀ e ∈ E, ∀ s ∈ e.1, segOk s = true) →
      ((hContrib name q E).map Prod.fst).Nodup := by
  intro E
  induction E with
  | nil =>
    intro _ _ _ _
    rw [hContrib_nil]
    exact List.nodup_nil
  | cons e E' ih =>
    intro hname hdist hne1 hok
    rw [List.pairwise_cons] at hdist
    by_cases hk : hkeyOf name e = q
    · rw [hContrib_cons_pos name q e E' hk, List.map_cons, List.nodup_cons]
      refine ⟨?_, ih hname hdist.2 (fun e' he' => hne1 e' (List.mem_cons_of_mem _ he'))
        (fun e' he' => hok e' (List.mem_cons_of_mem _ he'))⟩
      intro hmem
      rw [hContrib_eq_filter, List.map_map, List.mem_map] at hmem
      obtain ⟨e', he', hfe⟩ := hmem
      rw [List.mem_filter] at he'
      have hkq' : hkeyOf name e' = q := by
        have := he'.2
        rw [beq_iff_eq] at this
        exact this
      have hnee : e.1 ≠ e'.1 := hdist.1 e' he'.1
      apply hnee
      have hene : e.1 ≠ [] := hne1 e (List.mem_cons_self _ _)
      have hene' : e'.1 ≠ [] := hne1 e' (List.mem_cons_of_mem _ he'.1)
      have hkk : joinSegs (name :: e.1.dropLast) = joinSegs (name :: e'.1.dropLast) := by
        rw [show joinSegs (name :: e.1.dropLast) = hkeyOf name e from rfl,
            show joinSegs (name :: e'.1.dropLast) = hkeyOf name e' from rfl, hk, hkq']
      have hdl : e.1.dropLast = e'.1.dropLast := by
        have hj := joinSegs_inj _ _ (by simp) (by simp)
          (by
            intro s hs
            rw [List.mem_cons] at hs
            cases hs with
            | inl hh => exact hh ▸ (segOk_parts name hname).2.1
            | inr hm =>
              exact (segOk_parts s (hok e (List.mem_cons_self _ _) s
                ((List.dropLast_sublist e.1).mem hm))).2.1)
          (by
            intro s hs
            rw [List.mem_cons] at hs
            cases hs with
            | inl hh => exact hh ▸ (segOk_parts name hname).2.1
            | inr hm =>
              exact (segOk_parts s (hok e' (List.mem_cons_of_mem _ he'.1) s
                ((List.dropLast_sublist e'.1).mem hm))).2.1)
          hkk
        exact (List.cons.injEq _ _ _ _ ▸ hj).2
      have hfl : e.1.getLast hene = e'.1.getLast hene' := by
        have h1 : e.1.getLastD "" = e.1.getLast hene := by
          rw [List.getLastD_eq_getLast?, List.getLast?_eq_getLast _ hene]
          rfl
        have h2 : e'.1.getLastD "" = e'.1.getLast hene' := by
          rw [List.getLastD_eq_getLast?, List.getLast?_eq_getLast _ hene']
          rfl
        have h3 : fldOf e' = fldOf e := hfe
        rw [fldOf, fldOf, h1, h2] at h3
        exact h3.symm
      rw [← List.dropLast_append_getLast hene, ← List.dropLast_append_getLast hene',
        hdl, hfl]
    · rw [hContrib_cons_neg name q e E' hk]
      exact ih hname hdist.2 (fun e' he' => hne1 e' (List.mem_cons_of_mem _ he'))
        (fun e' he' => hok e' (List.mem_cons_of_mem _ he'))

/-- The read path resolves to the binding of the name inside the rebuilt
working object, given the pipeline's joined mapping and a nonempty
non-falsy object binding. -/
theorem get_of_lookup (st : Store) (name : String) (J : List (String × JVal))
    (inner : List (String × JVal))
    (hlen : 0 < (scanKeys st name).length)
    (hJ : joinAll ((sortStrings (scanKeys st name)).filterMap (fun c =>
      match hgetallPipe st c with
      | .ok d => some (c, d.map (fun kv =>
          (kv.1, decodeField st (sortStrings (scanKeys st name)) c kv.1 kv.2)))
      | .error _ => none)) = J)
    (hWne : ∃ a l, foldIns [] (J.map (fun pl => (splitColon pl.1, pl.2))) = a :: l)
    (hLook : lookupF (foldIns [] (J.map (fun pl => (splitColon pl.1, pl.2)))) name
      = some (.vobj inner)) :
    get st name = .vobj inner := by
  obtain ⟨a, l, hW⟩ := hWne
  rw [get]
  dsimp only
  rw [if_pos hlen, hJ, unflattenV_eq_foldIns, hW]
  dsimp only
  rw [← hW, hLook]
  dsimp only
  rw [jsFalsyV_obj]
  rw [if_neg Bool.false_ne_true]

/-- Reading a name after the save fold of a well-formed nonempty object
yields the unflatten fold of some permutation of that object's leaves. -/
theorem get_after_save (name : String) (fs : List (String × JVal))
    (hname : nameOk name = true) (hwf : wfFlds fs = true) (hfs : fs ≠ []) :
    ∃ M : List (List String × JVal), M.Perm (segLeaves fs) ∧
      get (saveFold name [] (segLeaves fs)) name = .vobj (foldIns [] M) := by
  have hsegname : segOk name = true := by
    rw [nameOk, Bool.and_eq_true] at hname
    exact hname.1
  have hEwf := segLeaves_wf fs hwf
  have hEne1 : ∀ e ∈ segLeaves fs, e.1 ≠ [] := by
    intro e he
    obtain ⟨hd, tl, he1, _⟩ := segLeaves_head_mem fs e he
    rw [he1]
    simp
  have hEok : ∀ e ∈ segLeaves fs, ∀ s ∈ e.1, segOk s = true :=
    fun e he => (hEwf e he).1
  have hdist := segLeaves_pairwise fs hwf
  have hEne : segLeaves fs ≠ [] := segLeaves_ne_nil fs hfs
  have hcf : ∀ e ∈ segLeaves fs, ∀ s ∈ name :: e.1, ':' ∉ s.data := by
    intro e he s hs
    rw [List.mem_cons] at hs
    cases hs with
    | inl hh => exact hh ▸ (segOk_parts name hsegname).2.1
    | inr hm => exact (segOk_parts s (hEok e he s hm)).2.1
  have hHash : ∀ e₀ ∈ segLeaves fs,
      sGet (saveFold name [] (segLeaves fs)) (hkeyOf name e₀)
        = some (.hash (hContrib name (hkeyOf name e₀) (segLeaves fs))) := by
    intro e₀ he₀
    apply sGet_saveFold_hash_new
    · intro e he hc
      exact hkey_ne_mk_cross name e₀ e hsegname (hEne1 e he) (hEok e₀ he₀) hc.symm
    · exact hContrib_fields_nodup name _ (segLeaves fs) hsegname hdist hEne1 hEok
    · rfl
    · intro hc
      have hm : (fldOf e₀, encLeaf e₀.2)
          ∈ hContrib name (hkeyOf name e₀) (segLeaves fs) :=
        List.mem_filterMap.mpr ⟨e₀, he₀, by rw [if_pos rfl]⟩
      rw [hc] at hm
      cases hm
  have hMeta : ∀ e₀ ∈ segLeaves fs,
      sGet (saveFold name [] (segLeaves fs)) (mkOf name e₀)
        = if taggedLeaf e₀.2 then some (.str (tagMeta e₀.2)) else none := by
    intro e₀ he₀
    obtain ⟨E₁, E₂, hsplitE⟩ := List.append_of_mem he₀
    have hd2 : ∀ e' ∈ E₂, e₀.1 ≠ e'.1 := by
      have hp := hdist
      rw [hsplitE, List.pairwise_append] at hp
      have hc := hp.2.1
      rw [List.pairwise_cons] at hc
      exact hc.1
    rw [show saveFold name [] (segLeaves fs)
          = saveFold name [] (E₁ ++ e₀ :: E₂) from by rw [← hsplitE]]
    apply sGet_saveFold_meta name _ E₁ E₂ e₀ [] rfl
    · intro e' he'
      have hmem' : e' ∈ segLeaves fs := by
        rw [hsplitE]
        exact List.mem_append_of_mem_right _ (List.mem_cons_of_mem _ he')
      exact mkOf_inj name e' e₀ hsegname (hEne1 e' hmem') (hEne1 e₀ he₀)
        (hEok e' hmem') (hEok e₀ he₀) (fun hx => hd2 e' he' hx.symm)
    · intro e' he'
      have hmem' : e' ∈ segLeaves fs := by
        rw [hsplitE]
        exact he'
      exact hkey_ne_mk_cross name e' e₀ hsegname (hEne1 e₀ he₀) (hEok e' hmem')
  have hKeys : ∀ q ∈ (saveFold name [] (segLeaves fs)).map Prod.fst,
      (∃ e ∈ segLeaves fs, q = hkeyOf name e)
        ∨ (∃ e ∈ segLeaves fs, q = mkOf name e) := by
    intro q hq
    cases saveFold_keys name (segLeaves fs) [] q hq with
    | inl h0 => cases h0
    | inr h0 => exact h0
  have hKeysND : ((saveFold name [] (segLeaves fs)).map Prod.fst).Nodup :=
    saveFold_keys_nodup name (segLeaves fs) [] List.nodup_nil
  have hScan : scanKeys (saveFold name [] (segLeaves fs)) name
      = (saveFold name [] (segLeaves fs)).map Prod.fst := by
    rw [scanKeys]
    apply List.filter_eq_self.mpr
    intro q hq
    cases hKeys q hq with
    | inl h0 =>
      obtain ⟨e, he, rfl⟩ := h0
      exact name_prefix_hkey name e
    | inr h0 =>
      obtain ⟨e, he, rfl⟩ := h0
      exact name_prefix_mk name e (hEne1 e he)
  have hCperm : (sortStrings (scanKeys (saveFold name [] (segLeaves fs)) name)).Perm
      ((saveFold name [] (segLeaves fs)).map Prod.fst) := by
    rw [hScan]
    exact sortStrings_perm _
  have hCnd : (sortStrings (scanKeys (saveFold name [] (segLeaves fs)) name)).Nodup :=
    (hCperm.nodup_iff).mpr hKeysND
  have hCcov : ∀ e ∈ segLeaves fs,
      hkeyOf name e ∈ sortStrings (scanKeys (saveFold name [] (segLeaves fs)) name) := by
    intro e he
    rw [hCperm.mem_iff]
    exact mem_keys_of_sGet_some _ _ _ (hHash e he)
  have hContains : ∀ e ∈ segLeaves fs,
      (sortStrings (scanKeys (saveFold name [] (segLeaves fs)) name)).contains
        (mkOf name e) = taggedLeaf e.2 := by
    intro e he
    by_cases ht : taggedLeaf e.2 = true
    · rw [ht]
      have hm : mkOf name e
          ∈ sortStrings (scanKeys (saveFold name [] (segLeaves fs)) name) := by
        rw [hCperm.mem_iff]
        apply mem_keys_of_sGet_some _ _ (.str (tagMeta e.2))
        rw [hMeta e he, if_pos ht]
      exact List.elem_eq_true_of_mem hm
    · have htf : taggedLeaf e.2 = false := Bool.eq_false_iff.mpr ht
      rw [htf]
      have hnm : mkOf name e
          ∉ sortStrings (scanKeys (saveFold name [] (segLeaves fs)) name) := by
        rw [hCperm.mem_iff]
        intro hm
        have hsome := sGet_isSome_of_mem_keys _ _ hm
        rw [hMeta e he, if_neg ht] at hsome
        exact Bool.noConfusion hsome
      rw [Bool.eq_false_iff]
      intro hc
      exact hnm (List.mem_of_elem_eq_true hc)
  -- one leaf exists, so the scan is nonempty
  obtain ⟨e₀, he₀⟩ := List.exists_mem_of_ne_nil _ hEne
  have hlen : 0 < (scanKeys (saveFold name [] (segLeaves fs)) name).length := by
    rw [hScan]
    exact List.length_pos.mpr
      (List.ne_nil_of_mem (mem_keys_of_sGet_some _ _ _ (hHash e₀ he₀)))
  -- the joined mapping, grouped by hash key
  have hGroups : ∀ c ∈ sortStrings (scanKeys (saveFold name [] (segLeaves fs)) name),
      (match ((match hgetallPipe (saveFold name [] (segLeaves fs)) c with
        | .ok d => some (c, d.map (fun (kv : String × RVal) =>
            (kv.1, decodeField (saveFold name [] (segLeaves fs))
              (sortStrings (scanKeys (saveFold name [] (segLeaves fs)) name))
              c kv.1 kv.2)))
        | .error _ => none) : Option (String × List (String × JVal))) with
        | some ce => (flattenFields ce.2).map
            (fun (pl : String × JVal) => (ce.1 ++ ":" ++ pl.1, pl.2))
        | none => ([] : List (String × JVal)))
      = ((segLeaves fs).filter (fun e => hkeyOf name e == c)).map
          (fun e => (joinSegs (name :: e.1), e.2)) := by
    intro c hc
    have hcK : c ∈ (saveFold name [] (segLeaves fs)).map Prod.fst := hCperm.mem_iff.mp hc
    cases hKeys c hcK with
    | inl h0 =>
      obtain ⟨ea, hea, rfl⟩ := h0
      rw [show hgetallPipe (saveFold name [] (segLeaves fs)) (hkeyOf name ea)
            = .ok (hContrib name (hkeyOf name ea) (segLeaves fs)) from by
        rw [hgetallPipe, hHash ea hea]]
      dsimp only
      have hdec : (hContrib name (hkeyOf name ea) (segLeaves fs)).map
          (fun kv => (kv.1, decodeField (saveFold name [] (segLeaves fs))
            (sortStrings (scanKeys (saveFold name [] (segLeaves fs)) name))
            (hkeyOf name ea) kv.1 kv.2))
        = ((segLeaves fs).filter (fun e => hkeyOf name e == hkeyOf name ea)).map
            (fun e => (fldOf e, e.2)) := by
        rw [hContrib_eq_filter, List.map_map]
        apply List.map_congr_left
        intro e he
        rw [List.mem_filter] at he
        have hee : e ∈ segLeaves fs := he.1
        have hkq : hkeyOf name e = hkeyOf name ea := beq_iff_eq.mp he.2
        dsimp only [Function.comp]
        rw [← hkq]
        rw [decode_encode (saveFold name [] (segLeaves fs))
          (sortStrings (scanKeys (saveFold name [] (segLeaves fs)) name))
          (hkeyOf name e) (fldOf e) e.2 (hEwf e hee).2.2 (hEwf e hee).2.1
          (by
            rw [show hkeyOf name e ++ ":" ++ fldOf e ++ ".meta" = mkOf name e from rfl]
            exact hContains e hee)
          (by
            intro htag
            rw [show hkeyOf name e ++ ":" ++ fldOf e ++ ".meta" = mkOf name e from rfl]
            apply metaTypeAt_tagMeta
            rw [hMeta e hee, if_pos htag])]
      rw [hdec]
      rw [flattenFields_all_leaf _ (by
        intro kv hkv
        rw [List.mem_map] at hkv
        obtain ⟨e, he, hkv'⟩ := hkv
        rw [List.mem_filter] at he
        rw [← hkv']
        exact (hEwf e he.1).2.1)]
      rw [List.map_map]
      apply List.map_congr_left
      intro e he
      rw [List.mem_filter] at he
      have hkq : hkeyOf name e = hkeyOf name ea := beq_iff_eq.mp he.2
      dsimp only [Function.comp]
      rw [← hkq, hkey_fld_join name e (hEne1 e he.1)]
    | inr h0 =>
      obtain ⟨ea, hea, rfl⟩ := h0
      have hsome := sGet_isSome_of_mem_keys _ _ hcK
      by_cases ht : taggedLeaf ea.2 = true
      · rw [show hgetallPipe (saveFold name [] (segLeaves fs)) (mkOf name ea)
              = .error () from by
          rw [hgetallPipe, hMeta ea hea, if_pos ht]]
        dsimp only
        rw [show (segLeaves fs).filter (fun e => hkeyOf name e == mkOf name ea) = []
              from ?_, List.map_nil]
        rw [List.filter_eq_nil_iff]
        intro e he hc
        rw [beq_eq_false_iff_ne.mpr
          (hkey_ne_mk_cross name e ea hsegname (hEne1 ea hea) (hEok e he))] at hc
        exact Bool.noConfusion hc
      · exfalso
        rw [hMeta ea hea, if_neg ht] at hsome
        exact Bool.noConfusion hsome
  -- the split mapping per child
  have hSplit : ∀ c ∈ sortStrings (scanKeys (saveFold name [] (segLeaves fs)) name),
      (((segLeaves fs).filter (fun e => hkeyOf name e == c)).map
          (fun e => (joinSegs (name :: e.1), e.2))).map
        (fun pl => (splitColon pl.1, pl.2))
      = ((segLeaves fs).filter (fun e => hkeyOf name e == c)).map
          (fun e => (name :: e.1, e.2)) := by
    intro c _
    rw [List.map_map]
    apply List.map_congr_left
    intro e he
    rw [List.mem_filter] at he
    dsimp only [Function.comp]
    rw [splitColon_joinSegs (name :: e.1) (by simp) (hcf e he.1)]
  -- the full split mapping permutes the prefixed leaves
  have hPerm : ((sortStrings (scanKeys (saveFold name [] (segLeaves fs)) name)).flatMap
      (fun c => ((segLeaves fs).filter (fun e => hkeyOf name e == c)).map
        (fun e => (name :: e.1, e.2)))).Perm
      ((segLeaves fs).map (fun e => (name :: e.1, e.2))) :=
    flatMap_filter_perm (fun e => hkeyOf name e) _ _ (segLeaves fs) hCnd hCcov
  -- the group of the name inside the rebuilt mapping
  have hgrpPerm : (grp name ((sortStrings (scanKeys (saveFold name [] (segLeaves fs)) name)).flatMap
      (fun c => ((segLeaves fs).filter (fun e => hkeyOf name e == c)).map
        (fun e => (name :: e.1, e.2))))).Perm (segLeaves fs) := by
    have h1 : (grp name ((sortStrings (scanKeys (saveFold name [] (segLeaves fs)) name)).flatMap
        (fun c => ((segLeaves fs).filter (fun e => hkeyOf name e == c)).map
          (fun e => (name :: e.1, e.2))))).Perm
        (grp name ((segLeaves fs).map (fun e => (name :: e.1, e.2)))) :=
      hPerm.filterMap _
    rw [grp_map_cons_self] at h1
    exact h1
  have hMne : ∀ e ∈ (sortStrings (scanKeys (saveFold name [] (segLeaves fs)) name)).flatMap
      (fun c => ((segLeaves fs).filter (fun e => hkeyOf name e == c)).map
        (fun e => (name :: e.1, e.2))), e.1 ≠ [] := by
    intro e he
    have := hPerm.mem_iff.mp he
    rw [List.mem_map] at this
    obtain ⟨e', _, he'⟩ := this
    rw [← he']
    simp
  have hgne : ∀ e ∈ grp name ((sortStrings (scanKeys (saveFold name [] (segLeaves fs)) name)).flatMap
      (fun c => ((segLeaves fs).filter (fun e => hkeyOf name e == c)).map
        (fun e => (name :: e.1, e.2)))), e.1 ≠ [] := by
    intro e he
    exact hEne1 e (hgrpPerm.mem_iff.mp he)
  have hgnn : grp name ((sortStrings (scanKeys (saveFold name [] (segLeaves fs)) name)).flatMap
      (fun c => ((segLeaves fs).filter (fun e => hkeyOf name e == c)).map
        (fun e => (name :: e.1, e.2)))) ≠ [] := by
    intro hc
    have hlen2 := hgrpPerm.length_eq
    rw [hc] at hlen2
    exact hEne (List.length_eq_zero.mp hlen2.symm)
  have hLook : lookupF (foldIns []
      ((sortStrings (scanKeys (saveFold name [] (segLeaves fs)) name)).flatMap
        (fun c => ((segLeaves fs).filter (fun e => hkeyOf name e == c)).map
          (fun e => (name :: e.1, e.2))))) name
      = some (.vobj (foldIns [] (grp name
        ((sortStrings (scanKeys (saveFold name [] (segLeaves fs)) name)).flatMap
          (fun c => ((segLeaves fs).filter (fun e => hkeyOf name e == c)).map
            (fun e => (name :: e.1, e.2))))))) := by
    rw [lookupF_foldIns name _ [] hMne]
    rw [show lookupF ([] : List (String × JVal)) name = none from rfl]
    exact subFold_none _ hgne hgnn
  have hWne : foldIns []
      ((sortStrings (scanKeys (saveFold name [] (segLeaves fs)) name)).flatMap
        (fun c => ((segLeaves fs).filter (fun e => hkeyOf name e == c)).map
          (fun e => (name :: e.1, e.2)))) ≠ [] := by
    intro hc
    rw [hc] at hLook
    exact Option.noConfusion hLook
  refine ⟨grp name ((sortStrings (scanKeys (saveFold name [] (segLeaves fs)) name)).flatMap
    (fun c => ((segLeaves fs).filter (fun e => hkeyOf name e == c)).map
      (fun e => (name :: e.1, e.2)))), hgrpPerm, ?_⟩
  apply get_of_lookup _ _ ((sortStrings (scanKeys (saveFold name [] (segLeaves fs)) name)).flatMap
    (fun c => ((segLeaves fs).filter (fun e => hkeyOf name e == c)).map
      (fun e => (joinSegs (name :: e.1), e.2)))) _ hlen
  · rw [joinAll_filterMap]
    apply flatMap_congr_mem
    intro c hc
    exact hGroups c hc
  · rw [List.map_flatMap, flatMap_congr_mem _ _ _ hSplit]
    cases hcw : foldIns []
        ((sortStrings (scanKeys (saveFold name [] (segLeaves fs)) name)).flatMap
          (fun c => ((segLeaves fs).filter (fun e => hkeyOf name e == c)).map
            (fun e => (name :: e.1, e.2)))) with
    | nil => exact absurd hcw hWne
    | cons a l => exact ⟨a, l, rfl⟩
  · rw [List.map_flatMap, flatMap_congr_mem _ _ _ hSplit]
    exact hLook

/-- The final path segment a flattened key splits off is never the empty
string when the key itself is nonempty, so the loop's `item` is truthy. -/
theorem extract_item_truthy (s : String) (h : s.data ≠ []) :
    jsTruthy (extractFinalSegment (some s)).2 = true := by
  rw [extractFinalSegment]
  split
  · rename_i beforeRev heq
    by_cases hfr : (s.data.reverse.takeWhile (fun c => c ≠ ':')).isEmpty = true
    · rw [if_pos hfr]
      exact jsTruthy_some s h
    · rw [if_neg hfr]
      refine jsTruthy_some _ ?_
      rw [data_mk]
      intro hc
      rw [List.reverse_eq_nil_iff] at hc
      rw [hc] at hfr
      exact hfr rfl
  · exact jsTruthy_some s h

/-- `_saveItem` resolves for every value when the hash-field item is
truthy — the rejected single-argument hset needs a falsy item. -/
theorem saveItem_ok_item (st : Store) (a : SaveArgs) (h : jsTruthy a.item = true) :
    ∃ st2, saveItem st a = .ok st2 := by
  obtain ⟨key, item, value, old⟩ := a
  dsimp only at h
  cases value with
  | varr xs =>
    exact ⟨_, by rw [saveItem]; dsimp only; exact if_pos h⟩
  | vobj fs =>
    exact ⟨_, by rw [saveItem]; dsimp only; exact if_pos h⟩
  | vnull => exact ⟨_, rfl⟩
  | vundef => exact ⟨_, rfl⟩
  | vbool b => exact ⟨_, rfl⟩
  | vnum n => exact ⟨_, rfl⟩
  | vstr s => exact ⟨_, rfl⟩
  | vdate ms => exact ⟨_, rfl⟩
  | vmap es => exact ⟨_, rfl⟩
  | vset xs => exact ⟨_, rfl⟩
  | vfunc src => exact ⟨_, rfl⟩

/-- `_saveItem` resolves for every value that is neither an array nor a
plain object, whatever the item. -/
theorem saveItem_ok_scalar (st : Store) (a : SaveArgs)
    (h1 : ∀ xs, a.value ≠ .varr xs) (h2 : ∀ fs, a.value ≠ .vobj fs) :
    ∃ st2, saveItem st a = .ok st2 := by
  obtain ⟨key, item, value, old⟩ := a
  cases value with
  | varr xs => exact absurd rfl (h1 xs)
  | vobj fs => exact absurd rfl (h2 fs)
  | vnull => exact ⟨_, rfl⟩
  | vundef => exact ⟨_, rfl⟩
  | vbool b => exact ⟨_, rfl⟩
  | vnum n => exact ⟨_, rfl⟩
  | vstr s => exact ⟨_, rfl⟩
  | vdate ms => exact ⟨_, rfl⟩
  | vmap es => exact ⟨_, rfl⟩
  | vset xs => exact ⟨_, rfl⟩
  | vfunc src => exact ⟨_, rfl⟩

/-- The leaf-save loop resolves whenever every flattened key is nonempty
(each loop step then addresses a truthy hash-field item). -/
theorem saveFlat_ok_of_keys (name : String) (path : Option String) (ov : JVal) :
    ∀ (wrk : List (String × JVal)) (st : Store),
      (∀ kl ∈ wrk, kl.1.data ≠ []) →
      ∃ st2, saveFlat name path ov st wrk = .ok st2 := by
  intro wrk
  induction wrk with
  | nil => exact fun st _ => ⟨st, rfl⟩
  | cons kl rest ih =>
    intro st hk
    obtain ⟨st1, h1⟩ := saveItem_ok_item st
      { key := name ++ (if jsTruthy path then ":" ++ jsRender path else "")
               ++ (if jsTruthy (extractFinalSegment (some kl.1)).1
                   then ":" ++ jsRender (extractFinalSegment (some kl.1)).1 else ""),
        item := (extractFinalSegment (some kl.1)).2, value := kl.2, oldValue := ov }
      (extract_item_truthy kl.1 (hk kl (List.mem_cons_self _ _)))
    obtain ⟨st2, h2⟩ := ih st1 (fun kl2 hkl2 => hk kl2 (List.mem_cons_of_mem _ hkl2))
    refine ⟨st2, ?_⟩
    rw [saveFlat]
    rw [h1]
    exact h2

/-- `update`'s single-leaf branch resolves changed whenever its
`_saveItem` call resolves. -/
theorem update_scalar_ok (cl : Client) (st : Store) (name : String)
    (path : Option String) (v ov : JVal) (h : deepEqual v ov = false)
    (hv : match v with | .vundef => False | .vobj _ => False | _ => True)
    (hok : ∃ st2, saveItem st
      { key := if jsTruthy (extractFinalSegment (Option.map replaceDots path)).1
               then name ++ ":" ++ jsRender (extractFinalSegment (Option.map replaceDots path)).1
               else name,
        item := if jsTruthy (extractFinalSegment (Option.map replaceDots path)).2
                then (extractFinalSegment (Option.map replaceDots path)).2
                else Option.map replaceDots path,
        value := v, oldValue := ov } = .ok st2) :
    ∃ st2, update cl st name path v ov = .ok (st2, true) := by
  obtain ⟨st2, h2⟩ := hok
  refine ⟨st2, ?_⟩
  rw [update, if_neg (by rw [h]; exact Bool.false_ne_true)]
  dsimp only
  cases v with
  | vundef => exact False.elim hv
  | vobj fields => exact False.elim hv
  | vnull => dsimp only; rw [h2]
  | vbool b => dsimp only; rw [h2]
  | vnum n => dsimp only; rw [h2]
  | vstr s => dsimp only; rw [h2]
  | vdate ms => dsimp only; rw [h2]
  | varr xs => dsimp only; rw [h2]
  | vmap es => dsimp only; rw [h2]
  | vset xs => dsimp only; rw [h2]
  | vfunc src => dsimp only; rw [h2]

/-- Any value that fails the no-op comparison and does not hit the
rejected single-argument hset (no root array; every flattened object key
nonempty) makes `update` take a write or delete branch, each of which
resolves with the changed flag true. -/
theorem update_ok_of_ne (cl : Client) (st : Store) (name : String)
    (path : Option String) (v ov : JVal) (h : deepEqual v ov = false)
    (hva : ∀ xs, v ≠ .varr xs)
    (hvk : ∀ fs, v = .vobj fs → ∀ kl ∈ flattenFields fs, kl.1.data ≠ []) :
    ∃ st2, update cl st name path v ov = .ok (st2, true) := by
  cases v with
  | varr xs => exact absurd rfl (hva xs)
  | vundef =>
    refine ⟨(deleteKeyPath cl st name (Option.map replaceDots path)).1, ?_⟩
    rw [update, if_neg (by rw [h]; exact Bool.false_ne_true)]
  | vobj fields =>
    by_cases hf : fields.isEmpty = true
    · refine ⟨(deleteKeyPath cl st name (Option.map replaceDots path)).1, ?_⟩
      rw [update, if_neg (by rw [h]; exact Bool.false_ne_true)]
      dsimp only
      rw [if_pos hf]
    · obtain ⟨st2, h2⟩ := saveFlat_ok_of_keys name (Option.map replaceDots path) ov
        (flattenFields fields) (deleteKeyPath cl st name (Option.map replaceDots path)).1
        (hvk fields rfl)
      refine ⟨st2, ?_⟩
      rw [update, if_neg (by rw [h]; exact Bool.false_ne_true)]
      dsimp only
      rw [if_neg hf, h2]
  | vnull =>
    exact update_scalar_ok cl st name path _ ov h trivial
      (saveItem_ok_scalar st _ (fun xs hc => JVal.noConfusion hc)
        (fun fs hc => JVal.noConfusion hc))
  | vbool b =>
    exact update_scalar_ok cl st name path _ ov h trivial
      (saveItem_ok_scalar st _ (fun xs hc => JVal.noConfusion hc)
        (fun fs hc => JVal.noConfusion hc))
  | vnum n =>
    exact update_scalar_ok cl st name path _ ov h trivial
      (saveItem_ok_scalar st _ (fun xs hc => JVal.noConfusion hc)
        (fun fs hc => JVal.noConfusion hc))
  | vstr s =>
    exact update_scalar_ok cl st name path _ ov h trivial
      (saveItem_ok_scalar st _ (fun xs hc => JVal.noConfusion hc)
        (fun fs hc => JVal.noConfusion hc))
  | vdate ms =>
    exact update_scalar_ok cl st name path _ ov h trivial
      (saveItem_ok_scalar st _ (fun xs hc => JVal.noConfusion hc)
        (fun fs hc => JVal.noConfusion hc))
  | vmap es =>
    exact update_scalar_ok cl st name path _ ov h trivial
      (saveItem_ok_scalar st _ (fun xs hc => JVal.noConfusion hc)
        (fun fs hc => JVal.noConfusion hc))
  | vset xs =>
    exact update_scalar_ok cl st name path _ ov h trivial
      (saveItem_ok_scalar st _ (fun xs hc => JVal.noConfusion hc)
        (fun fs hc => JVal.noConfusion hc))
  | vfunc src =>
    exact update_scalar_ok cl st name path _ ov h trivial
      (saveItem_ok_scalar st _ (fun xs hc => JVal.noConfusion hc)
        (fun fs hc => JVal.noConfusion hc))

/-- C10: the spec says the type classifier is total — for every input,
including every string, it returns a tag without throwing. In src/utls.mjs
the classifier evaluates `this.isJSON(value)` for string inputs, and at the
top level of an ES module `this` is undefined, so every string input throws
a TypeError instead of returning a tag. The repository's own tests store
plain strings successfully (through the CommonJS twin of the module), so
the classifier is intended to accept them; the embedded ES-module-semantics
classifier errors on the test suite's own string "aString". -/
theorem getValueTypeMjs_throws_on_string :
    getValueTypeMjs (.vstr "aString") = .error "TypeError: this is undefined" := rfl

/-- C9 counterexample: `put` passes the boolean false as its omitted-
oldValue sentinel ("always save"), so putting the value false deep-equals
the sentinel and short-circuits as unchanged: no write happens and the
store is untouched, refuting "for every value (including the boolean
false) ... performs the write". -/
theorem put_false_short_circuits :
    put ⟨false⟩ [] "k" (.vbool false) = .ok ([], false) := rfl

/-- C9 amended: with oldValue omitted, `put` compares the value against the
boolean false and `update` against undefined; `put(name, false)` and an
oldValue-less `update` of undefined short-circuit as unchanged. Every other
value takes a write or delete branch: the call resolves with the changed
flag for values that are not root-level arrays (and, for plain objects,
whose flattened keys are nonempty), while putting an array at the root
issues the single-argument hset that the client rejects, so the call errors
instead of writing. -/
theorem default_oldValue_writes (cl : Client) (st : Store) (name : String)
    (path : Option String) (v w : JVal) (xs : List JVal)
    (hv : deepEqual v (.vbool false) = false) (hva : ∀ ys, v ≠ .varr ys)
    (hvk : ∀ fs, v = .vobj fs → ∀ kl ∈ flattenFields fs, kl.1.data ≠ [])
    (hw : deepEqual w .vundef = false) (hwa : ∀ ys, w ≠ .varr ys)
    (hwk : ∀ fs, w = .vobj fs → ∀ kl ∈ flattenFields fs, kl.1.data ≠ []) :
    (∃ st2, put cl st name v = .ok (st2, true)) ∧
    (∃ st2, update cl st name path w .vundef = .ok (st2, true)) ∧
    put cl st name (.varr xs) = .error () :=
  ⟨update_ok_of_ne cl st name none v (.vbool false) hv hva hvk,
   update_ok_of_ne cl st name path w .vundef hw hwa hwk,
   rfl⟩

/-- Witness for the amended C9 at concrete inputs: putting the number 7 and
updating a string with oldValue omitted both resolve with the write, while
putting a one-element array at the root rejects. -/
theorem default_oldValue_writes_witness :
    (∃ st2, put ⟨false⟩ [] "w9" (.vnum 7) = .ok (st2, true)) ∧
    (∃ st2, update ⟨false⟩ [] "w9" none (.vstr "x") .vundef = .ok (st2, true)) ∧
    put ⟨false⟩ [] "w9" (.varr [.vnum 1]) = .error () :=
  default_oldValue_writes ⟨false⟩ [] "w9" none (.vnum 7) (.vstr "x") [.vnum 1] rfl
    (fun ys hc => JVal.noConfusion hc) (fun fs hc => JVal.noConfusion hc) rfl
    (fun ys hc => JVal.noConfusion hc) (fun fs hc => JVal.noConfusion hc)

/-- C8: an update whose value deep-equals its oldValue is the no-op
short-circuit — it returns the unchanged flag false and the store is
exactly the input store (zero store operations). -/
theorem update_unchanged_noop (cl : Client) (st : Store) (name : String)
    (path : Option String) (v ov : JVal) (h : deepEqual v ov = true) :
    update cl st name path v ov = .ok (st, false) := by
  unfold update
  rw [h]
  simp

/-- Witness for C8 at a concrete input: updating with a value deep-equal to
the old value leaves the store untouched and reports unchanged. -/
theorem update_unchanged_noop_witness :
    update ⟨false⟩ [("w8", .str (.raw "x"))] "w8" none
      (.vobj [("a", .vnum 1)]) (.vobj [("a", .vnum 1)])
      = .ok ([("w8", .str (.raw "x"))], false) :=
  update_unchanged_noop ⟨false⟩ [("w8", .str (.raw "x"))] "w8" none _ _ rfl

/-- C4 amended: writing the empty plain object at a name runs exactly the
same code path as explicitly deleting the name (an update whose value is
undefined): both short-circuit nothing, erase with the same arguments as
the terminal step and return changed, so the post-states are identical for
every starting store. The erase itself probes `name:false` and removes
none of the object's artifacts — see the counterexample. -/
theorem put_empty_eq_delete (cl : Client) (st : Store) (name : String) :
    put cl st name (.vobj []) = update cl st name none .vundef (.vbool false) := rfl

/-- C4 counterexample: the claim also says the empty-object write removes
all keys, hash fields and tag records under the name. It removes none of
them: after putting an object and then putting the empty object at "obj",
the hash field and the tag record are still present and `get` still
returns the old object. -/
theorem put_empty_leaves_artifacts :
    ∃ st1 st2,
      put ⟨false⟩ [] "obj" (.vobj [("a", .vnum 1)]) = .ok (st1, true) ∧
      put ⟨false⟩ st1 "obj" (.vobj []) = .ok (st2, true) ∧
      sGet st2 "obj" = some (.hash [("a", .num 1)]) ∧
      sGet st2 "obj:a.meta" = some (.str (.jsonv (.vobj [("type", .vstr "number")]))) ∧
      get st2 "obj" = .vobj [("a", .vnum 1)] :=
  ⟨_, _, rfl, rfl, rfl, rfl, rfl⟩

/-- C3: the spec says a replace of \x7ba,b,c\x7d by \x7ba\x7d at the same
name leaves only `a` readable because the erase removes every artifact
rooted at the path first. The code's root-level replace erases with the
boolean path false: it probes the key "obj:false" (template interpolation
of the falsy path), deletes the hash field literally named "false", and
scans "obj:false*" — none of which touches the old artifacts, so the
stale fields b and c survive in the root hash and `get` returns all three
keys. -/
theorem root_replace_keeps_stale_fields :
    ∃ st1 st2,
      put ⟨false⟩ [] "obj" (.vobj [("a", .vnum 1), ("b", .vnum 2), ("c", .vnum 3)])
        = .ok (st1, true) ∧
      put ⟨false⟩ st1 "obj" (.vobj [("a", .vnum 1)]) = .ok (st2, true) ∧
      get st2 "obj" = .vobj [("a", .vnum 1), ("b", .vnum 2), ("c", .vnum 3)] :=
  ⟨_, _, rfl, rfl, rfl⟩

/-- C7: a store-operation failure inside the subtree erase is not surfaced
to the caller. With a client whose TYPE probe rejects, `_deleteKeyPath`'s
catch handler resolves false (its rethrow escapes only the promise
executor, never the caller); `update` ignores that boolean and proceeds to
the leaf saves, resolving true — a success — while the erase never ran:
the stale sibling field b survives under the replaced path. -/
theorem update_succeeds_despite_erase_failure :
    ∃ st2,
      update ⟨true⟩ [("obj:x", .hash [("a", .num 1), ("b", .num 2)])] "obj" (some "x")
        (.vobj [("a", .vnum 9)]) (.vbool false) = .ok (st2, true) ∧
      sGet st2 "obj:x" = some (.hash [("a", .num 9), ("b", .num 2)]) :=
  ⟨_, rfl, rfl⟩

/-- Once processQueue has stopped (no drain active) with the lock still
held, every later step leaves the applied list, the lock and the active
count unchanged in those respects: enqueues append but their processQueue
call returns at the lock check, and no drain constructor applies. -/
theorem stuck_applied_frozen {s t : QState} (h : Relation.ReflTransGen QStep s t)
    (hl : s.lock = true) (ha : s.active = 0) :
    t.applied = s.applied ∧ t.lock = true ∧ t.active = 0 := by
  induction h with
  | refl => exact ⟨rfl, hl, ha⟩
  | tail hst hstep ih =>
    obtain ⟨hap, hlock, hact⟩ := ih
    cases hstep with
    | enqLocked r q a ap sub => simp_all
    | enqUnlocked r q a ap sub => simp_all
    | drain hd =>
      cases hd with
      | applyOk r q a ap sub hr => simp_all
      | applyFail r q a ap sub hr => simp_all
      | finish a ap sub => simp_all

/-- C6: the drain loop stops when an update rejects, and the entries behind
the failing request remain queued, in order, nothing dropped or reordered.
But the claim's "so that a subsequent enqueue trigger applies them" fails
on the code: the catch in processQueue never resets this.queueLock, so a
later queueUpdate appends and returns at the lock check, and no further
request is ever applied. Request 1 fails during its drain; requests 2 and
3 remain queued; the applied list is empty and stays empty under every
continuation. -/
theorem queue_stuck_after_failure :
    (runEnqueue (runEnqueue (runEnqueue QInit ⟨1, true⟩) ⟨2, false⟩) ⟨3, false⟩).applied = [] ∧
    (runEnqueue (runEnqueue (runEnqueue QInit ⟨1, true⟩) ⟨2, false⟩) ⟨3, false⟩).queue
      = [⟨2, false⟩, ⟨3, false⟩] ∧
    (runEnqueue (runEnqueue (runEnqueue QInit ⟨1, true⟩) ⟨2, false⟩) ⟨3, false⟩).lock = true ∧
    (∀ t, Relation.ReflTransGen QStep
        (runEnqueue (runEnqueue (runEnqueue QInit ⟨1, true⟩) ⟨2, false⟩) ⟨3, false⟩) t →
      t.applied = []) := by
  refine ⟨rfl, rfl, rfl, fun t ht => ?_⟩
  exact (stuck_applied_frozen ht rfl rfl).1

/-- Witness for C6: instantiating the frozen-forever part at the stuck
state itself. -/
theorem queue_stuck_after_failure_witness :
    (runEnqueue (runEnqueue (runEnqueue QInit ⟨1, true⟩) ⟨2, false⟩) ⟨3, false⟩).applied = [] :=
  queue_stuck_after_failure.2.2.2 _ Relation.ReflTransGen.refl

/-- The inductive invariant of the queue subsystem: at most one drain is
active; an unlocked instance has an empty queue and no active drain; and
while no submitted request fails, the applied list and the queue together
are exactly the submission order and a held lock means exactly one active
drain. -/
def QInv (s : QState) : Prop :=
  s.active ≤ 1 ∧
  (s.lock = false → s.queue = [] ∧ s.active = 0) ∧
  ((∀ r ∈ s.submitted, r.fails = false) →
     s.applied ++ s.queue = s.submitted ∧ (s.lock = true → s.active = 1))

/-- The invariant holds in every reachable state. -/
theorem qreach_inv {s : QState} (h : QReach s) : QInv s := by
  induction h with
  | init =>
    exact ⟨by simp [QInit], fun _ => ⟨rfl, rfl⟩, fun _ => ⟨rfl, by simp [QInit]⟩⟩
  | step hs hstep ih =>
    obtain ⟨hle, hfree, hcond⟩ := ih
    cases hstep with
    | enqLocked r q a ap sub =>
      refine ⟨hle, by simp, fun hok => ?_⟩
      have hok' : ∀ x ∈ sub, x.fails = false := fun x hx => hok x (by simp [hx])
      obtain ⟨hsub, hl1⟩ := hcond hok'
      refine ⟨?_, fun _ => hl1 rfl⟩
      simp only at hsub ⊢
      rw [← List.append_assoc, hsub]
    | enqUnlocked r q a ap sub =>
      obtain ⟨hq, ha⟩ := hfree rfl
      simp only at hq ha
      subst hq ha
      refine ⟨by simp, by simp, fun hok => ?_⟩
      have hok' : ∀ x ∈ sub, x.fails = false := fun x hx => hok x (by simp [hx])
      obtain ⟨hsub, _⟩ := hcond hok'
      simp only at hsub
      refine ⟨?_, fun _ => rfl⟩
      simp only
      rw [← List.append_assoc, hsub]
    | drain hd =>
      cases hd with
      | applyOk r q a ap sub hr =>
        refine ⟨hle, by simp, fun hok => ?_⟩
        obtain ⟨hsub, hl1⟩ := hcond hok
        simp only at hsub hl1 ⊢
        refine ⟨by rw [List.append_assoc]; simpa using hsub, fun _ => hl1 (by trivial)⟩
      | applyFail r q a ap sub hr =>
        refine ⟨by simpa using Nat.le_of_succ_le hle, by simp, fun hok => ?_⟩
        obtain ⟨hsub, _⟩ := hcond hok
        simp only at hsub
        have hrf : r.fails = false := by
          apply hok
          rw [← hsub]
          simp
        rw [hr] at hrf
        exact absurd hrf (by simp)
      | finish a ap sub =>
        have ha0 : a = 0 := by simpa using hle
        subst ha0
        refine ⟨by simp, fun _ => ⟨rfl, rfl⟩, fun hok => ?_⟩
        obtain ⟨hsub, _⟩ := hcond hok
        simp only at hsub ⊢
        exact ⟨hsub, fun hfalse => by simp at hfalse⟩

/-- A drain already holding the lock, alone (no further enqueues), applies
every pending request in order and then releases the lock. -/
theorem drain_completes (q : List Req) : ∀ (ap sub : List Req), ap ++ q = sub →
    (∀ r ∈ sub, r.fails = false) →
    Relation.ReflTransGen QDrain ⟨q, true, 1, ap, sub⟩ ⟨[], false, 0, sub, sub⟩ := by
  induction q with
  | nil =>
    intro ap sub hsub hok
    have : ap = sub := by simpa using hsub
    subst this
    exact Relation.ReflTransGen.single (QDrain.finish 0 ap ap)
  | cons r q ih =>
    intro ap sub hsub hok
    have hr : r.fails = false := hok r (by rw [← hsub]; simp)
    refine Relation.ReflTransGen.head (QDrain.applyOk r q 0 ap sub hr) ?_
    exact ih (ap ++ [r]) sub (by simpa using hsub) hok

/-- C2: in every reachable state of the queue subsystem in which no
submitted update fails, the applied list followed by the pending queue is
exactly the submission order (updates apply in submission order, nothing
dropped or reordered); at most one drain loop is active at any time (at
most one update is being applied); when the lock is free the queue is
empty and everything submitted has been applied — so N requests enqueued
during a drain are all applied before the loop goes idle; and from any
locked state the drain loop alone (no external re-trigger) finishes the
whole queue and releases the lock. -/
theorem queue_ordering (s : QState) (h : QReach s)
    (hok : ∀ r ∈ s.submitted, r.fails = false) :
    s.applied ++ s.queue = s.submitted ∧
    s.active ≤ 1 ∧
    (s.lock = false → s.queue = [] ∧ s.applied = s.submitted) ∧
    (s.lock = true → Relation.ReflTransGen QDrain s ⟨[], false, 0, s.submitted, s.submitted⟩) := by
  obtain ⟨hle, hfree, hcond⟩ := qreach_inv h
  obtain ⟨hsub, hl1⟩ := hcond hok
  refine ⟨hsub, hle, fun hl => ?_, fun hl => ?_⟩
  · obtain ⟨hq, _⟩ := hfree hl
    refine ⟨hq, ?_⟩
    rw [← hsub, hq, List.append_nil]
  · have ha := hl1 hl
    obtain ⟨queue, lock, active, applied, submitted⟩ := s
    simp only at hl ha hsub hok ⊢
    subst hl ha hsub
    exact drain_completes queue applied _ rfl hok

/-- C5 counterexample: the claim says writing a string or a number writes
the value as-is with no tag record. Writing the number 5 writes a `.meta`
tag record with type "number" (src/unnamed/part_002 lines 179-189):
after the save into an empty store, the record k:a.meta exists. -/
theorem number_leaf_is_tagged :
    ∃ st2,
      saveItem [] { key := "k", item := some "a", value := .vnum 5, oldValue := .vstr "old" }
        = .ok st2 ∧
      sGet st2 "k:a.meta" = some (.str (.jsonv (.vobj [("type", .vstr "number")]))) :=
  ⟨_, rfl, rfl⟩

theorem sGet_taggedWrite (st1 : Store) (key : String) (item : Option String) (mk : String)
    (tag payload : RVal) (hk : mk ≠ key) :
    sGet (writeLeaf (sset st1 mk tag) key item payload) mk = some (.str tag) := by
  rw [sGet_writeLeaf_ne _ _ _ _ _ hk, sGet_sset_self]

theorem sGet_staleDelete (st : Store) (mk t : String) :
    sGet (if t = "number" ∨ t = "raw" ∨ t = "json" ∨ t = "boolean" ∨ t = "function"
          ∨ t = "null" ∨ t = "map" ∨ t = "set" then sdel st mk else st) mk =
      if staleDeleteType t then none else sGet st mk := by
  by_cases h : t = "number" ∨ t = "raw" ∨ t = "json" ∨ t = "boolean" ∨ t = "function"
      ∨ t = "null" ∨ t = "map" ∨ t = "set"
  · rw [if_pos h, sGet_sdel_self,
      if_pos (by simp only [staleDeleteType, Bool.or_eq_true, decide_eq_true_eq]; tauto)]
  · rw [if_neg h, if_neg (by simp only [staleDeleteType, Bool.or_eq_true, decide_eq_true_eq]; tauto)]

/-- C5 amended: after any resolving `_saveItem` (the array or plain-object
save against a falsy item rejects and leaves no post-state), the `.meta`
record of the written leaf is present exactly when the new value's type is
tagged — json-string, number, boolean, date, function, null, map or set —
so numbers and booleans are tagged, not only values that default coercion
cannot restore, while strings (including non-restorable ones beginning
"JSON\x7d\x7d\x7d"), arrays and plain objects are untagged; when the new
type is untagged, the stale record is deleted exactly when the old value's
type is in the delete list (number, raw, json, boolean, function, null,
map, set) — `date` is absent from it, so a date-tagged leaf overwritten
with an untagged value keeps its stale tag record. -/
theorem saveItem_meta (st : Store) (a : SaveArgs) (st2 : Store)
    (h : saveItem st a = .ok st2) :
    sGet st2 (metaKeyOf a) =
      if taggedType (getValueType a.value) then
        some (.str (.jsonv (.vobj [("type", .vstr (writtenTag a.value))])))
      else if staleDeleteType (getValueType a.oldValue) then none
      else sGet st (metaKeyOf a) := by
  obtain ⟨key, item, value, oldValue⟩ := a
  have hk : metaKeyOf ⟨key, item, value, oldValue⟩ ≠ key :=
    Ne.symm (metaKeyOf_ne_key ⟨key, item, value, oldValue⟩)
  have hmk : (if jsTruthy item then key ++ ":" ++ jsRender item else key) ++ ".meta"
      = metaKeyOf ⟨key, item, value, oldValue⟩ := rfl
  rw [saveItem] at h
  simp only [hmk] at h
  cases value with
  | vstr s =>
    dsimp only at h
    injection h with h2
    subst h2
    by_cases hj : isJSON s
    · rw [if_pos hj, sGet_taggedWrite _ _ _ _ _ _ hk]
      simp [getValueType, taggedType, writtenTag, hj]
    · rw [if_neg hj, sGet_writeLeaf_ne _ _ _ _ _ hk, sGet_staleDelete]
      simp [getValueType, taggedType, hj]
  | vnum n =>
    dsimp only at h
    injection h with h2
    subst h2
    rw [sGet_taggedWrite _ _ _ _ _ _ hk]
    simp [getValueType, taggedType, writtenTag]
  | vbool b =>
    dsimp only at h
    injection h with h2
    subst h2
    rw [sGet_taggedWrite _ _ _ _ _ _ hk]
    simp [getValueType, taggedType, writtenTag]
  | vdate ms =>
    dsimp only at h
    injection h with h2
    subst h2
    rw [sGet_taggedWrite _ _ _ _ _ _ hk]
    simp [getValueType, taggedType, writtenTag]
  | vnull =>
    dsimp only at h
    injection h with h2
    subst h2
    rw [sGet_taggedWrite _ _ _ _ _ _ hk]
    simp [getValueType, taggedType, writtenTag]
  | vmap entries =>
    dsimp only at h
    injection h with h2
    subst h2
    rw [sGet_taggedWrite _ _ _ _ _ _ hk]
    simp [getValueType, taggedType, writtenTag]
  | vset xs =>
    dsimp only at h
    injection h with h2
    subst h2
    rw [sGet_taggedWrite _ _ _ _ _ _ hk]
    simp [getValueType, taggedType, writtenTag]
  | vfunc src =>
    dsimp only at h
    injection h with h2
    subst h2
    rw [sGet_taggedWrite _ _ _ _ _ _ hk]
    simp [getValueType, taggedType, writtenTag]
  | varr xs =>
    dsimp only at h
    split at h
    · injection h with h2
      subst h2
      rw [sGet_hset_ne _ _ _ _ _ hk, sGet_staleDelete]
      simp [getValueType, taggedType]
    · exact Except.noConfusion h
  | vobj fs =>
    dsimp only at h
    split at h
    · injection h with h2
      subst h2
      rw [sGet_hset_ne _ _ _ _ _ hk, sGet_staleDelete]
      simp [getValueType, taggedType]
    · exact Except.noConfusion h
  | vundef =>
    dsimp only at h
    injection h with h2
    subst h2
    split
    · rw [sGet_hdel_ne _ _ _ _ hk, sGet_staleDelete]
      simp [getValueType, taggedType]
    · rw [sGet_sdel_ne _ _ _ hk, sGet_staleDelete]
      simp [getValueType, taggedType]

/-- Witness for C5 at a concrete resolving save: a date leaf written over a
null old value gets its tag record written. -/
theorem saveItem_meta_witness :
    ∃ st2,
      saveItem [] { key := "k", item := some "a", value := .vdate 99, oldValue := .vnull }
        = .ok st2 ∧
      sGet st2 (metaKeyOf { key := "k", item := some "a", value := .vdate 99, oldValue := .vnull })
        = (if taggedType (getValueType (.vdate 99)) then
            some (.str (.jsonv (.vobj [("type", .vstr (writtenTag (.vdate 99)))])))
          else if staleDeleteType (getValueType (.vnull)) then none
          else sGet []
            (metaKeyOf { key := "k", item := some "a", value := .vdate 99, oldValue := .vnull })) :=
  ⟨_, rfl, saveItem_meta [] _ _ rfl⟩

/-- C1: for every nonempty plain object with safe (colon- and dot-free,
pattern-safe) keys and well-formed leaf values (no functions, no undefined,
no strings opening with the codec's JSON sentinel), calling put(name, v)
and then get(name) returns a value deep-equal to v, every leaf restored to
its original type. As stated the claim is wider — it also promises the
round trip for scalar roots and function leaves — and there it fails (see
the counterexample): a number put at the root is read back as a string. -/
theorem put_get_roundtrip (name : String) (fs : List (String × JVal))
    (hname : nameOk name = true) (hwf : wfFlds fs = true) (hfs : fs ≠ []) :
    ∃ st2, put ⟨false⟩ [] name (.vobj fs) = .ok (st2, true) ∧
      deepEqual (.vobj fs) (get st2 name) = true := by
  have hne : fs.isEmpty = false := by
    cases fs with
    | nil => exact absurd rfl hfs
    | cons a l => rfl
  have hput : put ⟨false⟩ [] name (.vobj fs)
      = .ok (saveFold name [] (segLeaves fs), true) := by
    rw [put, update_vobj ⟨false⟩ [] name fs (.vbool false) hne (deepEqual_obj_bool fs false)]
    rw [show (deleteKeyPath ⟨false⟩ [] name none).1 = [] from by rw [deleteKeyPath_nil]]
    rw [obj_fold_saveFold name fs [] hwf]
  refine ⟨saveFold name [] (segLeaves fs), hput, ?_⟩
  obtain ⟨M, hperm, hget⟩ := get_after_save name fs hname hwf hfs
  rw [hget]
  exact rebuild_deq (jsizeFlds fs + 1) fs M (Nat.lt_succ_self _) hwf hperm

/-- Counterexample to C1 as stated: a number stored at the root is read
back as a string, so the round trip is not deep-equal for scalar roots. -/
theorem scalar_root_not_roundtripped :
    ∃ st2, put ⟨false⟩ [] "n" (.vnum 5) = .ok (st2, true) ∧
      deepEqual (.vnum 5) (get st2 "n") = false :=
  ⟨_, rfl, rfl⟩

/-- Witness for C1 at a concrete object exercising every restorable leaf
type. -/
theorem put_get_roundtrip_witness :
    nameOk "obj" = true ∧ wfFlds demoObj = true ∧ demoObj ≠ [] ∧
    (∃ st2, put ⟨false⟩ [] "obj" (.vobj demoObj) = .ok (st2, true) ∧
      deepEqual (.vobj demoObj) (get st2 "obj") = true) :=
  ⟨by decide, by decide, by simp [demoObj],
    put_get_roundtrip "obj" demoObj (by decide) (by decide) (by simp [demoObj])⟩

/-- Witness for C2 at the initial state of a fresh instance. -/
theorem queue_ordering_witness :
    QInit.applied ++ QInit.queue = QInit.submitted ∧
    QInit.active ≤ 1 ∧
    (QInit.lock = false → QInit.queue = [] ∧ QInit.applied = QInit.submitted) ∧
    (QInit.lock = true →
      Relation.ReflTransGen QDrain QInit ⟨[], false, 0, QInit.submitted, QInit.submitted⟩) :=
  queue_ordering QInit QReach.init (fun r hr => absurd hr (by simp [QInit]))

end RedisObjects
